import Mathlib

/-!
# Conway's Game of Life (`src/main.c`): a shallow embedding and its properties

The C program keeps the board as a `Cell **` of `n_rows` rows of `n_cols` cells.
Here a board is a list of rows, every C `int` is an `Int`, and every array
access is checked against the allocated shape: reading or writing outside the
allocation yields `none`, so that a function returning `some _` is one whose
accesses all stayed inside the board.

Integer overflow is not modelled: all coordinates handled by the functions
below are bounded by the board dimensions, neighbour sums by 8 and the live
count by the number of cells.
-/

namespace GameOfLife

/-! ## Data model -/

/-- The C `struct cell`: a `bool alive` and an `int n_alive_neighbrs`. -/
structure Cell where
  alive : Bool
  n_alive_neighbrs : Int
deriving DecidableEq, Repr

/-- The C macro `ALIVE` (1) as a value of the `bool` field. -/
def ALIVE : Bool := true

/-- The C macro `DEAD` (0) as a value of the `bool` field. -/
def DEAD : Bool := false

/-- The C macro `NMAX`. -/
def NMAX : Int := 50

/-- The C macro `ASCII_ADJUST`. -/
def ASCII_ADJUST : Int := 48

/-- The C macro `NEWLINE_CHAR`. -/
def NEWLINE_CHAR : Char := Char.ofNat 10

/-- The C macro `EOF`. -/
def EOF : Int := -1

/-- A board: the rows pointed to by the C `Cell **board`. -/
abbrev Board := List (List Cell)

/-- Integer value of a C `bool` used in arithmetic or printed with `%d`. -/
def b2i (b : Bool) : Int := if b then 1 else 0

/-- The read `board[i][j]`; `none` when the index is outside the allocation. -/
def readCell (board : Board) (i j : Int) : Option Cell :=
  if 0 ≤ i ∧ 0 ≤ j then
    match board[i.toNat]? with
    | none => none
    | some row => row[j.toNat]?
  else none

/-- The write `board[i][j] = c`; `none` when the index is outside the allocation. -/
def writeCell (board : Board) (i j : Int) (c : Cell) : Option Board :=
  if 0 ≤ i ∧ 0 ≤ j then
    match board[i.toNat]? with
    | none => none
    | some row =>
      if j.toNat < row.length then some (board.set i.toNat (row.set j.toNat c)) else none
  else none

/-- The board was allocated with `n_rows` rows of `n_cols` cells each. -/
def WF (board : Board) (n_rows n_cols : Int) : Prop :=
  (board.length : Int) = n_rows ∧ ∀ row ∈ board, (row.length : Int) = n_cols

instance (board : Board) (n_rows n_cols : Int) : Decidable (WF board n_rows n_cols) := by
  unfold WF
  infer_instance

/-- The alive flags of a board, row by row (what `print_board` and `save_board` show). -/
def aliveStates (board : Board) : List (List Bool) :=
  board.map (fun row => row.map (fun c => c.alive))

/-- The neighbour counts of a board, row by row. -/
def neighbourCounts (board : Board) : List (List Int) :=
  board.map (fun row => row.map (fun c => c.n_alive_neighbrs))

/-! ## Counted loops -/

/-- Runs `body i` for `n` consecutive values of `i` starting at `i`, threading the state;
stops with `none` as soon as the body does. -/
def forRange {σ : Type} (body : Int → σ → Option σ) : Int → Nat → σ → Option σ
  | _, 0, s => some s
  | i, n + 1, s =>
    match body i s with
    | none => none
    | some s1 => forRange body (i + 1) n s1

/-- The C loop `for (int i = lo; i < hi; i++) body`, whose body changes neither `i` nor `hi`:
it runs `hi - lo` times when that is positive and not at all otherwise. -/
def forLoop {σ : Type} (lo hi : Int) (body : Int → σ → Option σ) (s : σ) : Option σ :=
  forRange body lo (hi - lo).toNat s

/-! ## Toroidal boundary indexer -/

/-- The C function `up_coord`. -/
def up_coord (coord bound : Int) : Int :=
  if coord + 1 > bound - 1 then 0 else coord + 1

/-- The C function `down_coord`. -/
def down_coord (coord bound : Int) : Int :=
  if coord - 1 < 0 then bound - 1 else coord - 1

/-! ## Neighbour counter -/

/-- The body of the double loop of `calc_n_neighbours`: the eight reads, in source order,
and the write of their sum to `board[i][j].n_alive_neighbrs`. -/
def calc_cell (board : Board) (n_rows n_cols i j : Int) : Option Board := do
  let c1 ← readCell board (down_coord i n_rows) (down_coord j n_cols)
  let c2 ← readCell board i (down_coord j n_cols)
  let c3 ← readCell board (up_coord i n_rows) (down_coord j n_cols)
  let c4 ← readCell board (down_coord i n_rows) j
  let c5 ← readCell board (up_coord i n_rows) j
  let c6 ← readCell board (down_coord i n_rows) (up_coord j n_cols)
  let c7 ← readCell board i (up_coord j n_cols)
  let c8 ← readCell board (up_coord i n_rows) (up_coord j n_cols)
  let c ← readCell board i j
  writeCell board i j
    { c with n_alive_neighbrs := 0 + b2i c1.alive + b2i c2.alive + b2i c3.alive + b2i c4.alive
                                   + b2i c5.alive + b2i c6.alive + b2i c7.alive + b2i c8.alive }

/-- The C function `calc_n_neighbours`. -/
def calc_n_neighbours (board : Board) (n_rows n_cols : Int) : Option Board :=
  forLoop 0 n_rows
    (fun i b => forLoop 0 n_cols (fun j b1 => calc_cell b1 n_rows n_cols i j) b) board

/-! ## Rule evaluator -/

/-- The body of the double loop of `update_board`: the if/else-if chain on
`board[i][j].n_alive_neighbrs`, acting on the board and on the counter `cells_alive`. -/
def update_cell (death_overpop death_underpop birth_repro : Int) (i j : Int)
    (s : Board × Int) : Option (Board × Int) := do
  let c ← readCell s.1 i j
  if c.n_alive_neighbrs < death_underpop then
    let b ← writeCell s.1 i j { c with alive := DEAD }
    pure (b, s.2)
  else if c.n_alive_neighbrs > death_overpop then
    let b ← writeCell s.1 i j { c with alive := DEAD }
    pure (b, s.2)
  else if c.n_alive_neighbrs = birth_repro then
    let b ← writeCell s.1 i j { c with alive := ALIVE }
    pure (b, s.2 + 1)
  else if c.alive = ALIVE then
    pure (s.1, s.2 + 1)
  else
    pure (s.1, s.2)

/-- The C function `update_board`: the updated board and the returned `cells_alive`. -/
def update_board (board : Board) (n_rows n_cols fixed_bounds : Int)
    (death_overpop death_underpop birth_repro : Int) : Option (Board × Int) := do
  let b ← calc_n_neighbours board n_rows n_cols
  forLoop fixed_bounds (n_rows - fixed_bounds)
    (fun i s => forLoop fixed_bounds (n_cols - fixed_bounds)
      (fun j s1 => update_cell death_overpop death_underpop birth_repro i j s1) s) (b, 0)

/-! ## Board creation -/

/-- How a call that the program ends with `exit(EXIT_FAILURE)`, or that leaves the allocated
board, stops. `outOfBounds` is no branch of the program: it marks an access outside the
allocation, which is undefined behaviour in C. -/
inductive Fault where
  | headerMissing
  | outOfMemory
  | dimensionMismatch
  | anomalousValue
  | outOfBounds
deriving DecidableEq, Repr

/-- The memory returned by the `malloc` calls of `create_board`: `n_rows` rows of `n_cols`
cells with the indeterminate contents `heap i j`. -/
def malloc_board (heap : Nat → Nat → Cell) (n_rows n_cols : Int) : Board :=
  (List.range n_rows.toNat).map (fun (i : Nat) =>
    (List.range n_cols.toNat).map (fun (j : Nat) => heap i j))

/-- The C function `create_board`. A negative `n_rows`, or a negative `n_cols` with at least
one row to allocate, converts to a size that `malloc` cannot serve, which takes the
out-of-memory exit; every other allocation is taken to succeed. The fill loop then writes
`DEAD` and 0 into every cell. -/
def create_board (heap : Nat → Nat → Cell) (n_rows n_cols : Int) : Except Fault Board :=
  if n_rows < 0 then Except.error Fault.outOfMemory
  else if 0 < n_rows ∧ n_cols < 0 then Except.error Fault.outOfMemory
  else
    match forLoop 0 n_rows
        (fun i b => forLoop 0 n_cols
          (fun j b1 => do
            let c ← readCell b1 i j
            let b2 ← writeCell b1 i j { c with alive := DEAD }
            let c2 ← readCell b2 i j
            writeCell b2 i j { c2 with n_alive_neighbrs := 0 }) b)
        (malloc_board heap n_rows n_cols) with
    | none => Except.error Fault.outOfBounds
    | some b => Except.ok b

/-! ## Board codec: writing -/

/-- Output of `printf("%d", n)`: an optional minus sign and the decimal digits. -/
def print_int (n : Int) : List Char :=
  if n < 0 then '-' :: Nat.toDigits 10 n.natAbs else Nat.toDigits 10 n.toNat

/-- The text that `save_board` writes to the file once the user has chosen to save: the
header line, then for each row one digit per cell and a newline. -/
def save_board (board : Board) (n_rows n_cols fixed_bounds : Int) : Option (List Char) :=
  forLoop 0 n_rows
    (fun i out => do
      let out1 ← forLoop 0 n_cols
        (fun j o => do
          let c ← readCell board i j
          pure (o ++ print_int (b2i c.alive))) out
      pure (out1 ++ [NEWLINE_CHAR]))
    ("n_rows:".toList ++ print_int n_rows ++ ", n_cols:".toList ++ print_int n_cols
      ++ ", fixed_bounds:".toList ++ print_int fixed_bounds ++ [NEWLINE_CHAR])

/-! ## Board codec: reading -/

/-- The C library predicate `isspace` in the C locale. -/
def is_space (c : Char) : Bool :=
  c = ' ' || c.toNat = 9 || c.toNat = 10 || c.toNat = 11 || c.toNat = 12 || c.toNat = 13

/-- The C library predicate `isdigit`. -/
def is_digit (c : Char) : Bool :=
  48 ≤ c.toNat && c.toNat ≤ 57

/-- Why a directive of `fscanf` stops the call: the input ended (input failure) or the next
character does not fit (matching failure). -/
inductive ScanStop where
  | inputFailure
  | matchFailure
deriving DecidableEq, Repr

/-- A white-space directive of a `fscanf` format, and the white space skipped before a
`%d`: drops the leading white-space characters of the input. -/
def skip_space : List Char → List Char
  | [] => []
  | c :: cs => if is_space c then skip_space cs else c :: cs

/-- The ordinary characters of a `fscanf` format: each must be the next input character.
A failure comes with the input that is left unread. -/
def scan_literal : List Char → List Char → Except (ScanStop × List Char) (List Char)
  | [], inp => Except.ok inp
  | _ :: _, [] => Except.error (ScanStop.inputFailure, [])
  | p :: ps, c :: cs =>
    if c = p then scan_literal ps cs else Except.error (ScanStop.matchFailure, c :: cs)

/-- Reads the longest run of decimal digits, accumulating their value. -/
def scan_digits : Nat → List Char → Nat × List Char
  | acc, [] => (acc, [])
  | acc, c :: cs =>
    if is_digit c then scan_digits (acc * 10 + (c.toNat - 48)) cs else (acc, c :: cs)

/-- The `%d` directive of `fscanf`: skips white space, then reads an optional sign and a
non-empty run of digits. The value is not reduced to the range of `int`. -/
def scan_int (inp : List Char) : Except (ScanStop × List Char) (Int × List Char) :=
  match skip_space inp with
  | [] => Except.error (ScanStop.inputFailure, [])
  | c :: cs =>
    if c = '-' ∨ c = '+' then
      match cs with
      | [] => Except.error (ScanStop.matchFailure, [])
      | d :: ds =>
        if is_digit d then
          Except.ok ((if c = '-' then - ((scan_digits 0 (d :: ds)).1 : Int)
                      else ((scan_digits 0 (d :: ds)).1 : Int)), (scan_digits 0 (d :: ds)).2)
        else Except.error (ScanStop.matchFailure, d :: ds)
    else if is_digit c then
      Except.ok (((scan_digits 0 (c :: cs)).1 : Int), (scan_digits 0 (c :: cs)).2)
    else Except.error (ScanStop.matchFailure, c :: cs)

/-- What the call `fscanf(readfile, "n_rows:%d, n_cols:%d, fixed_bounds:%d", ...)` leaves:
its return value, the three variables and the unread input. -/
structure HeaderScan where
  ret : Int
  n_rows : Int
  n_cols : Int
  fixed_bounds : Int
  rest : List Char
deriving DecidableEq, Repr

/-- The part `, key:%d` of the header format: the comma, the white-space directive, the
key and the number. -/
def scan_field (key : List Char) (inp : List Char) :
    Except (ScanStop × List Char) (Int × List Char) :=
  match scan_literal [','] inp with
  | Except.error e => Except.error e
  | Except.ok in1 =>
    match scan_literal key (skip_space in1) with
    | Except.error e => Except.error e
    | Except.ok in2 => scan_int in2

/-- The header `fscanf` of `main`. The variables start from `n_rows0`, `n_cols0` (both
uninitialised in the program) and `fixed_bounds0`; a variable is assigned only when its
conversion succeeds. The call returns `EOF` when the input ends before the first
conversion, and otherwise the number of variables assigned. -/
def fscanf_header (n_rows0 n_cols0 fixed_bounds0 : Int) (inp : List Char) : HeaderScan :=
  match scan_literal "n_rows:".toList inp with
  | Except.error (ScanStop.inputFailure, rest) => ⟨EOF, n_rows0, n_cols0, fixed_bounds0, rest⟩
  | Except.error (ScanStop.matchFailure, rest) => ⟨0, n_rows0, n_cols0, fixed_bounds0, rest⟩
  | Except.ok in1 =>
    match scan_int in1 with
    | Except.error (ScanStop.inputFailure, rest) => ⟨EOF, n_rows0, n_cols0, fixed_bounds0, rest⟩
    | Except.error (ScanStop.matchFailure, rest) => ⟨0, n_rows0, n_cols0, fixed_bounds0, rest⟩
    | Except.ok (r, in2) =>
      match scan_field "n_cols:".toList in2 with
      | Except.error (_, rest) => ⟨1, r, n_cols0, fixed_bounds0, rest⟩
      | Except.ok (c, in3) =>
        match scan_field "fixed_bounds:".toList in3 with
        | Except.error (_, rest) => ⟨2, r, c, fixed_bounds0, rest⟩
        | Except.ok (f, in4) => ⟨3, r, c, f, in4⟩

/-- The character loop of the board decoder in `main`: `while ((c = fgetc(readfile)) != EOF)`
with the dimension check, the newline case, the check of the character and the write to
`board[row][col].alive`. The loop ends with the text; a byte that a `char` would confuse
with `EOF` is not modelled. -/
def read_cells (n_rows n_cols : Int) : List Char → Board → Int → Int → Except Fault Board
  | [], board, _, _ => Except.ok board
  | c :: cs, board, row, col =>
    if row > n_rows + 1 ∨ col > n_cols then Except.error Fault.dimensionMismatch
    else if c = NEWLINE_CHAR then read_cells n_rows n_cols cs board (row + 1) 0
    else if (c.toNat : Int) - ASCII_ADJUST ≠ 0 ∧ (c.toNat : Int) - ASCII_ADJUST ≠ 1 then
      Except.error Fault.anomalousValue
    else
      match readCell board row col with
      | none => Except.error Fault.outOfBounds
      | some cell =>
        match writeCell board row col
            { cell with alive := decide ((c.toNat : Int) - ASCII_ADJUST ≠ 0) } with
        | none => Except.error Fault.outOfBounds
        | some b => read_cells n_rows n_cols cs b row (col + 1)

/-- The values that the program reads without having set them: the stack contents of
`n_rows` and `n_cols` in `main` and the contents of freshly allocated cells. -/
structure Uninit where
  n_rows : Int
  n_cols : Int
  heap : Nat → Nat → Cell

/-- What the board decoder hands to `play_game`. -/
structure Decoded where
  n_rows : Int
  n_cols : Int
  fixed_bounds : Int
  board : Board
deriving DecidableEq, Repr

/-- The board decoder of `main` (pre-set grids, from the header `fscanf` to `fclose`) on the
contents `text` of the opened file. -/
def main_read_board (u : Uninit) (text : List Char) : Except Fault Decoded :=
  if (fscanf_header u.n_rows u.n_cols 0 text).ret = EOF then Except.error Fault.headerMissing
  else
    match create_board u.heap (fscanf_header u.n_rows u.n_cols 0 text).n_rows
        (fscanf_header u.n_rows u.n_cols 0 text).n_cols with
    | Except.error e => Except.error e
    | Except.ok board =>
      match read_cells (fscanf_header u.n_rows u.n_cols 0 text).n_rows
          (fscanf_header u.n_rows u.n_cols 0 text).n_cols
          (fscanf_header u.n_rows u.n_cols 0 text).rest board (-1) 0 with
      | Except.error e => Except.error e
      | Except.ok b =>
        Except.ok ⟨(fscanf_header u.n_rows u.n_cols 0 text).n_rows,
          (fscanf_header u.n_rows u.n_cols 0 text).n_cols,
          (fscanf_header u.n_rows u.n_cols 0 text).fixed_bounds, b⟩

/-! ## Manual editing, console input and rule presets -/

/-- The C function `add_living_cell`: the board afterwards, and whether the branch that
prints `[ERROR] add_living_cell - Overflow error` was taken. The function first decrements
`x` and `y`; it does not end the program. -/
def add_living_cell (board : Board) (n_rows n_cols x y : Int) : Option (Board × Bool) :=
  if x - 1 ≥ 0 ∧ x - 1 < n_rows ∧ y - 1 ≥ 0 ∧ y - 1 < n_cols then do
    let c ← readCell board (x - 1) (y - 1)
    let b ← writeCell board (x - 1) (y - 1) { c with alive := ALIVE }
    pure (b, false)
  else some (board, true)

/-- The two `exit(EXIT_FAILURE)` branches of `get_n_elements`. -/
inductive InputFault where
  | notPositive
  | tooLarge
deriving DecidableEq, Repr

/-- The C function `get_n_elements`, on the value `n` that `scanf("%d", &n)` leaves in the
variable (0 when nothing was read). -/
def get_n_elements (n : Int) : Except InputFault Int :=
  if n < 1 then Except.error InputFault.notPositive
  else if n > NMAX then Except.error InputFault.tooLarge
  else Except.ok n

/-- Board creation of the random-grid and custom-grid modes of `main`: both dimensions go
through `get_n_elements` before `create_board` is called. -/
def main_console_board (heap : Nat → Nat → Cell) (rows_typed cols_typed : Int) :
    Except InputFault (Except Fault Board) :=
  match get_n_elements rows_typed with
  | Except.error e => Except.error e
  | Except.ok n_rows =>
    match get_n_elements cols_typed with
    | Except.error e => Except.error e
    | Except.ok n_cols => Except.ok (create_board heap n_rows n_cols)

/-- The `switch` of the C function `update_rules` on the option typed by the user, acting on
the triple `(death_overpop, death_underpop, birth_repro)`. -/
def update_rules (option : Int) (rules : Int × Int × Int) : Int × Int × Int :=
  if option = 1 then (3, 2, 3)
  else if option = 2 then (6, 3, 5)
  else if option = 3 then (4, 2, 3)
  else rules

/-- The values `(Overpopulation: n > _, Underpopulation: n < _, Reproduction n = _)` that
the menu printed by `update_rules` shows for each option. -/
def rules_menu (option : Int) : Option (Int × Int × Int) :=
  if option = 1 then some (3, 2, 3)
  else if option = 2 then some (6, 3, 4)
  else if option = 3 then some (4, 2, 3)
  else none

/-! ## Reference notions used to state the properties -/

/-- Alive state of cell `(i, j)` as 0 or 1 (0 outside the board). -/
def aliveInt (board : Board) (i j : Int) : Int :=
  match readCell board i j with
  | some c => b2i c.alive
  | none => 0

/-- The eight offsets of the Moore neighbourhood. -/
def offsets8 : List (Int × Int) :=
  [(-1, -1), (-1, 0), (-1, 1), (0, -1), (0, 1), (1, -1), (1, 0), (1, 1)]

/-- Wrapped 8-neighbour count of cell `(i, j)`: the sum over the eight offsets of the alive
state of the cell at `((i + di) mod n_rows, (j + dj) mod n_cols)`. -/
def wrappedCount (board : Board) (n_rows n_cols i j : Int) : Int :=
  (offsets8.map (fun d => aliveInt board ((i + d.1) % n_rows) ((j + d.2) % n_cols))).sum

/-- The sum `calc_n_neighbours` stores for cell `(i, j)`, as a function of the alive states:
the eight terms in source order, through `up_coord` and `down_coord`. -/
def srcCount (board : Board) (n_rows n_cols i j : Int) : Int :=
  0 + aliveInt board (down_coord i n_rows) (down_coord j n_cols)
    + aliveInt board i (down_coord j n_cols)
    + aliveInt board (up_coord i n_rows) (down_coord j n_cols)
    + aliveInt board (down_coord i n_rows) j
    + aliveInt board (up_coord i n_rows) j
    + aliveInt board (down_coord i n_rows) (up_coord j n_cols)
    + aliveInt board i (up_coord j n_cols)
    + aliveInt board (up_coord i n_rows) (up_coord j n_cols)

/-- Loop invariant of `calc_n_neighbours` when it is about to treat cell `(i, j)`: the
shape and the alive states are those of the initial board `old`, the cells before `(i, j)`
in row-major order hold their neighbour sum and the others their initial count. -/
def CalcInv (old : Board) (n_rows n_cols i j : Int) (b : Board) : Prop :=
  WF b n_rows n_cols ∧
  ∀ a k c, readCell old a k = some c →
    ∃ c1, readCell b a k = some c1 ∧ c1.alive = c.alive ∧
      ((a < i ∨ (a = i ∧ k < j)) → c1.n_alive_neighbrs = srcCount old n_rows n_cols a k) ∧
      (¬ (a < i ∨ (a = i ∧ k < j)) → c1.n_alive_neighbrs = c.n_alive_neighbrs)

/-- Outcome of the if/else-if chain of `update_board` for a cell: its next alive state. -/
def nextAlive (death_overpop death_underpop birth_repro : Int) (c : Cell) : Bool :=
  if c.n_alive_neighbrs < death_underpop then DEAD
  else if c.n_alive_neighbrs > death_overpop then DEAD
  else if c.n_alive_neighbrs = birth_repro then ALIVE
  else c.alive

/-- Next alive state (0 or 1) of cell `(a, k)` of the board `b0` produced by the counter. -/
def nextInt (death_overpop death_underpop birth_repro : Int) (b0 : Board) (a k : Int) : Int :=
  match readCell b0 a k with
  | some c => b2i (nextAlive death_overpop death_underpop birth_repro c)
  | none => 0

/-- Cell `(a, k)` has been treated when the rule loop of `update_board` is about to treat
cell `(i, j)`. -/
def Treated (n_cols fb i j a k : Int) : Prop :=
  (fb ≤ a ∧ a < i ∧ fb ≤ k ∧ k < n_cols - fb) ∨ (a = i ∧ fb ≤ k ∧ k < j)

/-- Loop invariant of the rule loop of `update_board` when it is about to treat cell
`(i, j)`, with `b0` the board left by the counter: treated cells hold their next alive
state, the other cells are those of `b0`, and the counter is the number of treated cells
that are now alive. -/
def UpdInv (b0 : Board) (n_rows n_cols fb dO dU bR : Int) (i j : Int) (s : Board × Int) :
    Prop :=
  WF s.1 n_rows n_cols ∧
  (∀ a k c, readCell b0 a k = some c →
    (Treated n_cols fb i j a k → readCell s.1 a k = some { c with alive := nextAlive dO dU bR c }) ∧
    (¬ Treated n_cols fb i j a k → readCell s.1 a k = some c)) ∧
  s.2 = (∑ a in Finset.Ico fb i, ∑ k in Finset.Ico fb (n_cols - fb), nextInt dO dU bR b0 a k)
        + ∑ k in Finset.Ico fb j, nextInt dO dU bR b0 i k

/-- A board with the given alive flags and every neighbour count 0. -/
def boardOfAlive (flags : List (List Bool)) : Board :=
  flags.map (fun row => row.map (fun a => (⟨a, 0⟩ : Cell)))

/-- Number of live cells on the whole board. -/
def liveCells (board : Board) : Int :=
  ((aliveStates board).map (fun row => ((row.map b2i).sum))).sum

/-- The digits that `save_board` writes for `n` cells of row `i` from column `j` on. -/
def cellsText (board : Board) (i j : Int) : Nat → List Char
  | 0 => []
  | n + 1 => print_int (aliveInt board i j) ++ cellsText board i (j + 1) n

/-- The lines that `save_board` writes for `n` rows from row `i` on. -/
def rowsText (board : Board) (n_cols : Int) (i : Int) : Nat → List Char
  | 0 => []
  | n + 1 => cellsText board i 0 n_cols.toNat ++ NEWLINE_CHAR :: rowsText board n_cols (i + 1) n

/-- State of the character loop of the decoder while it reads back the text saved from
`g`, when it is about to read the digit of cell `(i, j)`: the cells before `(i, j)` in
row-major order hold the alive state of `g`, the others are still dead, and every
neighbour count is 0. -/
def ReadInv (g : Board) (n_rows n_cols i j : Int) (b : Board) : Prop :=
  WF b n_rows n_cols ∧
  ∀ a k c, readCell g a k = some c →
    ((a < i ∨ (a = i ∧ k < j)) → readCell b a k = some ⟨c.alive, 0⟩) ∧
    (¬ (a < i ∨ (a = i ∧ k < j)) → readCell b a k = some ⟨DEAD, 0⟩)

/-- The loop variables `(row, col)` of the board decoder after it has read the characters
of a text, when none of them stopped the loop. -/
def read_position : List Char → Int × Int → Int × Int
  | [], p => p
  | c :: cs, p =>
    if c = NEWLINE_CHAR then read_position cs (p.1 + 1, 0) else read_position cs (p.1, p.2 + 1)

/-- The character of the board grammar for a cell: `'1'` alive, `'0'` dead. -/
def bit_char (a : Bool) : Char := if a then '1' else '0'

/-- The header of the board grammar, without its newline. -/
def headerText (n_rows n_cols fixed_bounds : Int) : List Char :=
  "n_rows:".toList ++ print_int n_rows ++ ", n_cols:".toList ++ print_int n_cols
    ++ ", fixed_bounds:".toList ++ print_int fixed_bounds

/-- The body of the board grammar: each line is its cell characters and a newline. -/
def bodyText (lines : List (List Bool)) : List Char :=
  (lines.map (fun l => l.map bit_char ++ [NEWLINE_CHAR])).flatten

/-! ## Patterns -/

/-- The `n_rows` x `n_cols` grid of flags whose entry `(i, j)` is `f i j`. -/
def gridOf (n_rows n_cols : Int) (f : Int → Int → Bool) : List (List Bool) :=
  (List.range n_rows.toNat).map (fun (i : Nat) =>
    (List.range n_cols.toNat).map (fun (j : Nat) => f (Int.ofNat i) (Int.ofNat j)))

/-- Indicator (0 or 1) of `x` being one of the two coordinates `p`, `q`. -/
def ind2 (p q x : Int) : Int := if x = p ∨ x = q then 1 else 0

/-- Membership of `(i, j)` in the 2x2 block whose first row is `p` and first column `q`,
the second row and column being their `up_coord` successors. -/
def blockFlags (n_rows n_cols p q : Int) (i j : Int) : Bool :=
  decide ((i = p ∨ i = up_coord p n_rows) ∧ (j = q ∨ j = up_coord q n_cols))

/-- Alive flags of the `n_rows` x `n_cols` board whose only live cells are the 2x2 block at
rows `r`, `r+1` and columns `c`, `c+1`, indices taken modulo `n_rows` and `n_cols`. -/
def blockPattern (n_rows n_cols r c : Int) : List (List Bool) :=
  gridOf n_rows n_cols (fun i j =>
    decide ((i = r % n_rows ∨ i = (r + 1) % n_rows) ∧ (j = c % n_cols ∨ j = (c + 1) % n_cols)))

/-- Indicator (0 or 1) of `x = p`. -/
def pt (p x : Int) : Int := if x = p then 1 else 0

/-- Indicator (0 or 1) of `x` being `p - 1`, `p` or `p + 1`. -/
def win (p x : Int) : Int := if x = p - 1 ∨ x = p ∨ x = p + 1 then 1 else 0

/-- Alive flags of the board whose only live cells are `(r, c-1)`, `(r, c)`, `(r, c+1)`. -/
def rowBlinker (n_rows n_cols r c : Int) : List (List Bool) :=
  gridOf n_rows n_cols (fun i j => decide (i = r ∧ (j = c - 1 ∨ j = c ∨ j = c + 1)))

/-- Alive flags of the board whose only live cells are `(r-1, c)`, `(r, c)`, `(r+1, c)`. -/
def colBlinker (n_rows n_cols r c : Int) : List (List Bool) :=
  gridOf n_rows n_cols (fun i j => decide ((i = r - 1 ∨ i = r ∨ i = r + 1) ∧ j = c))

/-- The eight board positions whose alive state `calc_n_neighbours` adds up for cell
`(i, j)`, in the order of the source (terms 1 to 8). -/
def neighbour_positions (n_rows n_cols i j : Int) : List (Int × Int) :=
  [(down_coord i n_rows, down_coord j n_cols), (i, down_coord j n_cols),
   (up_coord i n_rows, down_coord j n_cols), (down_coord i n_rows, j),
   (up_coord i n_rows, j), (down_coord i n_rows, up_coord j n_cols),
   (i, up_coord j n_cols), (up_coord i n_rows, up_coord j n_cols)]

/-- The textbook Game of Life rule B3/S23: a cell is alive in the next generation exactly
when it has 3 live neighbours, or it is alive and has 2. -/
def textbook_rule (alive : Bool) (n : Int) : Bool :=
  decide (n = 3 ∨ (alive = true ∧ n = 2))

/-! ## Sample inputs -/

/-- A 4 x 5 board with a few live cells and stale neighbour counts. -/
def sampleBoard : Board :=
  [[⟨true, 5⟩, ⟨false, 0⟩, ⟨true, 2⟩, ⟨false, 0⟩, ⟨false, 1⟩],
   [⟨false, 0⟩, ⟨true, 0⟩, ⟨true, 7⟩, ⟨false, 0⟩, ⟨true, 0⟩],
   [⟨false, 3⟩, ⟨true, 0⟩, ⟨false, 0⟩, ⟨false, 0⟩, ⟨false, 0⟩],
   [⟨true, 0⟩, ⟨false, 0⟩, ⟨false, 0⟩, ⟨true, 8⟩, ⟨true, 0⟩]]

/-- A 4 x 4 board whose only live cells are the 2x2 block at rows 3, 0 and columns 3, 0:
the block straddles both wraps. -/
def cornerBlockBoard : Board :=
  boardOfAlive [[true, false, false, true], [false, false, false, false],
    [false, false, false, false], [true, false, false, true]]

/-- A 3 x 3 board whose only live cell is the corner `(0, 0)`. -/
def cornerCellBoard : Board :=
  boardOfAlive [[true, false, false], [false, false, false], [false, false, false]]

/-- A 5 x 5 board whose only live cells are `(2, 1)`, `(2, 2)`, `(2, 3)`. -/
def blinkerBoard : Board :=
  boardOfAlive [[false, false, false, false, false], [false, false, false, false, false],
    [false, true, true, true, false], [false, false, false, false, false],
    [false, false, false, false, false]]

/-- The 4 x 5 board with the alive states of `sampleBoard` and every neighbour count 0. -/
def sampleBoardFresh : Board :=
  boardOfAlive [[true, false, true, false, false], [false, true, true, false, true],
    [false, true, false, false, false], [true, false, false, true, true]]

/-- A 2 x 3 board of dead cells with stale neighbour counts. -/
def deadBoard : Board :=
  [[⟨false, 3⟩, ⟨false, 0⟩, ⟨false, 8⟩], [⟨false, 1⟩, ⟨false, 0⟩, ⟨false, 2⟩]]

/-- A 2 x 4 board with live cells: too thin to have an interior. -/
def thinBoard : Board :=
  boardOfAlive [[true, true, false, true], [false, true, true, false]]

/-- Sample indeterminate values. -/
def sampleUninit : Uninit := ⟨-7, 1234, fun _ _ => ⟨true, 99⟩⟩

/-! ## Board access lemmas -/

theorem readCell_bounds {board : Board} {n_rows n_cols i j : Int} {c : Cell}
    (hwf : WF board n_rows n_cols) (h : readCell board i j = some c) :
    0 ≤ i ∧ i < n_rows ∧ 0 ≤ j ∧ j < n_cols := by
  unfold readCell at h
  split_ifs at h with hij
  obtain ⟨hi, hj⟩ := hij
  cases hrow : board[i.toNat]? with
  | none => simp [hrow] at h
  | some row =>
    simp only [hrow] at h
    have hlt : i.toNat < board.length := by
      by_contra hcon
      rw [List.getElem?_eq_none (by omega)] at hrow
      cases hrow
    have hmem : row ∈ board := List.getElem?_mem hrow
    have hlen := hwf.2 row hmem
    have hjlt : j.toNat < row.length := by
      by_contra hcon
      rw [List.getElem?_eq_none (by omega)] at h
      cases h
    have h1 := hwf.1
    refine ⟨hi, ?_, hj, ?_⟩ <;> omega

theorem readCell_of_bounds {board : Board} {n_rows n_cols i j : Int}
    (hwf : WF board n_rows n_cols) (hi : 0 ≤ i) (hi2 : i < n_rows) (hj : 0 ≤ j)
    (hj2 : j < n_cols) : ∃ c, readCell board i j = some c := by
  have h1 := hwf.1
  have hlt : i.toNat < board.length := by omega
  have hrow : board[i.toNat]? = some (board[i.toNat]) := List.getElem?_eq_getElem hlt
  have hlen := hwf.2 _ (List.getElem_mem hlt)
  have hjlt : j.toNat < (board[i.toNat]).length := by omega
  refine ⟨(board[i.toNat])[j.toNat], ?_⟩
  unfold readCell
  rw [if_pos ⟨hi, hj⟩, hrow]
  exact List.getElem?_eq_getElem hjlt

theorem writeCell_of_readCell {board : Board} {i j : Int} {c0 : Cell} (c : Cell)
    (h : readCell board i j = some c0) : ∃ b, writeCell board i j c = some b := by
  unfold readCell at h
  unfold writeCell
  split_ifs at h with hij
  rw [if_pos hij]
  cases hrow : board[i.toNat]? with
  | none => simp [hrow] at h
  | some row =>
    simp only [hrow] at h
    have hjlt : j.toNat < row.length := by
      by_contra hcon
      rw [List.getElem?_eq_none (by omega)] at h
      cases h
    simp [hjlt]

theorem readCell_writeCell {board b : Board} {i j : Int} {c : Cell}
    (h : writeCell board i j c = some b) (a k : Int) :
    readCell b a k = if a = i ∧ k = j then some c else readCell board a k := by
  unfold writeCell at h
  split_ifs at h with hij
  obtain ⟨hi, hj⟩ := hij
  cases hrow : board[i.toNat]? with
  | none => simp [hrow] at h
  | some row =>
    simp only [hrow] at h
    split_ifs at h with hjlt
    simp only [Option.some.injEq] at h
    subst h
    have hilt : i.toNat < board.length := by
      by_contra hcon
      rw [List.getElem?_eq_none (by omega)] at hrow
      cases hrow
    unfold readCell
    by_cases hak : 0 ≤ a ∧ 0 ≤ k
    · rw [if_pos hak, if_pos hak]
      by_cases hai : a = i
      · rw [hai, List.getElem?_set_self hilt, hrow]
        by_cases hkj : k = j
        · rw [hkj]
          simp [List.getElem?_set_self hjlt]
        · have hne : j.toNat ≠ k.toNat := by omega
          simp [hkj, List.getElem?_set_ne hne]
      · have hne : i.toNat ≠ a.toNat := by omega
        rw [List.getElem?_set_ne hne]
        simp [hai]
    · rw [if_neg hak, if_neg hak]
      have : ¬ (a = i ∧ k = j) := by
        rintro ⟨rfl, rfl⟩
        exact hak ⟨hi, hj⟩
      rw [if_neg this]

theorem WF_writeCell {board b : Board} {n_rows n_cols i j : Int} {c : Cell}
    (hwf : WF board n_rows n_cols) (h : writeCell board i j c = some b) :
    WF b n_rows n_cols := by
  unfold writeCell at h
  split_ifs at h with hij
  cases hrow : board[i.toNat]? with
  | none => simp [hrow] at h
  | some row =>
    simp only [hrow] at h
    split_ifs at h with hjlt
    simp only [Option.some.injEq] at h
    subst h
    refine ⟨by simpa using hwf.1, ?_⟩
    intro r hr
    rcases List.mem_or_eq_of_mem_set hr with hr1 | hr1
    · exact hwf.2 r hr1
    · subst hr1
      simpa using hwf.2 row (List.getElem?_mem hrow)

/-! ## Loop lemmas -/

theorem forRange_inv {σ : Type} (P : Int → σ → Prop) (body : Int → σ → Option σ) :
    ∀ (n : Nat) (lo : Int) (s : σ), P lo s →
      (∀ i t, lo ≤ i → i < lo + n → P i t → ∃ t1, body i t = some t1 ∧ P (i + 1) t1) →
      ∃ s1, forRange body lo n s = some s1 ∧ P (lo + n) s1 := by
  intro n
  induction n with
  | zero =>
    intro lo s h0 _
    exact ⟨s, rfl, by simpa using h0⟩
  | succ n ih =>
    intro lo s h0 hstep
    obtain ⟨t1, hb, hP⟩ := hstep lo s (le_refl _) (by push_cast; omega) h0
    obtain ⟨s1, hs1, hP1⟩ := ih (lo + 1) t1 hP (fun i t h1 h2 h3 =>
      hstep i t (by omega) (by push_cast; omega) h3)
    refine ⟨s1, ?_, ?_⟩
    · simp only [forRange, hb]
      exact hs1
    · have : lo + ((n + 1 : Nat) : Int) = lo + 1 + (n : Int) := by push_cast; ring
      rw [this]
      exact hP1

theorem forLoop_inv {σ : Type} (P : Int → σ → Prop) (body : Int → σ → Option σ)
    (lo hi : Int) (s : σ) (hle : lo ≤ hi) (h0 : P lo s)
    (hstep : ∀ i t, lo ≤ i → i < hi → P i t → ∃ t1, body i t = some t1 ∧ P (i + 1) t1) :
    ∃ s1, forLoop lo hi body s = some s1 ∧ P hi s1 := by
  have hn : lo + (((hi - lo).toNat : Nat) : Int) = hi := by omega
  obtain ⟨s1, h1, h2⟩ := forRange_inv P body (hi - lo).toNat lo s h0
    (fun i t a1 a2 a3 => hstep i t a1 (by omega) a3)
  rw [hn] at h2
  exact ⟨s1, h1, h2⟩

theorem forLoop_inv_max {σ : Type} (P : Int → σ → Prop) (body : Int → σ → Option σ)
    (lo hi : Int) (s : σ) (h0 : P lo s)
    (hstep : ∀ i t, lo ≤ i → i < hi → P i t → ∃ t1, body i t = some t1 ∧ P (i + 1) t1) :
    ∃ s1, forLoop lo hi body s = some s1 ∧ P (max lo hi) s1 := by
  have hn : lo + (((hi - lo).toNat : Nat) : Int) = max lo hi := by omega
  obtain ⟨s1, h1, h2⟩ := forRange_inv P body (hi - lo).toNat lo s h0
    (fun i t a1 a2 a3 => hstep i t a1 (by omega) a3)
  rw [hn] at h2
  exact ⟨s1, h1, h2⟩

theorem sum_Ico_succ (f : Int → Int) {lo i : Int} (h : lo ≤ i) :
    ∑ x in Finset.Ico lo (i + 1), f x = (∑ x in Finset.Ico lo i, f x) + f i := by
  have hset : Finset.Ico lo (i + 1) = insert i (Finset.Ico lo i) := by
    ext x
    simp only [Finset.mem_Ico, Finset.mem_insert]
    omega
  rw [hset, Finset.sum_insert (by simp), add_comm]

theorem Ico_max (lo hi : Int) : Finset.Ico lo (max lo hi) = Finset.Ico lo hi := by
  ext x
  simp only [Finset.mem_Ico]
  omega

theorem forRange_step {σ : Type} (body : Int → σ → Option σ) (i : Int) (n : Nat) (s s1 : σ)
    (h : body i s = some s1) : forRange body i (n + 1) s = forRange body (i + 1) n s1 := by
  simp only [forRange, h]

theorem forLoop_empty {σ : Type} (body : Int → σ → Option σ) (lo hi : Int) (s : σ)
    (h : hi ≤ lo) : forLoop lo hi body s = some s := by
  have : (hi - lo).toNat = 0 := by omega
  simp [forLoop, this, forRange]

/-! ## Toroidal indexer lemmas -/

theorem up_coord_range {coord bound : Int} (h0 : 0 ≤ coord) (h1 : coord < bound) :
    0 ≤ up_coord coord bound ∧ up_coord coord bound < bound := by
  unfold up_coord
  split_ifs <;> omega

theorem down_coord_range {coord bound : Int} (h0 : 0 ≤ coord) (h1 : coord < bound) :
    0 ≤ down_coord coord bound ∧ down_coord coord bound < bound := by
  unfold down_coord
  split_ifs <;> omega

theorem up_coord_eq_mod {coord bound : Int} (h0 : 0 ≤ coord) (h1 : coord < bound) :
    up_coord coord bound = (coord + 1) % bound := by
  unfold up_coord
  split_ifs with h
  · have : coord + 1 = bound := by omega
    rw [this, Int.emod_self]
  · rw [Int.emod_eq_of_lt (by omega) (by omega)]

theorem down_coord_eq_mod {coord bound : Int} (h0 : 0 ≤ coord) (h1 : coord < bound) :
    down_coord coord bound = (coord + -1) % bound := by
  unfold down_coord
  split_ifs with h
  · have hc : coord = 0 := by omega
    subst hc
    have : (0 + -1 : Int) = (bound - 1) + (-1) * bound := by ring
    rw [this, Int.add_mul_emod_self, Int.emod_eq_of_lt (by omega) (by omega)]
  · have : coord + -1 = coord - 1 := by ring
    rw [this, Int.emod_eq_of_lt (by omega) (by omega)]

/-! ## Neighbour counter lemmas -/

theorem aliveInt_of_readCell {board : Board} {i j : Int} {c : Cell}
    (h : readCell board i j = some c) : aliveInt board i j = b2i c.alive := by
  simp [aliveInt, h]

theorem srcCount_eq_wrappedCount (board : Board) {n_rows n_cols i j : Int}
    (hi : 0 ≤ i) (hi2 : i < n_rows) (hj : 0 ≤ j) (hj2 : j < n_cols) :
    srcCount board n_rows n_cols i j = wrappedCount board n_rows n_cols i j := by
  have e1 := up_coord_eq_mod hi hi2
  have e2 := down_coord_eq_mod hi hi2
  have e3 := up_coord_eq_mod hj hj2
  have e4 := down_coord_eq_mod hj hj2
  unfold srcCount wrappedCount offsets8
  rw [e1, e2, e3, e4]
  simp only [List.map_cons, List.map_nil, List.sum_cons, List.sum_nil, add_zero,
    Int.emod_eq_of_lt hi hi2, Int.emod_eq_of_lt hj hj2]
  ring

theorem calc_cell_spec {b : Board} {n_rows n_cols i j : Int} (hwf : WF b n_rows n_cols)
    (hi : 0 ≤ i) (hi2 : i < n_rows) (hj : 0 ≤ j) (hj2 : j < n_cols) :
    ∃ c b1, readCell b i j = some c ∧ calc_cell b n_rows n_cols i j = some b1 ∧
      writeCell b i j { c with n_alive_neighbrs := srcCount b n_rows n_cols i j } = some b1 := by
  obtain ⟨u0, u1⟩ := up_coord_range hi hi2
  obtain ⟨d0, d1⟩ := down_coord_range hi hi2
  obtain ⟨v0, v1⟩ := up_coord_range hj hj2
  obtain ⟨e0, e1⟩ := down_coord_range hj hj2
  obtain ⟨c1, h1⟩ := readCell_of_bounds hwf d0 d1 e0 e1
  obtain ⟨c2, h2⟩ := readCell_of_bounds hwf hi hi2 e0 e1
  obtain ⟨c3, h3⟩ := readCell_of_bounds hwf u0 u1 e0 e1
  obtain ⟨c4, h4⟩ := readCell_of_bounds hwf d0 d1 hj hj2
  obtain ⟨c5, h5⟩ := readCell_of_bounds hwf u0 u1 hj hj2
  obtain ⟨c6, h6⟩ := readCell_of_bounds hwf d0 d1 v0 v1
  obtain ⟨c7, h7⟩ := readCell_of_bounds hwf hi hi2 v0 v1
  obtain ⟨c8, h8⟩ := readCell_of_bounds hwf u0 u1 v0 v1
  obtain ⟨c, h⟩ := readCell_of_bounds hwf hi hi2 hj hj2
  obtain ⟨b1, hb1⟩ := writeCell_of_readCell
    { c with n_alive_neighbrs := srcCount b n_rows n_cols i j } h
  refine ⟨c, b1, h, ?_, hb1⟩
  rw [← hb1]
  simp only [calc_cell, h1, h2, h3, h4, h5, h6, h7, h8, h, srcCount, aliveInt,
    Option.bind_eq_bind, Option.some_bind]

theorem CalcInv_aliveInt {old b : Board} {n_rows n_cols i j : Int}
    (hold : WF old n_rows n_cols) (hinv : CalcInv old n_rows n_cols i j b) (a k : Int) :
    aliveInt b a k = aliveInt old a k := by
  cases h : readCell old a k with
  | some c =>
    obtain ⟨c1, hc1, hal, _⟩ := hinv.2 a k c h
    simp [aliveInt, h, hc1, hal]
  | none =>
    cases h1 : readCell b a k with
    | none => simp [aliveInt, h, h1]
    | some c1 =>
      obtain ⟨x0, x1, x2, x3⟩ := readCell_bounds hinv.1 h1
      obtain ⟨c, hc⟩ := readCell_of_bounds hold x0 x1 x2 x3
      rw [h] at hc
      cases hc

theorem CalcInv_srcCount {old b : Board} {n_rows n_cols i j : Int}
    (hold : WF old n_rows n_cols) (hinv : CalcInv old n_rows n_cols i j b) (a k : Int) :
    srcCount b n_rows n_cols a k = srcCount old n_rows n_cols a k := by
  simp only [srcCount, CalcInv_aliveInt hold hinv]

theorem calc_inner_step {old b : Board} {n_rows n_cols i j : Int}
    (hold : WF old n_rows n_cols) (hinv : CalcInv old n_rows n_cols i j b)
    (hi : 0 ≤ i) (hi2 : i < n_rows) (hj : 0 ≤ j) (hj2 : j < n_cols) :
    ∃ b1, calc_cell b n_rows n_cols i j = some b1 ∧ CalcInv old n_rows n_cols i (j + 1) b1 := by
  obtain ⟨c0, b1, hc0, hcalc, hw⟩ := calc_cell_spec hinv.1 hi hi2 hj hj2
  refine ⟨b1, hcalc, WF_writeCell hinv.1 hw, ?_⟩
  intro a k c hc
  obtain ⟨c1, hc1, hal, hdone, hnot⟩ := hinv.2 a k c hc
  rw [readCell_writeCell hw a k]
  by_cases hak : a = i ∧ k = j
  · obtain ⟨rfl, rfl⟩ := hak
    rw [if_pos ⟨rfl, rfl⟩]
    rw [hc0] at hc1
    simp only [Option.some.injEq] at hc1
    subst hc1
    refine ⟨_, rfl, hal, ?_, ?_⟩
    · intro _
      exact CalcInv_srcCount hold hinv a k
    · intro hcon
      exact absurd (Or.inr ⟨rfl, by omega⟩) hcon
  · rw [if_neg hak]
    refine ⟨c1, hc1, hal, ?_, ?_⟩
    · intro hd
      apply hdone
      rcases hd with hd | ⟨hd1, hd2⟩
      · exact Or.inl hd
      · refine Or.inr ⟨hd1, ?_⟩
        by_contra hcon
        exact hak ⟨hd1, by omega⟩
    · intro hd
      apply hnot
      intro hcon
      apply hd
      rcases hcon with hd | ⟨hd1, hd2⟩
      · exact Or.inl hd
      · exact Or.inr ⟨hd1, by omega⟩

theorem calc_outer_step {old b : Board} {n_rows n_cols i : Int}
    (hold : WF old n_rows n_cols) (hinv : CalcInv old n_rows n_cols i 0 b)
    (hi : 0 ≤ i) (hi2 : i < n_rows) (hc : 0 ≤ n_cols) :
    ∃ b1, forLoop 0 n_cols (fun j b1 => calc_cell b1 n_rows n_cols i j) b = some b1 ∧
      CalcInv old n_rows n_cols (i + 1) 0 b1 := by
  obtain ⟨b1, hb1, hP⟩ := forLoop_inv (fun j t => CalcInv old n_rows n_cols i j t)
    (fun j b1 => calc_cell b1 n_rows n_cols i j) 0 n_cols b hc hinv
    (fun j t h0 h1 hI => calc_inner_step hold hI hi hi2 h0 h1)
  refine ⟨b1, hb1, hP.1, ?_⟩
  intro a k c hck
  obtain ⟨c1, hc1, hal, hdone, hnot⟩ := hP.2 a k c hck
  obtain ⟨_, _, x2, x3⟩ := readCell_bounds hold hck
  refine ⟨c1, hc1, hal, ?_, ?_⟩
  · intro hd
    apply hdone
    rcases hd with hd | ⟨hd1, hd2⟩
    · by_cases hai : a = i
      · exact Or.inr ⟨hai, x3⟩
      · exact Or.inl (by omega)
    · omega
  · intro hd
    apply hnot
    intro hcon
    apply hd
    rcases hcon with hd | ⟨hd1, hd2⟩
    · exact Or.inl (by omega)
    · exact Or.inl (by omega)

theorem CalcInv_init {old : Board} {n_rows n_cols : Int} (hold : WF old n_rows n_cols) :
    CalcInv old n_rows n_cols 0 0 old := by
  refine ⟨hold, ?_⟩
  intro a k c hc
  obtain ⟨x0, _, x2, _⟩ := readCell_bounds hold hc
  refine ⟨c, hc, rfl, ?_, fun _ => rfl⟩
  intro hd
  omega

/-- Full description of `calc_n_neighbours` on an allocated board: it returns, keeps the
shape, keeps every alive state and stores the source-order neighbour sum in every cell. -/
theorem calc_n_neighbours_spec {old : Board} {n_rows n_cols : Int}
    (hold : WF old n_rows n_cols) :
    ∃ b, calc_n_neighbours old n_rows n_cols = some b ∧ WF b n_rows n_cols ∧
      (∀ a k, aliveInt b a k = aliveInt old a k) ∧
      ∀ a k c, readCell old a k = some c →
        readCell b a k = some ⟨c.alive, srcCount old n_rows n_cols a k⟩ := by
  have hr : 0 ≤ n_rows := by have := hold.1; omega
  by_cases hc : 0 ≤ n_cols
  · obtain ⟨b, hb, hP⟩ := forLoop_inv (fun i t => CalcInv old n_rows n_cols i 0 t)
      (fun i b => forLoop 0 n_cols (fun j b1 => calc_cell b1 n_rows n_cols i j) b)
      0 n_rows old hr (CalcInv_init hold)
      (fun i t h0 h1 hI => calc_outer_step hold hI h0 h1 hc)
    refine ⟨b, hb, hP.1, CalcInv_aliveInt hold hP, ?_⟩
    intro a k c hck
    obtain ⟨c1, hc1, hal, hdone, _⟩ := hP.2 a k c hck
    obtain ⟨_, x1, _, _⟩ := readCell_bounds hold hck
    have hn := hdone (Or.inl x1)
    rw [hc1]
    cases c1
    simp only [Option.some.injEq, Cell.mk.injEq]
    exact ⟨hal, hn⟩
  · have h0 : n_rows = 0 := by
      have h1 := hold.1
      rcases old with _ | ⟨row, rest⟩
      · simpa using h1.symm
      · have := hold.2 row (List.mem_cons_self _ _)
        omega
    refine ⟨old, ?_, hold, fun _ _ => rfl, ?_⟩
    · unfold calc_n_neighbours
      exact forLoop_empty _ _ _ _ (by omega)
    · intro a k c hck
      have := readCell_bounds hold hck
      omega

/-! ## Rule evaluator lemmas -/

theorem update_cell_spec (dO dU bR : Int) {b : Board} {n_rows n_cols i j : Int} {c : Cell}
    (cnt : Int) (hwf : WF b n_rows n_cols) (h : readCell b i j = some c) :
    ∃ b1, update_cell dO dU bR i j (b, cnt) = some (b1, cnt + b2i (nextAlive dO dU bR c)) ∧
      WF b1 n_rows n_cols ∧
      ∀ a k, readCell b1 a k =
        if a = i ∧ k = j then some { c with alive := nextAlive dO dU bR c } else readCell b a k := by
  unfold update_cell
  simp only [h, Option.bind_eq_bind, Option.some_bind]
  by_cases h1 : c.n_alive_neighbrs < dU
  · have hna : nextAlive dO dU bR c = DEAD := by
      unfold nextAlive
      rw [if_pos h1]
    obtain ⟨b1, hb1⟩ := writeCell_of_readCell { c with alive := DEAD } h
    refine ⟨b1, ?_, WF_writeCell hwf hb1, ?_⟩
    · rw [if_pos h1, hb1, hna]
      simp [b2i, DEAD]
    · intro a k
      rw [readCell_writeCell hb1 a k, hna]
  · by_cases h2 : c.n_alive_neighbrs > dO
    · have hna : nextAlive dO dU bR c = DEAD := by
        unfold nextAlive
        rw [if_neg h1, if_pos h2]
      obtain ⟨b1, hb1⟩ := writeCell_of_readCell { c with alive := DEAD } h
      refine ⟨b1, ?_, WF_writeCell hwf hb1, ?_⟩
      · rw [if_neg h1, if_pos h2, hb1, hna]
        simp [b2i, DEAD]
      · intro a k
        rw [readCell_writeCell hb1 a k, hna]
    · by_cases h3 : c.n_alive_neighbrs = bR
      · have hna : nextAlive dO dU bR c = ALIVE := by
          unfold nextAlive
          rw [if_neg h1, if_neg h2, if_pos h3]
        obtain ⟨b1, hb1⟩ := writeCell_of_readCell { c with alive := ALIVE } h
        refine ⟨b1, ?_, WF_writeCell hwf hb1, ?_⟩
        · rw [if_neg h1, if_neg h2, if_pos h3, hb1, hna]
          simp [b2i, ALIVE]
        · intro a k
          rw [readCell_writeCell hb1 a k, hna]
      · have hna : nextAlive dO dU bR c = c.alive := by
          unfold nextAlive
          rw [if_neg h1, if_neg h2, if_neg h3]
        refine ⟨b, ?_, hwf, ?_⟩
        · rw [if_neg h1, if_neg h2, if_neg h3, hna]
          by_cases h4 : c.alive = ALIVE
          · rw [if_pos h4, h4]
            simp [b2i, ALIVE]
          · have h5 : c.alive = false := by simpa [ALIVE] using h4
            rw [if_neg h4, h5]
            simp [b2i]
        · intro a k
          rw [hna]
          by_cases hak : a = i ∧ k = j
          · obtain ⟨rfl, rfl⟩ := hak
            simp [h]
          · rw [if_neg hak]

theorem upd_inner_step {b0 : Board} {n_rows n_cols fb dO dU bR i j : Int} {s : Board × Int}
    (hb0 : WF b0 n_rows n_cols) (hfb : 0 ≤ fb)
    (hinv : UpdInv b0 n_rows n_cols fb dO dU bR i j s)
    (hi : fb ≤ i) (hi2 : i < n_rows - fb) (hj : fb ≤ j) (hj2 : j < n_cols - fb) :
    ∃ s1, update_cell dO dU bR i j s = some s1 ∧
      UpdInv b0 n_rows n_cols fb dO dU bR i (j + 1) s1 := by
  obtain ⟨b, cnt⟩ := s
  obtain ⟨hwf, hcells, hcnt⟩ := hinv
  simp only at hwf hcells hcnt
  obtain ⟨c, hc⟩ := readCell_of_bounds hb0 (by omega : 0 ≤ i) (by omega : i < n_rows)
    (by omega : 0 ≤ j) (by omega : j < n_cols)
  have hnot : ¬ Treated n_cols fb i j i j := by
    unfold Treated
    omega
  have hcur := (hcells i j c hc).2 hnot
  obtain ⟨b1, hb1, hwf1, hread⟩ := update_cell_spec dO dU bR cnt hwf hcur
  refine ⟨_, hb1, hwf1, ?_, ?_⟩
  · intro a k c1 hc1
    simp only
    rw [hread a k]
    by_cases hak : a = i ∧ k = j
    · obtain ⟨rfl, rfl⟩ := hak
      rw [hc] at hc1
      simp only [Option.some.injEq] at hc1
      subst hc1
      rw [if_pos ⟨rfl, rfl⟩]
      refine ⟨fun _ => rfl, ?_⟩
      intro hcon
      exfalso
      apply hcon
      unfold Treated
      omega
    · rw [if_neg hak]
      obtain ⟨hA, hB⟩ := hcells a k c1 hc1
      constructor
      · intro ht
        apply hA
        unfold Treated at ht ⊢
        omega
      · intro ht
        apply hB
        unfold Treated at ht ⊢
        omega
  · simp only
    rw [sum_Ico_succ _ hj, hcnt]
    simp only [nextInt, hc]
    ring

theorem upd_outer_step {b0 : Board} {n_rows n_cols fb dO dU bR i : Int} {s : Board × Int}
    (hb0 : WF b0 n_rows n_cols) (hfb : 0 ≤ fb)
    (hinv : UpdInv b0 n_rows n_cols fb dO dU bR i fb s)
    (hi : fb ≤ i) (hi2 : i < n_rows - fb) :
    ∃ s1, forLoop fb (n_cols - fb) (fun j s1 => update_cell dO dU bR i j s1) s = some s1 ∧
      UpdInv b0 n_rows n_cols fb dO dU bR (i + 1) fb s1 := by
  obtain ⟨s1, hs1, hP⟩ := forLoop_inv_max
    (fun j t => UpdInv b0 n_rows n_cols fb dO dU bR i j t)
    (fun j s1 => update_cell dO dU bR i j s1) fb (n_cols - fb) s hinv
    (fun j t h0 h1 hI => upd_inner_step hb0 hfb hI hi hi2 h0 h1)
  obtain ⟨hwf, hcells, hcnt⟩ := hP
  refine ⟨s1, hs1, hwf, ?_, ?_⟩
  · intro a k c hc
    obtain ⟨hA, hB⟩ := hcells a k c hc
    constructor
    · intro ht
      apply hA
      unfold Treated at ht ⊢
      omega
    · intro ht
      apply hB
      unfold Treated at ht ⊢
      omega
  · rw [hcnt, Ico_max, sum_Ico_succ _ hi]
    simp

theorem UpdInv_init {b0 : Board} {n_rows n_cols fb dO dU bR : Int}
    (hb0 : WF b0 n_rows n_cols) : UpdInv b0 n_rows n_cols fb dO dU bR fb fb (b0, 0) := by
  refine ⟨hb0, ?_, by simp⟩
  intro a k c hc
  constructor
  · intro ht
    unfold Treated at ht
    omega
  · intro _
    exact hc

/-- The region of cells that the rule loop of `update_board` visits. -/
theorem update_loop_spec {b0 : Board} {n_rows n_cols fb : Int} (dO dU bR : Int)
    (hb0 : WF b0 n_rows n_cols) (hfb : 0 ≤ fb) :
    ∃ b cnt, forLoop fb (n_rows - fb)
        (fun i s => forLoop fb (n_cols - fb)
          (fun j s1 => update_cell dO dU bR i j s1) s) (b0, 0) = some (b, cnt) ∧
      WF b n_rows n_cols ∧
      (∀ a k c, readCell b0 a k = some c →
        ((fb ≤ a ∧ a < n_rows - fb ∧ fb ≤ k ∧ k < n_cols - fb) →
          readCell b a k = some { c with alive := nextAlive dO dU bR c }) ∧
        (¬ (fb ≤ a ∧ a < n_rows - fb ∧ fb ≤ k ∧ k < n_cols - fb) → readCell b a k = some c)) ∧
      cnt = ∑ a in Finset.Ico fb (n_rows - fb), ∑ k in Finset.Ico fb (n_cols - fb),
              nextInt dO dU bR b0 a k := by
  obtain ⟨s1, hs1, hP⟩ := forLoop_inv_max
    (fun i t => UpdInv b0 n_rows n_cols fb dO dU bR i fb t)
    (fun i s => forLoop fb (n_cols - fb) (fun j s1 => update_cell dO dU bR i j s1) s)
    fb (n_rows - fb) (b0, 0) (UpdInv_init hb0)
    (fun i t h0 h1 hI => upd_outer_step hb0 hfb hI h0 h1)
  obtain ⟨b, cnt⟩ := s1
  obtain ⟨hwf, hcells, hcnt⟩ := hP
  simp only at hwf hcells hcnt
  refine ⟨b, cnt, hs1, hwf, ?_, ?_⟩
  · intro a k c hc
    obtain ⟨hA, hB⟩ := hcells a k c hc
    constructor
    · intro ht
      apply hA
      unfold Treated
      omega
    · intro ht
      apply hB
      unfold Treated
      omega
  · rw [hcnt, Ico_max]
    simp

/-- Full description of `update_board` on an allocated board with `0 ≤ fixed_bounds`: it
returns; every cell holds its source-order neighbour sum on the initial board; the cells of
the visited region hold the outcome of the rule chain for that sum and the others keep
their alive state; the returned counter is the number of visited cells that are alive. -/
theorem update_board_spec {old : Board} {n_rows n_cols fb : Int} (dO dU bR : Int)
    (hold : WF old n_rows n_cols) (hfb : 0 ≤ fb) :
    ∃ b cnt, update_board old n_rows n_cols fb dO dU bR = some (b, cnt) ∧
      WF b n_rows n_cols ∧
      (∀ a k c, readCell old a k = some c →
        ((fb ≤ a ∧ a < n_rows - fb ∧ fb ≤ k ∧ k < n_cols - fb) →
          readCell b a k = some ⟨nextAlive dO dU bR ⟨c.alive, srcCount old n_rows n_cols a k⟩,
            srcCount old n_rows n_cols a k⟩) ∧
        (¬ (fb ≤ a ∧ a < n_rows - fb ∧ fb ≤ k ∧ k < n_cols - fb) →
          readCell b a k = some ⟨c.alive, srcCount old n_rows n_cols a k⟩)) ∧
      cnt = ∑ a in Finset.Ico fb (n_rows - fb), ∑ k in Finset.Ico fb (n_cols - fb),
              aliveInt b a k := by
  obtain ⟨b0, hb0, hwf0, _, hcells0⟩ := calc_n_neighbours_spec hold
  obtain ⟨b, cnt, hloop, hwf, hcells, hcnt⟩ := update_loop_spec dO dU bR hwf0 hfb
  have hmain : ∀ a k c, readCell old a k = some c →
      ((fb ≤ a ∧ a < n_rows - fb ∧ fb ≤ k ∧ k < n_cols - fb) →
        readCell b a k = some ⟨nextAlive dO dU bR ⟨c.alive, srcCount old n_rows n_cols a k⟩,
          srcCount old n_rows n_cols a k⟩) ∧
      (¬ (fb ≤ a ∧ a < n_rows - fb ∧ fb ≤ k ∧ k < n_cols - fb) →
        readCell b a k = some ⟨c.alive, srcCount old n_rows n_cols a k⟩) := by
    intro a k c hc
    obtain ⟨hA, hB⟩ := hcells a k _ (hcells0 a k c hc)
    exact ⟨fun h => hA h, fun h => hB h⟩
  refine ⟨b, cnt, ?_, hwf, hmain, ?_⟩
  · simp only [update_board, hb0, Option.bind_eq_bind, Option.some_bind]
    exact hloop
  · rw [hcnt]
    apply Finset.sum_congr rfl
    intro a ha
    apply Finset.sum_congr rfl
    intro k hk
    rw [Finset.mem_Ico] at ha hk
    obtain ⟨c, hc⟩ := readCell_of_bounds hold (by omega : 0 ≤ a) (by omega : a < n_rows)
      (by omega : 0 ≤ k) (by omega : k < n_cols)
    have h1 := (hmain a k c hc).1 ⟨ha.1, ha.2, hk.1, hk.2⟩
    simp only [nextInt, hcells0 a k c hc, aliveInt, h1]

/-! ## Properties of the program -/

/-- C7 (toroidal indexer): for every `bound ≥ 1`, `up_coord (bound-1) bound = 0` and
`down_coord 0 bound = bound-1`; on every other in-range coordinate the step is a plain
increment (`up_coord i bound = i+1` for `0 ≤ i < bound-1`) or decrement
(`down_coord i bound = i-1` for `0 < i ≤ bound-1`). -/
theorem coord_wrap_and_step (bound : Int) (_hbound : 1 ≤ bound) :
    up_coord (bound - 1) bound = 0 ∧ down_coord 0 bound = bound - 1 ∧
    (∀ i, 0 ≤ i → i < bound - 1 → up_coord i bound = i + 1) ∧
    (∀ i, 0 < i → i ≤ bound - 1 → down_coord i bound = i - 1) := by
  refine ⟨?_, ?_, ?_, ?_⟩
  · unfold up_coord
    rw [if_pos (by omega)]
  · unfold down_coord
    rw [if_pos (by omega)]
  · intro i h0 h1
    unfold up_coord
    rw [if_neg (by omega)]
  · intro i h0 h1
    unfold down_coord
    rw [if_neg (by omega)]

/-- Witness of C7 at `bound = 5`. -/
theorem coord_wrap_and_step_witness :
    (1 : Int) ≤ 5 ∧
    (up_coord (5 - 1) 5 = 0 ∧ down_coord 0 5 = 5 - 1 ∧
    (∀ i, 0 ≤ i → i < 5 - 1 → up_coord i 5 = i + 1) ∧
    (∀ i, 0 < i → i ≤ 5 - 1 → down_coord i 5 = i - 1)) :=
  ⟨by decide, coord_wrap_and_step 5 (by decide)⟩

/-- C6 (neighbour counter): on a board with `n_rows ≥ 1` and `n_cols ≥ 1`,
`calc_n_neighbours` returns a board in which every cell `(i, j)` has `n_alive_neighbrs`
equal to the sum over the eight offsets of the alive state of the cell at
`((i+di) mod n_rows, (j+dj) mod n_cols)`, and the same alive state as before. -/
theorem calc_n_neighbours_wrapped_sum (board : Board) (n_rows n_cols : Int)
    (hwf : WF board n_rows n_cols) (_hr : 1 ≤ n_rows) (_hc : 1 ≤ n_cols) :
    ∃ b, calc_n_neighbours board n_rows n_cols = some b ∧
      ∀ i j, 0 ≤ i → i < n_rows → 0 ≤ j → j < n_cols →
        ∃ c0 c1, readCell board i j = some c0 ∧ readCell b i j = some c1 ∧
          c1.n_alive_neighbrs = wrappedCount board n_rows n_cols i j ∧
          c1.alive = c0.alive := by
  obtain ⟨b, hb, _, _, hcells⟩ := calc_n_neighbours_spec hwf
  refine ⟨b, hb, ?_⟩
  intro i j hi hi2 hj hj2
  obtain ⟨c0, hc0⟩ := readCell_of_bounds hwf hi hi2 hj hj2
  exact ⟨c0, _, hc0, hcells i j c0 hc0, srcCount_eq_wrappedCount board hi hi2 hj hj2, rfl⟩

/-- C1 (rule chain): on a board with `n_rows ≥ 1`, `n_cols ≥ 1` and `fixed_bounds` 0 or 1,
`update_board` returns, and every visited cell `(i, j)` (`b ≤ i < n_rows-b`,
`b ≤ j < n_cols-b`) is afterwards: dead if `n < death_underpop`, else dead if
`n > death_overpop`, else alive if `n = birth_repro`, else as it was, where `n` is the
wrapped 8-neighbour count of the cell on the board before the call. -/
theorem update_board_rule_chain (board : Board)
    (n_rows n_cols fixed_bounds death_overpop death_underpop birth_repro : Int)
    (hwf : WF board n_rows n_cols) (_hr : 1 ≤ n_rows) (_hc : 1 ≤ n_cols)
    (hb : fixed_bounds = 0 ∨ fixed_bounds = 1) :
    ∃ b cnt, update_board board n_rows n_cols fixed_bounds
        death_overpop death_underpop birth_repro = some (b, cnt) ∧
      ∀ i j, fixed_bounds ≤ i → i < n_rows - fixed_bounds →
        fixed_bounds ≤ j → j < n_cols - fixed_bounds →
        ∃ c0 c1, readCell board i j = some c0 ∧ readCell b i j = some c1 ∧
          c1.alive =
            if wrappedCount board n_rows n_cols i j < death_underpop then DEAD
            else if wrappedCount board n_rows n_cols i j > death_overpop then DEAD
            else if wrappedCount board n_rows n_cols i j = birth_repro then ALIVE
            else c0.alive := by
  have hfb : 0 ≤ fixed_bounds := by omega
  obtain ⟨b, cnt, hupd, _, hcells, _⟩ :=
    update_board_spec death_overpop death_underpop birth_repro hwf hfb
  refine ⟨b, cnt, hupd, ?_⟩
  intro i j hi hi2 hj hj2
  have x0 : 0 ≤ i := by omega
  have x1 : i < n_rows := by omega
  have x2 : 0 ≤ j := by omega
  have x3 : j < n_cols := by omega
  obtain ⟨c0, hc0⟩ := readCell_of_bounds hwf x0 x1 x2 x3
  refine ⟨c0, _, hc0, (hcells i j c0 hc0).1 ⟨hi, hi2, hj, hj2⟩, ?_⟩
  simp only [nextAlive, srcCount_eq_wrappedCount board x0 x1 x2 x3]

/-- C3 (fixed-boundary freeze): with `fixed_bounds = 1`, every cell of the outermost ring
(`i = 0`, `i = n_rows-1`, `j = 0` or `j = n_cols-1`) has the same alive state after
`update_board` as before, whatever the rules and the neighbour counts. -/
theorem update_board_border_frozen (board : Board)
    (n_rows n_cols death_overpop death_underpop birth_repro : Int)
    (hwf : WF board n_rows n_cols) :
    ∃ b cnt, update_board board n_rows n_cols 1
        death_overpop death_underpop birth_repro = some (b, cnt) ∧
      ∀ i j c0, readCell board i j = some c0 →
        (i = 0 ∨ i = n_rows - 1 ∨ j = 0 ∨ j = n_cols - 1) →
        ∃ c1, readCell b i j = some c1 ∧ c1.alive = c0.alive := by
  obtain ⟨b, cnt, hupd, _, hcells, _⟩ :=
    update_board_spec death_overpop death_underpop birth_repro hwf (by decide : (0 : Int) ≤ 1)
  refine ⟨b, cnt, hupd, ?_⟩
  intro i j c0 hc0 hring
  exact ⟨_, (hcells i j c0 hc0).2 (by omega), rfl⟩

/-- C4 (anti-overflow invariant): on a board allocated with `n_rows ≥ 1` rows of
`n_cols ≥ 1` cells, where a cell access succeeds exactly when its index lies in
`[0, n_rows) x [0, n_cols)`, `calc_n_neighbours` and `update_board` (with `fixed_bounds` 0
or 1) run to completion without any failed access; and `up_coord` and `down_coord` map
`[0, bound)` into `[0, bound)` for every `bound ≥ 1`. -/
theorem accesses_stay_in_range (board : Board)
    (n_rows n_cols fixed_bounds death_overpop death_underpop birth_repro : Int)
    (hwf : WF board n_rows n_cols) (_hr : 1 ≤ n_rows) (_hc : 1 ≤ n_cols)
    (hb : fixed_bounds = 0 ∨ fixed_bounds = 1) :
    (∀ i j, (readCell board i j).isSome ↔ (0 ≤ i ∧ i < n_rows ∧ 0 ≤ j ∧ j < n_cols)) ∧
    (∀ i j c, (writeCell board i j c).isSome ↔ (0 ≤ i ∧ i < n_rows ∧ 0 ≤ j ∧ j < n_cols)) ∧
    (calc_n_neighbours board n_rows n_cols).isSome ∧
    (update_board board n_rows n_cols fixed_bounds
      death_overpop death_underpop birth_repro).isSome ∧
    (∀ bound coord : Int, 1 ≤ bound → 0 ≤ coord → coord < bound →
      (0 ≤ up_coord coord bound ∧ up_coord coord bound < bound) ∧
      (0 ≤ down_coord coord bound ∧ down_coord coord bound < bound)) := by
  have hread : ∀ i j, (readCell board i j).isSome ↔
      (0 ≤ i ∧ i < n_rows ∧ 0 ≤ j ∧ j < n_cols) := by
    intro i j
    constructor
    · intro h
      obtain ⟨c, hc⟩ := Option.isSome_iff_exists.mp h
      exact readCell_bounds hwf hc
    · rintro ⟨h0, h1, h2, h3⟩
      exact Option.isSome_iff_exists.mpr (readCell_of_bounds hwf h0 h1 h2 h3)
  refine ⟨hread, ?_, ?_, ?_, ?_⟩
  · intro i j c
    rw [← hread i j]
    constructor
    · intro h
      obtain ⟨b, hb1⟩ := Option.isSome_iff_exists.mp h
      have hr := readCell_writeCell hb1 i j
      rw [if_pos ⟨rfl, rfl⟩] at hr
      obtain ⟨x0, x1, x2, x3⟩ := readCell_bounds (WF_writeCell hwf hb1) hr
      exact Option.isSome_iff_exists.mpr (readCell_of_bounds hwf x0 x1 x2 x3)
    · intro h
      obtain ⟨c0, hc0⟩ := Option.isSome_iff_exists.mp h
      exact Option.isSome_iff_exists.mpr (writeCell_of_readCell c hc0)
  · obtain ⟨b, hb1, _⟩ := calc_n_neighbours_spec hwf
    rw [hb1]
    rfl
  · obtain ⟨b, cnt, hupd, _⟩ :=
      update_board_spec death_overpop death_underpop birth_repro hwf
        (by omega : 0 ≤ fixed_bounds)
    rw [hupd]
    rfl
  · intro bound coord _ h0 h1
    exact ⟨up_coord_range h0 h1, down_coord_range h0 h1⟩

/-- C8 (live count, visited region): for `fixed_bounds = b` in `{0, 1}`, the value returned
by `update_board` is the number of cells alive after the update among the visited cells
`b ≤ i < n_rows-b`, `b ≤ j < n_cols-b`; the outermost ring under `fixed_bounds = 1` is not
part of the sum. -/
theorem update_board_counts_visited (board : Board)
    (n_rows n_cols fixed_bounds death_overpop death_underpop birth_repro : Int)
    (hwf : WF board n_rows n_cols) (hb : fixed_bounds = 0 ∨ fixed_bounds = 1) :
    ∃ b cnt, update_board board n_rows n_cols fixed_bounds
        death_overpop death_underpop birth_repro = some (b, cnt) ∧
      cnt = ∑ i in Finset.Ico fixed_bounds (n_rows - fixed_bounds),
              ∑ j in Finset.Ico fixed_bounds (n_cols - fixed_bounds), aliveInt b i j := by
  obtain ⟨b, cnt, hupd, _, _, hcnt⟩ :=
    update_board_spec death_overpop death_underpop birth_repro hwf
      (by omega : 0 ≤ fixed_bounds)
  exact ⟨b, cnt, hupd, hcnt⟩

theorem ind2_window {n i p : Int} (hn : 4 ≤ n) (hi : 0 ≤ i) (hi2 : i < n)
    (hp : 0 ≤ p) (hp2 : p < n) :
    (ind2 p (up_coord p n) i = 1 ∧
      ind2 p (up_coord p n) (down_coord i n) + ind2 p (up_coord p n) i
        + ind2 p (up_coord p n) (up_coord i n) = 2) ∨
    (ind2 p (up_coord p n) i = 0 ∧
      0 ≤ ind2 p (up_coord p n) (down_coord i n) + ind2 p (up_coord p n) (up_coord i n) ∧
      ind2 p (up_coord p n) (down_coord i n) + ind2 p (up_coord p n) i
        + ind2 p (up_coord p n) (up_coord i n) ≤ 1) := by
  unfold ind2 up_coord down_coord
  split_ifs <;> omega

theorem aliveInt_gridOf {board : Board} {n_rows n_cols i j : Int} {f : Int → Int → Bool}
    (h : aliveStates board = gridOf n_rows n_cols f)
    (hi : 0 ≤ i) (hi2 : i < n_rows) (hj : 0 ≤ j) (hj2 : j < n_cols) :
    aliveInt board i j = b2i (f i j) := by
  have h1 : (aliveStates board)[i.toNat]? = (gridOf n_rows n_cols f)[i.toNat]? := by rw [h]
  unfold aliveStates gridOf at h1
  rw [List.getElem?_map, List.getElem?_map, List.getElem?_range (by omega)] at h1
  unfold aliveInt readCell
  rw [if_pos ⟨hi, hj⟩]
  cases hrow : board[i.toNat]? with
  | none => simp [hrow] at h1
  | some row =>
    simp only [hrow, Option.map_some'] at h1
    have h2 := congrArg (fun l => l[j.toNat]?) (Option.some.inj h1)
    simp only [List.getElem?_map] at h2
    rw [List.getElem?_range (by omega)] at h2
    simp only [Option.map_some'] at h2
    cases hc : row[j.toNat]? with
    | none => simp [hc] at h2
    | some c =>
      simp only [hc, Option.map_some', Option.some.injEq] at h2
      simp only [hc, h2, Int.ofNat_eq_coe, Int.toNat_of_nonneg hi, Int.toNat_of_nonneg hj]

theorem readCell_natCast (board : Board) (a k : Nat) (ha : a < board.length)
    (hk : k < (board[a]).length) : readCell board (a : Int) (k : Int) = some ((board[a])[k]) := by
  unfold readCell
  rw [if_pos ⟨by omega, by omega⟩]
  simp only [Int.toNat_ofNat, List.getElem?_eq_getElem ha, List.getElem?_eq_getElem hk]

theorem b2i_injective {x y : Bool} (h : b2i x = b2i y) : x = y := by
  cases x <;> cases y <;> simp [b2i] at h ⊢

theorem aliveStates_ext {b1 b2 : Board} {n_rows n_cols : Int}
    (h1 : WF b1 n_rows n_cols) (h2 : WF b2 n_rows n_cols)
    (h : ∀ i j, 0 ≤ i → i < n_rows → 0 ≤ j → j < n_cols → aliveInt b1 i j = aliveInt b2 i j) :
    aliveStates b1 = aliveStates b2 := by
  have hl1 := h1.1
  have hl2 := h2.1
  unfold aliveStates
  apply List.ext_getElem
  · simp only [List.length_map]
    omega
  · intro a ha1 ha2
    simp only [List.length_map] at ha1 ha2
    simp only [List.getElem_map]
    have hr1 := h1.2 _ (List.getElem_mem ha1)
    have hr2 := h2.2 _ (List.getElem_mem ha2)
    apply List.ext_getElem
    · simp only [List.length_map]
      omega
    · intro k hk1 hk2
      simp only [List.length_map] at hk1 hk2
      simp only [List.getElem_map]
      have e := h (a : Int) (k : Int) (by omega) (by omega) (by omega) (by omega)
      rw [aliveInt_of_readCell (readCell_natCast b1 a k ha1 hk1),
        aliveInt_of_readCell (readCell_natCast b2 a k ha2 hk2)] at e
      exact b2i_injective e

theorem b2i_blockFlags (n_rows n_cols p q i j : Int) :
    b2i (blockFlags n_rows n_cols p q i j)
      = ind2 p (up_coord p n_rows) i * ind2 q (up_coord q n_cols) j := by
  unfold blockFlags ind2 b2i
  by_cases h1 : i = p ∨ i = up_coord p n_rows <;>
    by_cases h2 : j = q ∨ j = up_coord q n_cols <;> simp [h1, h2]

theorem window_arith {Rd R0 Ru Cd C0 Cu : Int}
    (hR : (R0 = 1 ∧ Rd + R0 + Ru = 2) ∨ (R0 = 0 ∧ 0 ≤ Rd + Ru ∧ Rd + R0 + Ru ≤ 1))
    (hC : (C0 = 1 ∧ Cd + C0 + Cu = 2) ∨ (C0 = 0 ∧ 0 ≤ Cd + Cu ∧ Cd + C0 + Cu ≤ 1)) :
    (R0 * C0 = 1 ∧
      0 + Rd * Cd + R0 * Cd + Ru * Cd + Rd * C0 + Ru * C0 + Rd * Cu + R0 * Cu + Ru * Cu = 3) ∨
    (R0 * C0 = 0 ∧
      0 + Rd * Cd + R0 * Cd + Ru * Cd + Rd * C0 + Ru * C0 + Rd * Cu + R0 * Cu + Ru * Cu ≤ 2) := by
  have hN : 0 + Rd * Cd + R0 * Cd + Ru * Cd + Rd * C0 + Ru * C0 + Rd * Cu + R0 * Cu + Ru * Cu
      = (Rd + R0 + Ru) * (Cd + C0 + Cu) - R0 * C0 := by ring
  rw [hN]
  rcases hR with ⟨r0, rs⟩ | ⟨r0, rs0, rs⟩ <;> rcases hC with ⟨c0, cs⟩ | ⟨c0, cs0, cs⟩
  · left
    rw [rs, cs, r0, c0]
    exact ⟨by norm_num, by norm_num⟩
  · right
    have hc : Cd + C0 + Cu = 0 ∨ Cd + C0 + Cu = 1 := by omega
    rcases hc with hc | hc <;> rw [rs, hc, r0, c0] <;> exact ⟨by norm_num, by norm_num⟩
  · right
    have hr : Rd + R0 + Ru = 0 ∨ Rd + R0 + Ru = 1 := by omega
    rcases hr with hr | hr <;> rw [cs, hr, r0, c0] <;> exact ⟨by norm_num, by norm_num⟩
  · right
    have hr : Rd + R0 + Ru = 0 ∨ Rd + R0 + Ru = 1 := by omega
    have hc : Cd + C0 + Cu = 0 ∨ Cd + C0 + Cu = 1 := by omega
    rcases hr with hr | hr <;> rcases hc with hc | hc <;> rw [hr, hc, r0, c0] <;>
      exact ⟨by norm_num, by norm_num⟩

theorem block_cell_stable {board : Board} {n_rows n_cols p q i j : Int} {c : Cell}
    (hwf : WF board n_rows n_cols) (hr : 4 ≤ n_rows) (hc : 4 ≤ n_cols)
    (hp : 0 ≤ p) (hp2 : p < n_rows) (hq : 0 ≤ q) (hq2 : q < n_cols)
    (hflags : aliveStates board = gridOf n_rows n_cols (blockFlags n_rows n_cols p q))
    (hcell : readCell board i j = some c) :
    nextAlive 3 2 3 ⟨c.alive, srcCount board n_rows n_cols i j⟩ = c.alive := by
  obtain ⟨hi, hi2, hj, hj2⟩ := readCell_bounds hwf hcell
  obtain ⟨u0, u1⟩ := up_coord_range hi hi2
  obtain ⟨d0, d1⟩ := down_coord_range hi hi2
  obtain ⟨v0, v1⟩ := up_coord_range hj hj2
  obtain ⟨e0, e1⟩ := down_coord_range hj hj2
  have hA : ∀ x y, 0 ≤ x → x < n_rows → 0 ≤ y → y < n_cols →
      aliveInt board x y = ind2 p (up_coord p n_rows) x * ind2 q (up_coord q n_cols) y := by
    intro x y x0 x1 y0 y1
    rw [aliveInt_gridOf hflags x0 x1 y0 y1, b2i_blockFlags]
  have hself := hA i j hi hi2 hj hj2
  rw [aliveInt_of_readCell hcell] at hself
  have hN : srcCount board n_rows n_cols i j =
      0 + ind2 p (up_coord p n_rows) (down_coord i n_rows) * ind2 q (up_coord q n_cols) (down_coord j n_cols)
        + ind2 p (up_coord p n_rows) i * ind2 q (up_coord q n_cols) (down_coord j n_cols)
        + ind2 p (up_coord p n_rows) (up_coord i n_rows) * ind2 q (up_coord q n_cols) (down_coord j n_cols)
        + ind2 p (up_coord p n_rows) (down_coord i n_rows) * ind2 q (up_coord q n_cols) j
        + ind2 p (up_coord p n_rows) (up_coord i n_rows) * ind2 q (up_coord q n_cols) j
        + ind2 p (up_coord p n_rows) (down_coord i n_rows) * ind2 q (up_coord q n_cols) (up_coord j n_cols)
        + ind2 p (up_coord p n_rows) i * ind2 q (up_coord q n_cols) (up_coord j n_cols)
        + ind2 p (up_coord p n_rows) (up_coord i n_rows) * ind2 q (up_coord q n_cols) (up_coord j n_cols) := by
    unfold srcCount
    rw [hA _ _ d0 d1 e0 e1, hA _ _ hi hi2 e0 e1, hA _ _ u0 u1 e0 e1, hA _ _ d0 d1 hj hj2,
      hA _ _ u0 u1 hj hj2, hA _ _ d0 d1 v0 v1, hA _ _ hi hi2 v0 v1, hA _ _ u0 u1 v0 v1]
  have hW := window_arith (ind2_window hr hi hi2 hp hp2) (ind2_window hc hj hj2 hq hq2)
  rw [← hN, ← hself] at hW
  unfold nextAlive
  simp only
  rcases hW with ⟨ha, hn⟩ | ⟨ha, hn⟩
  · have hal : c.alive = true := by
      cases hca : c.alive with
      | true => rfl
      | false => simp [hca, b2i] at ha
    rw [hn, hal]
    simp [ALIVE]
  · have hal : c.alive = false := by
      cases hca : c.alive with
      | false => rfl
      | true => simp [hca, b2i] at ha
    rw [hal]
    split_ifs with h1 h2 h3
    · rfl
    · rfl
    · omega
    · rfl

theorem succ_mod_eq_up_coord {r n : Int} (hn : 2 ≤ n) :
    (r + 1) % n = up_coord (r % n) n := by
  have h0 : 0 ≤ r % n := Int.emod_nonneg r (by omega)
  have h1 : r % n < n := Int.emod_lt_of_pos r (by omega)
  rw [up_coord_eq_mod h0 h1, Int.emod_add_cancel_right]
  exact (Int.emod_emod_of_dvd r (dvd_refl n)).symm

theorem blockPattern_eq (n_rows n_cols r c : Int) (hr : 2 ≤ n_rows) (hc : 2 ≤ n_cols) :
    blockPattern n_rows n_cols r c
      = gridOf n_rows n_cols (blockFlags n_rows n_cols (r % n_rows) (c % n_cols)) := by
  unfold blockPattern
  congr 1
  funext i j
  unfold blockFlags
  rw [succ_mod_eq_up_coord hr, succ_mod_eq_up_coord hc]

theorem sum_ind2 {n p : Int} (hn : 2 ≤ n) (hp : 0 ≤ p) (hp2 : p < n) :
    ∑ a in Finset.Ico 0 n, ind2 p (up_coord p n) a = 2 := by
  obtain ⟨u0, u1⟩ := up_coord_range hp hp2
  have hne : p ≠ up_coord p n := by
    unfold up_coord
    split_ifs <;> omega
  unfold ind2
  rw [Finset.sum_boole]
  have hset : Finset.filter (fun a => a = p ∨ a = up_coord p n) (Finset.Ico 0 n)
      = {p, up_coord p n} := by
    ext x
    simp only [Finset.mem_filter, Finset.mem_Ico, Finset.mem_insert, Finset.mem_singleton]
    constructor
    · rintro ⟨_, h⟩
      exact h
    · rintro (h | h)
      · exact ⟨by omega, Or.inl h⟩
      · exact ⟨by omega, Or.inr h⟩
  rw [hset, Finset.card_pair hne]
  rfl

theorem block_live_total {board : Board} {n_rows n_cols p q : Int}
    (hr : 4 ≤ n_rows) (hc : 4 ≤ n_cols)
    (hp : 0 ≤ p) (hp2 : p < n_rows) (hq : 0 ≤ q) (hq2 : q < n_cols)
    (hflags : aliveStates board = gridOf n_rows n_cols (blockFlags n_rows n_cols p q)) :
    ∑ a in Finset.Ico 0 n_rows, ∑ k in Finset.Ico 0 n_cols, aliveInt board a k = 4 := by
  have h1 : ∑ a in Finset.Ico 0 n_rows, ∑ k in Finset.Ico 0 n_cols, aliveInt board a k
      = ∑ a in Finset.Ico 0 n_rows, ∑ k in Finset.Ico 0 n_cols,
          ind2 p (up_coord p n_rows) a * ind2 q (up_coord q n_cols) k := by
    apply Finset.sum_congr rfl
    intro a ha
    apply Finset.sum_congr rfl
    intro k hk
    rw [Finset.mem_Ico] at ha hk
    rw [aliveInt_gridOf hflags ha.1 ha.2 hk.1 hk.2, b2i_blockFlags]
  rw [h1, ← Finset.sum_mul_sum, sum_ind2 (by omega) hp hp2, sum_ind2 (by omega) hq hq2]
  rfl

/-- C10 (block still life): on a board of at least 4x4 cells whose live cells are exactly
the 2x2 block at rows `r`, `r+1` and columns `c`, `c+1` (taken modulo `n_rows` and
`n_cols`), `update_board` with `fixed_bounds = 0` and rules (3, 2, 3) returns 4 and
leaves every alive state unchanged. -/
theorem block_is_still_life (board : Board) (n_rows n_cols r c : Int)
    (hwf : WF board n_rows n_cols) (hr : 4 ≤ n_rows) (hc : 4 ≤ n_cols)
    (hblock : aliveStates board = blockPattern n_rows n_cols r c) :
    ∃ b, update_board board n_rows n_cols 0 3 2 3 = some (b, 4) ∧
      aliveStates b = aliveStates board := by
  rw [blockPattern_eq n_rows n_cols r c (by omega) (by omega)] at hblock
  have hp : 0 ≤ r % n_rows := Int.emod_nonneg r (by omega)
  have hp2 : r % n_rows < n_rows := Int.emod_lt_of_pos r (by omega)
  have hq : 0 ≤ c % n_cols := Int.emod_nonneg c (by omega)
  have hq2 : c % n_cols < n_cols := Int.emod_lt_of_pos c (by omega)
  obtain ⟨b, cnt, hupd, hwfb, hcells, hcnt⟩ := update_board_spec 3 2 3 hwf (le_refl (0 : Int))
  have hsame : ∀ i j, 0 ≤ i → i < n_rows → 0 ≤ j → j < n_cols →
      aliveInt b i j = aliveInt board i j := by
    intro i j hi hi2 hj hj2
    obtain ⟨c0, hc0⟩ := readCell_of_bounds hwf hi hi2 hj hj2
    have h1 := (hcells i j c0 hc0).1 ⟨hi, by omega, hj, by omega⟩
    rw [aliveInt_of_readCell h1, aliveInt_of_readCell hc0]
    simp only
    rw [block_cell_stable hwf hr hc hp hp2 hq hq2 hblock hc0]
  have hcnt4 : cnt = 4 := by
    rw [hcnt]
    simp only [sub_zero]
    rw [← block_live_total hr hc hp hp2 hq hq2 hblock]
    apply Finset.sum_congr rfl
    intro a ha
    apply Finset.sum_congr rfl
    intro k hk
    rw [Finset.mem_Ico] at ha hk
    exact hsame a k ha.1 ha.2 hk.1 hk.2
  rw [hcnt4] at hupd
  exact ⟨b, hupd, aliveStates_ext hwfb hwf hsame⟩

/-! ## Board creation lemmas -/

theorem WF_malloc_board (heap : Nat → Nat → Cell) {n_rows n_cols : Int}
    (hr : 0 ≤ n_rows) (hc : 0 ≤ n_cols) : WF (malloc_board heap n_rows n_cols) n_rows n_cols := by
  unfold WF malloc_board
  refine ⟨?_, ?_⟩
  · simp only [List.length_map, List.length_range]
    omega
  · intro row hrow
    simp only [List.mem_map, List.mem_range] at hrow
    obtain ⟨i, _, rfl⟩ := hrow
    simp only [List.length_map, List.length_range]
    omega

theorem create_cell_spec {b : Board} {n_rows n_cols i j : Int} (hwf : WF b n_rows n_cols)
    (hi : 0 ≤ i) (hi2 : i < n_rows) (hj : 0 ≤ j) (hj2 : j < n_cols) :
    ∃ b2, (do
        let c ← readCell b i j
        let b1 ← writeCell b i j { c with alive := DEAD }
        let c2 ← readCell b1 i j
        writeCell b1 i j { c2 with n_alive_neighbrs := 0 }) = some b2 ∧
      WF b2 n_rows n_cols ∧
      ∀ a k, readCell b2 a k = if a = i ∧ k = j then some ⟨DEAD, 0⟩ else readCell b a k := by
  obtain ⟨c, hc⟩ := readCell_of_bounds hwf hi hi2 hj hj2
  obtain ⟨b1, hb1⟩ := writeCell_of_readCell { c with alive := DEAD } hc
  have hr1 := readCell_writeCell hb1 i j
  rw [if_pos ⟨rfl, rfl⟩] at hr1
  obtain ⟨b2, hb2⟩ := writeCell_of_readCell
    { ({ c with alive := DEAD } : Cell) with n_alive_neighbrs := 0 } hr1
  refine ⟨b2, ?_, WF_writeCell (WF_writeCell hwf hb1) hb2, ?_⟩
  · simp only [hc, hb1, hr1, hb2, Option.bind_eq_bind, Option.some_bind]
  · intro a k
    rw [readCell_writeCell hb2 a k, readCell_writeCell hb1 a k]
    by_cases hak : a = i ∧ k = j
    · simp only [if_pos hak]
    · simp only [if_neg hak]

/-- Full description of `create_board` for non-negative dimensions: it returns a board of
the requested shape in which every cell is dead with neighbour count 0. -/
theorem create_board_spec (heap : Nat → Nat → Cell) {n_rows n_cols : Int}
    (hr : 0 ≤ n_rows) (hc : 0 ≤ n_cols) :
    ∃ b, create_board heap n_rows n_cols = Except.ok b ∧ WF b n_rows n_cols ∧
      ∀ a k, 0 ≤ a → a < n_rows → 0 ≤ k → k < n_cols → readCell b a k = some ⟨DEAD, 0⟩ := by
  have hinner : ∀ i t, 0 ≤ i → i < n_rows →
      (WF t n_rows n_cols ∧ ∀ a k, 0 ≤ a → a < i → 0 ≤ k → k < n_cols →
        readCell t a k = some ⟨DEAD, 0⟩) →
      ∃ t1, forLoop 0 n_cols
          (fun j b1 => do
            let c ← readCell b1 i j
            let b2 ← writeCell b1 i j { c with alive := DEAD }
            let c2 ← readCell b2 i j
            writeCell b2 i j { c2 with n_alive_neighbrs := 0 }) t = some t1 ∧
        (WF t1 n_rows n_cols ∧ ∀ a k, 0 ≤ a → a < i + 1 → 0 ≤ k → k < n_cols →
          readCell t1 a k = some ⟨DEAD, 0⟩) := by
    intro i t hi hi2 hI
    obtain ⟨t1, ht1, hP⟩ := forLoop_inv
      (fun j (t : Board) => WF t n_rows n_cols ∧ ∀ a k, 0 ≤ a → 0 ≤ k → k < n_cols →
        (a < i ∨ (a = i ∧ k < j)) → readCell t a k = some ⟨DEAD, 0⟩)
      _ 0 n_cols t hc
      ⟨hI.1, fun a k ha hk hk2 hd => hI.2 a k ha (by omega) hk hk2⟩
      (by
        intro j t2 hj hj2 hJ
        obtain ⟨b2, hb2, hwf2, hread⟩ := create_cell_spec hJ.1 hi hi2 hj hj2
        refine ⟨b2, hb2, hwf2, ?_⟩
        intro a k ha hk hk2 hd
        rw [hread a k]
        by_cases hak : a = i ∧ k = j
        · rw [if_pos hak]
        · rw [if_neg hak]
          exact hJ.2 a k ha hk hk2 (by omega))
    refine ⟨t1, ht1, hP.1, ?_⟩
    intro a k ha ha2 hk hk2
    exact hP.2 a k ha hk hk2 (by omega)
  obtain ⟨b, hb, hP⟩ := forLoop_inv
    (fun i (t : Board) => WF t n_rows n_cols ∧ ∀ a k, 0 ≤ a → a < i → 0 ≤ k → k < n_cols →
      readCell t a k = some ⟨DEAD, 0⟩)
    _ 0 n_rows (malloc_board heap n_rows n_cols) hr
    ⟨WF_malloc_board heap hr hc, fun a k ha ha2 => by omega⟩ hinner
  refine ⟨b, ?_, hP.1, hP.2⟩
  unfold create_board
  rw [if_neg (by omega), if_neg (by omega), hb]

/-! ## Codec lemmas -/

theorem save_cells_spec (g : Board) {n_rows n_cols i : Int} (hwf : WF g n_rows n_cols)
    (hi : 0 ≤ i) (hi2 : i < n_rows) :
    ∀ (n : Nat) (j : Int) (out : List Char), 0 ≤ j → j + n ≤ n_cols →
      forRange (fun j o => do
          let c ← readCell g i j
          pure (o ++ print_int (b2i c.alive))) j n out
        = some (out ++ cellsText g i j n) := by
  intro n
  induction n with
  | zero =>
    intro j out _ _
    simp [forRange, cellsText]
  | succ n ih =>
    intro j out hj hj2
    obtain ⟨c, hc⟩ := readCell_of_bounds hwf hi hi2 hj (by push_cast at hj2; omega)
    rw [forRange_step _ j n out (out ++ print_int (b2i c.alive))
      (by simp only [hc, Option.bind_eq_bind, Option.some_bind, Option.pure_def])]
    rw [ih (j + 1) _ (by omega) (by push_cast at hj2; omega)]
    simp only [cellsText, aliveInt_of_readCell hc, List.append_assoc]

theorem save_rows_spec (g : Board) {n_rows n_cols : Int} (hwf : WF g n_rows n_cols)
    (hc : 0 ≤ n_cols) :
    ∀ (n : Nat) (i : Int) (out : List Char), 0 ≤ i → i + n ≤ n_rows →
      forRange (fun i out => do
          let out1 ← forLoop 0 n_cols
            (fun j o => do
              let c ← readCell g i j
              pure (o ++ print_int (b2i c.alive))) out
          pure (out1 ++ [NEWLINE_CHAR])) i n out
        = some (out ++ rowsText g n_cols i n) := by
  intro n
  induction n with
  | zero =>
    intro i out _ _
    simp [forRange, rowsText]
  | succ n ih =>
    intro i out hi hi2
    have hcells := save_cells_spec g hwf hi (by push_cast at hi2; omega : i < n_rows)
      n_cols.toNat 0 out (le_refl _) (by omega)
    have hsub : (n_cols - 0).toNat = n_cols.toNat := by simp
    have hloop : forLoop 0 n_cols (fun j o => do
        let c ← readCell g i j
        pure (o ++ print_int (b2i c.alive))) out
        = some (out ++ cellsText g i 0 n_cols.toNat) := by
      unfold forLoop
      rw [hsub]
      exact hcells
    rw [forRange_step _ i n out (out ++ cellsText g i 0 n_cols.toNat ++ [NEWLINE_CHAR])
      (by rw [hloop]; rfl)]
    rw [ih (i + 1) _ (by omega) (by push_cast at hi2; omega)]
    simp only [rowsText, List.append_assoc, List.singleton_append]

theorem save_board_spec (g : Board) {n_rows n_cols : Int} (fixed_bounds : Int)
    (hwf : WF g n_rows n_cols) (hc : 0 ≤ n_cols) :
    save_board g n_rows n_cols fixed_bounds
      = some ("n_rows:".toList ++ print_int n_rows ++ ", n_cols:".toList ++ print_int n_cols
          ++ ", fixed_bounds:".toList ++ print_int fixed_bounds ++ [NEWLINE_CHAR]
          ++ rowsText g n_cols 0 n_rows.toNat) := by
  have hr : 0 ≤ n_rows := by
    have := hwf.1
    omega
  unfold save_board forLoop
  have hsub : (n_rows - 0).toNat = n_rows.toNat := by simp
  rw [hsub]
  exact save_rows_spec g hwf hc n_rows.toNat 0 _ (le_refl _) (by omega)

theorem print_int_b2i (a : Bool) : print_int (b2i a) = [if a then '1' else '0'] := by
  cases a <;> rfl

theorem read_cell_step {g b : Board} {n_rows n_cols i j : Int} {c : Cell} (rest : List Char)
    (hinv : ReadInv g n_rows n_cols i j b) (hc : readCell g i j = some c)
    (hi2 : i < n_rows) (hj2 : j < n_cols) :
    ∃ b1, read_cells n_rows n_cols (print_int (b2i c.alive) ++ rest) b i j
        = read_cells n_rows n_cols rest b1 i (j + 1) ∧
      ReadInv g n_rows n_cols i (j + 1) b1 := by
  have hcur := (hinv.2 i j c hc).2 (by omega)
  obtain ⟨b1, hb1⟩ := writeCell_of_readCell (⟨c.alive, 0⟩ : Cell) hcur
  refine ⟨b1, ?_, WF_writeCell hinv.1 hb1, ?_⟩
  · rw [print_int_b2i]
    have hguard : ¬ (i > n_rows + 1 ∨ j > n_cols) := by omega
    cases hal : c.alive with
    | true =>
      rw [hal] at hb1
      simp only [if_true, List.singleton_append, read_cells, if_neg hguard]
      have h1 : ¬ ('1' = NEWLINE_CHAR) := by decide
      have h2 : ¬ ((('1' : Char).toNat : Int) - ASCII_ADJUST ≠ 0 ∧
        (('1' : Char).toNat : Int) - ASCII_ADJUST ≠ 1) := by decide
      have h3 : decide ((('1' : Char).toNat : Int) - ASCII_ADJUST ≠ 0) = true := by decide
      rw [if_neg h1, if_neg h2, hcur]
      simp only [h3, hb1]
      rfl
    | false =>
      rw [hal] at hb1
      simp only [Bool.false_eq_true, if_false, List.singleton_append, read_cells, if_neg hguard]
      have h1 : ¬ ('0' = NEWLINE_CHAR) := by decide
      have h2 : ¬ ((('0' : Char).toNat : Int) - ASCII_ADJUST ≠ 0 ∧
        (('0' : Char).toNat : Int) - ASCII_ADJUST ≠ 1) := by decide
      have h3 : decide ((('0' : Char).toNat : Int) - ASCII_ADJUST ≠ 0) = false := by decide
      rw [if_neg h1, if_neg h2, hcur]
      simp only [h3, hb1]
      rfl
  · intro a k c1 hc1
    rw [readCell_writeCell hb1 a k]
    by_cases hak : a = i ∧ k = j
    · obtain ⟨rfl, rfl⟩ := hak
      rw [hc] at hc1
      simp only [Option.some.injEq] at hc1
      subst hc1
      rw [if_pos ⟨rfl, rfl⟩]
      exact ⟨fun _ => rfl, fun hcon => absurd (Or.inr ⟨rfl, by omega⟩) hcon⟩
    · rw [if_neg hak]
      obtain ⟨hA, hB⟩ := hinv.2 a k c1 hc1
      exact ⟨fun hd => hA (by omega), fun hd => hB (by omega)⟩

theorem read_row_spec {g : Board} {n_rows n_cols i : Int} (hwf : WF g n_rows n_cols)
    (hi : 0 ≤ i) (hi2 : i < n_rows) (rest : List Char) :
    ∀ (n : Nat) (j : Int) (b : Board), 0 ≤ j → j + n ≤ n_cols →
      ReadInv g n_rows n_cols i j b →
      ∃ b1, read_cells n_rows n_cols (cellsText g i j n ++ rest) b i j
          = read_cells n_rows n_cols rest b1 i (j + n) ∧
        ReadInv g n_rows n_cols i (j + n) b1 := by
  intro n
  induction n with
  | zero =>
    intro j b _ _ hinv
    exact ⟨b, by simp [cellsText], by simpa using hinv⟩
  | succ n ih =>
    intro j b hj hj2 hinv
    push_cast at hj2
    obtain ⟨c, hc⟩ := readCell_of_bounds hwf hi hi2 hj (by omega : j < n_cols)
    obtain ⟨b1, hb1, hinv1⟩ := read_cell_step (cellsText g i (j + 1) n ++ rest) hinv hc hi2
      (by omega)
    obtain ⟨b2, hb2, hinv2⟩ := ih (j + 1) b1 (by omega) (by omega) hinv1
    refine ⟨b2, ?_, ?_⟩
    · simp only [cellsText, aliveInt_of_readCell hc, List.append_assoc]
      rw [hb1, hb2]
      congr 1
      push_cast
      ring
    · have e : j + ((n + 1 : Nat) : Int) = j + 1 + (n : Int) := by push_cast; ring
      rw [e]
      exact hinv2

theorem ReadInv_next_row {g b : Board} {n_rows n_cols i : Int} (hwf : WF g n_rows n_cols)
    (hinv : ReadInv g n_rows n_cols i n_cols b) : ReadInv g n_rows n_cols (i + 1) 0 b := by
  refine ⟨hinv.1, ?_⟩
  intro a k c hc
  obtain ⟨x0, x1, x2, x3⟩ := readCell_bounds hwf hc
  obtain ⟨hA, hB⟩ := hinv.2 a k c hc
  exact ⟨fun hd => hA (by omega), fun hd => hB (by omega)⟩

theorem read_rows_spec {g : Board} {n_rows n_cols : Int} (hwf : WF g n_rows n_cols)
    (hc : 0 ≤ n_cols) :
    ∀ (n : Nat) (i row col : Int) (b : Board), row + 1 = i → 0 ≤ i → i + n = n_rows →
      col ≤ n_cols → ReadInv g n_rows n_cols i 0 b →
      ∃ b1, read_cells n_rows n_cols (NEWLINE_CHAR :: rowsText g n_cols i n) b row col
          = Except.ok b1 ∧
        ReadInv g n_rows n_cols n_rows 0 b1 := by
  intro n
  induction n with
  | zero =>
    intro i row col b hrow hi hn hcol hinv
    have hguard : ¬ (row > n_rows + 1 ∨ col > n_cols) := by omega
    refine ⟨b, ?_, ?_⟩
    · simp only [rowsText, read_cells, if_neg hguard, if_true]
    · have e : i = n_rows := by simpa using hn
      rw [e] at hinv
      exact hinv
  | succ n ih =>
    intro i row col b hrow hi hn hcol hinv
    push_cast at hn
    have hguard : ¬ (row > n_rows + 1 ∨ col > n_cols) := by omega
    obtain ⟨b1, hb1, hinv1⟩ := read_row_spec hwf hi (by omega : i < n_rows)
      (NEWLINE_CHAR :: rowsText g n_cols (i + 1) n) n_cols.toNat 0 b (le_refl _) (by omega) hinv
    have e : (0 : Int) + (n_cols.toNat : Int) = n_cols := by omega
    rw [e] at hb1 hinv1
    obtain ⟨b2, hb2, hinv2⟩ := ih (i + 1) i n_cols b1 rfl (by omega) (by omega) (le_refl _)
      (ReadInv_next_row hwf hinv1)
    refine ⟨b2, ?_, hinv2⟩
    simp only [rowsText, read_cells, if_neg hguard, if_true]
    rw [hrow, hb1, hb2]

theorem scan_literal_append (p rest : List Char) :
    scan_literal p (p ++ rest) = Except.ok rest := by
  induction p with
  | nil => rfl
  | cons x xs ih => simp [scan_literal, ih]

theorem scan_int_print_int (n : Int) (h0 : 0 ≤ n) (h1 : n ≤ 50) (c : Char)
    (hc : c = ',' ∨ c = NEWLINE_CHAR) (rest : List Char) :
    scan_int (print_int n ++ c :: rest) = Except.ok (n, c :: rest) := by
  rcases hc with rfl | rfl <;> interval_cases n <;> rfl

theorem scan_field_saved (key : List Char) (hkey : ∀ rest, skip_space (' ' :: (key ++ rest)) = key ++ rest)
    (n : Int) (h0 : 0 ≤ n) (h1 : n ≤ 50) (c : Char)
    (hc : c = ',' ∨ c = NEWLINE_CHAR) (rest : List Char) :
    scan_field key (',' :: ' ' :: (key ++ (print_int n ++ c :: rest)))
      = Except.ok (n, c :: rest) := by
  unfold scan_field
  have e1 : scan_literal [','] (',' :: ' ' :: (key ++ (print_int n ++ c :: rest)))
      = Except.ok (' ' :: (key ++ (print_int n ++ c :: rest))) := by
    simp [scan_literal]
  rw [e1]
  simp only
  rw [hkey, scan_literal_append]
  simp only
  exact scan_int_print_int n h0 h1 c hc rest

theorem fscanf_header_saved (r0 c0 f0 n_rows n_cols fixed_bounds : Int)
    (hr0 : 0 ≤ n_rows) (hr1 : n_rows ≤ 50) (hc0 : 0 ≤ n_cols) (hc1 : n_cols ≤ 50)
    (hf0 : 0 ≤ fixed_bounds) (hf1 : fixed_bounds ≤ 50) (body : List Char) :
    fscanf_header r0 c0 f0
      ("n_rows:".toList ++ print_int n_rows ++ ", n_cols:".toList ++ print_int n_cols
        ++ ", fixed_bounds:".toList ++ print_int fixed_bounds ++ [NEWLINE_CHAR] ++ body)
      = ⟨3, n_rows, n_cols, fixed_bounds, NEWLINE_CHAR :: body⟩ := by
  have k1 : ", n_cols:".toList = ',' :: ' ' :: "n_cols:".toList := rfl
  have k2 : ", fixed_bounds:".toList = ',' :: ' ' :: "fixed_bounds:".toList := rfl
  have e : "n_rows:".toList ++ print_int n_rows ++ ", n_cols:".toList ++ print_int n_cols
        ++ ", fixed_bounds:".toList ++ print_int fixed_bounds ++ [NEWLINE_CHAR] ++ body
      = "n_rows:".toList ++ (print_int n_rows ++ ',' ::
          ' ' :: ("n_cols:".toList ++ (print_int n_cols ++ ',' ::
            ' ' :: ("fixed_bounds:".toList ++
              (print_int fixed_bounds ++ NEWLINE_CHAR :: body))))) := by
    rw [k1, k2]
    simp only [List.append_assoc, List.cons_append, List.nil_append, List.singleton_append]
  rw [e]
  unfold fscanf_header
  rw [scan_literal_append]
  simp only
  rw [scan_int_print_int n_rows hr0 hr1 ',' (Or.inl rfl)]
  simp only
  rw [scan_field_saved "n_cols:".toList (fun _ => rfl) n_cols hc0 hc1 ',' (Or.inl rfl)]
  simp only
  rw [scan_field_saved "fixed_bounds:".toList (fun _ => rfl) fixed_bounds hf0 hf1
    NEWLINE_CHAR (Or.inr rfl)]

theorem ReadInv_init {g b : Board} {n_rows n_cols : Int}
    (hb : WF b n_rows n_cols) (hg : WF g n_rows n_cols)
    (hdead : ∀ a k, 0 ≤ a → a < n_rows → 0 ≤ k → k < n_cols → readCell b a k = some ⟨DEAD, 0⟩) :
    ReadInv g n_rows n_cols 0 0 b := by
  refine ⟨hb, ?_⟩
  intro a k c hc
  obtain ⟨x0, x1, x2, x3⟩ := readCell_bounds hg hc
  exact ⟨fun hd => by omega, fun _ => hdead a k x0 x1 x2 x3⟩

/-- C2 (round trip): for a board `g` of `n_rows` x `n_cols` cells with both dimensions in
`[1, 50]` and a topology flag `t` in `{0, 1}`, `save_board` writes a text and the board decoder
of `main` reads that text without error, giving back `n_rows`, `n_cols`, `t` and a board
with the alive state of `g` in every cell. -/
theorem save_then_read_roundtrip (g : Board) (n_rows n_cols t : Int) (u : Uninit)
    (hwf : WF g n_rows n_cols) (hr0 : 1 ≤ n_rows) (hr1 : n_rows ≤ 50)
    (hc0 : 1 ≤ n_cols) (hc1 : n_cols ≤ 50) (ht : t = 0 ∨ t = 1) :
    ∃ text b, save_board g n_rows n_cols t = some text ∧
      main_read_board u text = Except.ok ⟨n_rows, n_cols, t, b⟩ ∧
      aliveStates b = aliveStates g := by
  have hsave := save_board_spec g t hwf (by omega : 0 ≤ n_cols)
  have hhead := fscanf_header_saved u.n_rows u.n_cols 0 n_rows n_cols t (by omega) hr1
    (by omega) hc1 (by omega) (by omega) (rowsText g n_cols 0 n_rows.toNat)
  obtain ⟨b0, hb0, hwf0, hdead⟩ := create_board_spec u.heap (by omega : 0 ≤ n_rows)
    (by omega : 0 ≤ n_cols)
  obtain ⟨b, hb, hinv⟩ := read_rows_spec hwf (by omega : 0 ≤ n_cols) n_rows.toNat 0 (-1) 0 b0
    (by norm_num) (le_refl _) (by omega) (by omega) (ReadInv_init hwf0 hwf hdead)
  refine ⟨_, b, hsave, ?_, ?_⟩
  · unfold main_read_board
    rw [hhead]
    simp only
    rw [if_neg (by decide), hb0]
    simp only
    rw [hb]
  · apply aliveStates_ext hinv.1 hwf
    intro i j hi hi2 hj hj2
    obtain ⟨c, hc⟩ := readCell_of_bounds hwf hi hi2 hj hj2
    rw [aliveInt_of_readCell ((hinv.2 i j c hc).1 (by omega)), aliveInt_of_readCell hc]

/-! ## Witnesses and evaluations at concrete inputs -/

/-- Witness of C6 on the 4 x 5 sample board. -/
theorem calc_n_neighbours_wrapped_sum_witness :
    WF sampleBoard 4 5 ∧ (1 : Int) ≤ 4 ∧ (1 : Int) ≤ 5 ∧
    ∃ b, calc_n_neighbours sampleBoard 4 5 = some b ∧
      ∀ i j, 0 ≤ i → i < 4 → 0 ≤ j → j < 5 →
        ∃ c0 c1, readCell sampleBoard i j = some c0 ∧ readCell b i j = some c1 ∧
          c1.n_alive_neighbrs = wrappedCount sampleBoard 4 5 i j ∧
          c1.alive = c0.alive :=
  ⟨by decide, by decide, by decide,
    calc_n_neighbours_wrapped_sum sampleBoard 4 5 (by decide) (by decide) (by decide)⟩

/-- Witness of C1 on the 4 x 5 sample board with fixed boundaries and rules (3, 2, 3). -/
theorem update_board_rule_chain_witness :
    WF sampleBoard 4 5 ∧ (1 : Int) ≤ 4 ∧ (1 : Int) ≤ 5 ∧ ((1 : Int) = 0 ∨ (1 : Int) = 1) ∧
    ∃ b cnt, update_board sampleBoard 4 5 1 3 2 3 = some (b, cnt) ∧
      ∀ i j, 1 ≤ i → i < 4 - 1 → 1 ≤ j → j < 5 - 1 →
        ∃ c0 c1, readCell sampleBoard i j = some c0 ∧ readCell b i j = some c1 ∧
          c1.alive =
            if wrappedCount sampleBoard 4 5 i j < 2 then DEAD
            else if wrappedCount sampleBoard 4 5 i j > 3 then DEAD
            else if wrappedCount sampleBoard 4 5 i j = 3 then ALIVE
            else c0.alive :=
  ⟨by decide, by decide, by decide, by decide,
    update_board_rule_chain sampleBoard 4 5 1 3 2 3 (by decide) (by decide) (by decide)
      (by decide)⟩

/-- Witness of C3 on the 4 x 5 sample board with rules (3, 2, 3). -/
theorem update_board_border_frozen_witness :
    WF sampleBoard 4 5 ∧
    ∃ b cnt, update_board sampleBoard 4 5 1 3 2 3 = some (b, cnt) ∧
      ∀ i j c0, readCell sampleBoard i j = some c0 →
        (i = 0 ∨ i = 4 - 1 ∨ j = 0 ∨ j = 5 - 1) →
        ∃ c1, readCell b i j = some c1 ∧ c1.alive = c0.alive :=
  ⟨by decide, update_board_border_frozen sampleBoard 4 5 3 2 3 (by decide)⟩

/-- Witness of C4 on the 4 x 5 sample board with toroidal boundaries and rules (3, 2, 3). -/
theorem accesses_stay_in_range_witness :
    WF sampleBoard 4 5 ∧ (1 : Int) ≤ 4 ∧ (1 : Int) ≤ 5 ∧ ((0 : Int) = 0 ∨ (0 : Int) = 1) ∧
    ((∀ i j, (readCell sampleBoard i j).isSome ↔ (0 ≤ i ∧ i < 4 ∧ 0 ≤ j ∧ j < 5)) ∧
    (∀ i j c, (writeCell sampleBoard i j c).isSome ↔ (0 ≤ i ∧ i < 4 ∧ 0 ≤ j ∧ j < 5)) ∧
    (calc_n_neighbours sampleBoard 4 5).isSome ∧
    (update_board sampleBoard 4 5 0 3 2 3).isSome ∧
    (∀ bound coord : Int, 1 ≤ bound → 0 ≤ coord → coord < bound →
      (0 ≤ up_coord coord bound ∧ up_coord coord bound < bound) ∧
      (0 ≤ down_coord coord bound ∧ down_coord coord bound < bound))) :=
  ⟨by decide, by decide, by decide, by decide,
    accesses_stay_in_range sampleBoard 4 5 0 3 2 3 (by decide) (by decide) (by decide)
      (by decide)⟩

/-- Witness of C8 on the 4 x 5 sample board with fixed boundaries and rules (3, 2, 3). -/
theorem update_board_counts_visited_witness :
    WF sampleBoard 4 5 ∧ ((1 : Int) = 0 ∨ (1 : Int) = 1) ∧
    ∃ b cnt, update_board sampleBoard 4 5 1 3 2 3 = some (b, cnt) ∧
      cnt = ∑ i in Finset.Ico (1 : Int) (4 - 1), ∑ j in Finset.Ico (1 : Int) (5 - 1),
              aliveInt b i j :=
  ⟨by decide, by decide,
    update_board_counts_visited sampleBoard 4 5 1 3 2 3 (by decide) (by decide)⟩

/-- Witness of C10 on the 4 x 4 board whose block straddles both wraps. -/
theorem block_is_still_life_witness :
    WF cornerBlockBoard 4 4 ∧ (4 : Int) ≤ 4 ∧ (4 : Int) ≤ 4 ∧
    aliveStates cornerBlockBoard = blockPattern 4 4 3 3 ∧
    ∃ b, update_board cornerBlockBoard 4 4 0 3 2 3 = some (b, 4) ∧
      aliveStates b = aliveStates cornerBlockBoard :=
  ⟨by decide, by decide, by decide, by decide,
    block_is_still_life cornerBlockBoard 4 4 3 3 (by decide) (by decide) (by decide)
      (by decide)⟩

/-- Witness of C2 on the 4 x 5 sample board saved with fixed boundaries. -/
theorem save_then_read_roundtrip_witness :
    WF sampleBoard 4 5 ∧ (1 : Int) ≤ 4 ∧ (4 : Int) ≤ 50 ∧ (1 : Int) ≤ 5 ∧ (5 : Int) ≤ 50 ∧
    ((1 : Int) = 0 ∨ (1 : Int) = 1) ∧
    ∃ text b, save_board sampleBoard 4 5 1 = some text ∧
      main_read_board sampleUninit text = Except.ok ⟨4, 5, 1, b⟩ ∧
      aliveStates b = aliveStates sampleBoard :=
  ⟨by decide, by decide, by decide, by decide, by decide, by decide,
    save_then_read_roundtrip sampleBoard 4 5 1 sampleUninit (by decide) (by decide) (by decide)
      (by decide) (by decide) (by decide)⟩

/-- C9 (live count, documentation reading) fails on the code: the board file
`n_rows:3, n_cols:3, fixed_bounds:1` with the rows `100`, `000`, `000` decodes to the 3 x 3
board whose only live cell is the corner `(0, 0)` with `fixed_bounds = 1`; on it, with rules
(3, 2, 3), `update_board` returns 0 although one cell of the updated board is alive. -/
theorem update_board_count_misses_border :
    main_read_board sampleUninit "n_rows:3, n_cols:3, fixed_bounds:1\n100\n000\n000\n".toList
      = Except.ok ⟨3, 3, 1, cornerCellBoard⟩ ∧
    ∃ b, update_board cornerCellBoard 3 3 1 3 2 3 = some (b, 0) ∧ liveCells b = 1 :=
  ⟨rfl, _, rfl, rfl⟩

/-- C5 (decoder memory safety) fails on the code: after the header `n_rows:1, n_cols:1`, a
body row of two cells, or a second body row, is written outside the 1 x 1 board before the
dimension check stops the loop. -/
theorem read_cells_writes_outside_board (u : Uninit) :
    fscanf_header u.n_rows u.n_cols 0 "n_rows:1, n_cols:1, fixed_bounds:0\n11\n".toList
      = ⟨3, 1, 1, 0, "\n11\n".toList⟩ ∧
    main_read_board u "n_rows:1, n_cols:1, fixed_bounds:0\n11\n".toList
      = Except.error Fault.outOfBounds ∧
    main_read_board u "n_rows:1, n_cols:1, fixed_bounds:0\n0\n0\n".toList
      = Except.error Fault.outOfBounds :=
  ⟨rfl, rfl, rfl⟩

/-! ## Rule presets, console input and manual editing -/

/-- C20 (rule presets match the menu) fails on the code: option 2 sets
`(death_overpop, death_underpop, birth_repro)` to (6, 3, 5) while the menu printed by the
same function shows (6, 3, 4); options 1 and 3 set the values of the menu, (3, 2, 3) and
(4, 2, 3), and any other option leaves the three values unchanged. -/
theorem update_rules_option_2_differs_from_menu (rules : Int × Int × Int) :
    update_rules 2 rules = (6, 3, 5) ∧ rules_menu 2 = some (6, 3, 4) ∧
    some (update_rules 1 rules) = rules_menu 1 ∧
    some (update_rules 3 rules) = rules_menu 3 ∧
    ∀ option : Int, option ≠ 1 → option ≠ 2 → option ≠ 3 → update_rules option rules = rules := by
  refine ⟨rfl, rfl, rfl, rfl, ?_⟩
  intro option h1 h2 h3
  unfold update_rules
  rw [if_neg h1, if_neg h2, if_neg h3]

theorem board_ext {b1 b2 : Board} {n_rows n_cols : Int}
    (h1 : WF b1 n_rows n_cols) (h2 : WF b2 n_rows n_cols)
    (h : ∀ i j, 0 ≤ i → i < n_rows → 0 ≤ j → j < n_cols → readCell b1 i j = readCell b2 i j) :
    b1 = b2 := by
  have hl1 := h1.1
  have hl2 := h2.1
  apply List.ext_getElem
  · omega
  · intro a ha1 ha2
    have hr1 := h1.2 _ (List.getElem_mem ha1)
    have hr2 := h2.2 _ (List.getElem_mem ha2)
    apply List.ext_getElem
    · omega
    · intro k hk1 hk2
      have e := h (a : Int) (k : Int) (by omega) (by omega) (by omega) (by omega)
      rw [readCell_natCast b1 a k ha1 hk1, readCell_natCast b2 a k ha2 hk2] at e
      exact Option.some.inj e

theorem WF_replicate (n_rows n_cols : Int) (hr : 0 ≤ n_rows) (hc : 0 ≤ n_cols) (c : Cell) :
    WF (List.replicate n_rows.toNat (List.replicate n_cols.toNat c)) n_rows n_cols := by
  refine ⟨?_, ?_⟩
  · simp only [List.length_replicate]
    omega
  · intro row hrow
    rw [List.eq_of_mem_replicate hrow]
    simp only [List.length_replicate]
    omega

theorem readCell_replicate {n_rows n_cols i j : Int} (c : Cell)
    (hi : 0 ≤ i) (hi2 : i < n_rows) (hj : 0 ≤ j) (hj2 : j < n_cols) :
    readCell (List.replicate n_rows.toNat (List.replicate n_cols.toNat c)) i j = some c := by
  obtain ⟨c1, hc1⟩ := readCell_of_bounds
    (WF_replicate n_rows n_cols (by omega) (by omega) c) hi hi2 hj hj2
  rw [hc1]
  unfold readCell at hc1
  rw [if_pos ⟨hi, hj⟩] at hc1
  cases hrow : (List.replicate n_rows.toNat (List.replicate n_cols.toNat c))[i.toNat]? with
  | none => simp [hrow] at hc1
  | some row =>
    simp only [hrow] at hc1
    have e1 := List.eq_of_mem_replicate (List.getElem?_mem hrow)
    rw [e1] at hc1
    rw [List.eq_of_mem_replicate (List.getElem?_mem hc1)]

theorem create_board_replicate (heap : Nat → Nat → Cell) {n_rows n_cols : Int}
    (hr : 0 ≤ n_rows) (hc : 0 ≤ n_cols) :
    create_board heap n_rows n_cols
      = Except.ok (List.replicate n_rows.toNat (List.replicate n_cols.toNat ⟨DEAD, 0⟩)) := by
  obtain ⟨b, hb, hwf, hdead⟩ := create_board_spec heap hr hc
  rw [hb]
  congr 1
  apply board_ext hwf (WF_replicate n_rows n_cols hr hc (⟨DEAD, 0⟩ : Cell))
  intro i j hi hi2 hj hj2
  rw [hdead i j hi hi2 hj hj2, readCell_replicate _ hi hi2 hj hj2]

/-- C17 (board creation): for `1 ≤ n_rows, n_cols ≤ 50`, whatever the contents of the
allocated memory, `create_board` returns the board of exactly `n_rows` rows of exactly
`n_cols` cells in which every cell has `alive = DEAD` and `n_alive_neighbrs = 0`. -/
theorem create_board_all_dead (heap : Nat → Nat → Cell) (n_rows n_cols : Int)
    (hr0 : 1 ≤ n_rows) (_hr1 : n_rows ≤ 50) (hc0 : 1 ≤ n_cols) (_hc1 : n_cols ≤ 50) :
    create_board heap n_rows n_cols
      = Except.ok (List.replicate n_rows.toNat (List.replicate n_cols.toNat ⟨DEAD, 0⟩)) ∧
    WF (List.replicate n_rows.toNat (List.replicate n_cols.toNat (⟨DEAD, 0⟩ : Cell)))
      n_rows n_cols :=
  ⟨create_board_replicate heap (by omega) (by omega),
    WF_replicate n_rows n_cols (by omega) (by omega) _⟩

/-- Witness of C17 for a 2 x 3 board. -/
theorem create_board_all_dead_witness :
    (1 : Int) ≤ 2 ∧ (2 : Int) ≤ 50 ∧ (1 : Int) ≤ 3 ∧ (3 : Int) ≤ 50 ∧
    (create_board sampleUninit.heap 2 3
      = Except.ok (List.replicate (2 : Int).toNat (List.replicate (3 : Int).toNat ⟨DEAD, 0⟩)) ∧
    WF (List.replicate (2 : Int).toNat (List.replicate (3 : Int).toNat (⟨DEAD, 0⟩ : Cell)))
      2 3) :=
  ⟨by decide, by decide, by decide, by decide,
    create_board_all_dead sampleUninit.heap 2 3 (by decide) (by decide) (by decide) (by decide)⟩

theorem add_living_cell_inside {board : Board} {n_rows n_cols x y : Int}
    (hwf : WF board n_rows n_cols)
    (hin : 0 ≤ x - 1 ∧ x - 1 < n_rows ∧ 0 ≤ y - 1 ∧ y - 1 < n_cols) :
    ∃ b, add_living_cell board n_rows n_cols x y = some (b, false) := by
  obtain ⟨c0, hc0⟩ := readCell_of_bounds hwf hin.1 hin.2.1 hin.2.2.1 hin.2.2.2
  obtain ⟨b, hb⟩ := writeCell_of_readCell { c0 with alive := ALIVE } hc0
  refine ⟨b, ?_⟩
  unfold add_living_cell
  rw [if_pos (by omega)]
  simp only [hc0, hb, Option.bind_eq_bind, Option.some_bind, Option.pure_def]

/-- C18 (manual editing): for a 1-based coordinate `(x, y)` with `1 ≤ x ≤ n_rows` and
`1 ≤ y ≤ n_cols`, `add_living_cell` takes no error branch, sets cell `(x-1, y-1)` alive
with its neighbour count unchanged, leaves every other cell as it was, and applied again with
the same coordinate gives the same board. -/
theorem add_living_cell_sets_cell (board : Board) (n_rows n_cols x y : Int)
    (hwf : WF board n_rows n_cols) (hx0 : 1 ≤ x) (hx1 : x ≤ n_rows)
    (hy0 : 1 ≤ y) (hy1 : y ≤ n_cols) :
    ∃ b c0, readCell board (x - 1) (y - 1) = some c0 ∧
      add_living_cell board n_rows n_cols x y = some (b, false) ∧
      readCell b (x - 1) (y - 1) = some ⟨ALIVE, c0.n_alive_neighbrs⟩ ∧
      (∀ i j, ¬ (i = x - 1 ∧ j = y - 1) → readCell b i j = readCell board i j) ∧
      add_living_cell b n_rows n_cols x y = some (b, false) := by
  have hin : x - 1 ≥ 0 ∧ x - 1 < n_rows ∧ y - 1 ≥ 0 ∧ y - 1 < n_cols := by omega
  obtain ⟨c0, hc0⟩ := readCell_of_bounds hwf (by omega : 0 ≤ x - 1) (by omega : x - 1 < n_rows)
    (by omega : 0 ≤ y - 1) (by omega : y - 1 < n_cols)
  obtain ⟨b, hb⟩ := writeCell_of_readCell { c0 with alive := ALIVE } hc0
  have hread := readCell_writeCell hb
  have hself : readCell b (x - 1) (y - 1) = some ⟨ALIVE, c0.n_alive_neighbrs⟩ := by
    rw [hread, if_pos ⟨rfl, rfl⟩]
  have hwfb := WF_writeCell hwf hb
  obtain ⟨b2, hb2⟩ := writeCell_of_readCell
    { (⟨ALIVE, c0.n_alive_neighbrs⟩ : Cell) with alive := ALIVE } hself
  have hbb : b2 = b := by
    apply board_ext (WF_writeCell hwfb hb2) hwfb
    intro i j _ _ _ _
    rw [readCell_writeCell hb2 i j]
    by_cases hij : i = x - 1 ∧ j = y - 1
    · rw [if_pos hij, hij.1, hij.2, hself]
    · rw [if_neg hij]
  refine ⟨b, c0, hc0, ?_, hself, ?_, ?_⟩
  · unfold add_living_cell
    rw [if_pos hin]
    simp only [hc0, hb, Option.bind_eq_bind, Option.some_bind, Option.pure_def]
  · intro i j hij
    rw [hread, if_neg hij]
  · unfold add_living_cell
    rw [if_pos hin]
    simp only [hself, hb2, hbb, Option.bind_eq_bind, Option.some_bind, Option.pure_def]

/-- Witness of C18 on the 4 x 5 sample board at the 1-based coordinate `(2, 4)`. -/
theorem add_living_cell_sets_cell_witness :
    WF sampleBoard 4 5 ∧ (1 : Int) ≤ 2 ∧ (2 : Int) ≤ 4 ∧ (1 : Int) ≤ 4 ∧ (4 : Int) ≤ 5 ∧
    ∃ b c0, readCell sampleBoard (2 - 1) (4 - 1) = some c0 ∧
      add_living_cell sampleBoard 4 5 2 4 = some (b, false) ∧
      readCell b (2 - 1) (4 - 1) = some ⟨ALIVE, c0.n_alive_neighbrs⟩ ∧
      (∀ i j, ¬ (i = 2 - 1 ∧ j = 4 - 1) → readCell b i j = readCell sampleBoard i j) ∧
      add_living_cell b 4 5 2 4 = some (b, false) :=
  ⟨by decide, by decide, by decide, by decide, by decide,
    add_living_cell_sets_cell sampleBoard 4 5 2 4 (by decide) (by decide) (by decide)
      (by decide) (by decide)⟩

/-- C19 (manual editing, out of bounds): on an allocated board, `add_living_cell` with
`x < 1`, `x > n_rows`, `y < 1` or `y > n_cols` takes the error branch and returns the board
unchanged, without any board access; with a coordinate inside the grid it does not take the
error branch. So the error branch is taken exactly when the translated coordinate
`(x-1, y-1)` is outside `[0, n_rows) x [0, n_cols)`. -/
theorem add_living_cell_out_of_bounds (board : Board) (n_rows n_cols x y : Int)
    (hwf : WF board n_rows n_cols) :
    ((x < 1 ∨ x > n_rows ∨ y < 1 ∨ y > n_cols) →
      add_living_cell board n_rows n_cols x y = some (board, true)) ∧
    ((∃ b, add_living_cell board n_rows n_cols x y = some (b, true)) ↔
      ¬ (0 ≤ x - 1 ∧ x - 1 < n_rows ∧ 0 ≤ y - 1 ∧ y - 1 < n_cols)) := by
  have hout : ¬ (x - 1 ≥ 0 ∧ x - 1 < n_rows ∧ y - 1 ≥ 0 ∧ y - 1 < n_cols) →
      add_living_cell board n_rows n_cols x y = some (board, true) := by
    intro h
    unfold add_living_cell
    rw [if_neg h]
  refine ⟨fun h => hout (by omega), ?_, fun h => ⟨board, hout (by omega)⟩⟩
  rintro ⟨b, hb⟩ hin
  obtain ⟨b1, hadd⟩ := add_living_cell_inside hwf hin
  rw [hadd] at hb
  simp at hb

/-- Witness of C19 on the 4 x 5 sample board at the 1-based coordinate `(0, 3)`. -/
theorem add_living_cell_out_of_bounds_witness :
    WF sampleBoard 4 5 ∧
    (((0 : Int) < 1 ∨ (0 : Int) > 4 ∨ (3 : Int) < 1 ∨ (3 : Int) > 5) →
      add_living_cell sampleBoard 4 5 0 3 = some (sampleBoard, true)) ∧
    ((∃ b, add_living_cell sampleBoard 4 5 0 3 = some (b, true)) ↔
      ¬ ((0 : Int) ≤ 0 - 1 ∧ (0 : Int) - 1 < 4 ∧ (0 : Int) ≤ 3 - 1 ∧ (3 : Int) - 1 < 5)) :=
  ⟨by decide, add_living_cell_out_of_bounds sampleBoard 4 5 0 3 (by decide)⟩

/-! ## Decoder: error handling -/

theorem read_cells_newline_only (n_rows n_cols : Int) (b : Board)
    (hr : 0 ≤ n_rows) (hc : 0 ≤ n_cols) :
    read_cells n_rows n_cols [NEWLINE_CHAR] b (-1) 0 = Except.ok b := by
  have hguard : ¬ ((-1 : Int) > n_rows + 1 ∨ (0 : Int) > n_cols) := by omega
  simp only [read_cells, if_neg hguard, if_true]

theorem main_read_board_of_scan (u : Uninit) (text : List Char) (h : HeaderScan)
    (board : Board) (hh : fscanf_header u.n_rows u.n_cols 0 text = h) (hret : h.ret ≠ EOF)
    (hc : create_board u.heap h.n_rows h.n_cols = Except.ok board) :
    main_read_board u text =
      match read_cells h.n_rows h.n_cols h.rest board (-1) 0 with
      | Except.error e => Except.error e
      | Except.ok b => Except.ok ⟨h.n_rows, h.n_cols, h.fixed_bounds, b⟩ := by
  subst hh
  unfold main_read_board
  rw [if_neg hret, hc]

theorem create_board_ne_headerMissing (heap : Nat → Nat → Cell) (n_rows n_cols : Int) :
    create_board heap n_rows n_cols ≠ Except.error Fault.headerMissing := by
  unfold create_board
  split_ifs
  · simp
  · simp
  · split <;> simp

theorem read_cells_ne_headerMissing (n_rows n_cols : Int) :
    ∀ (text : List Char) (board : Board) (row col : Int),
      read_cells n_rows n_cols text board row col ≠ Except.error Fault.headerMissing := by
  intro text
  induction text with
  | nil =>
    intro board row col
    simp [read_cells]
  | cons c cs ih =>
    intro board row col
    unfold read_cells
    split_ifs
    · simp
    · exact ih _ _ _
    · simp
    · split
      · simp
      · split
        · simp
        · exact ih _ _ _

theorem main_read_board_headerMissing_iff (u : Uninit) (text : List Char) :
    main_read_board u text = Except.error Fault.headerMissing ↔
      (fscanf_header u.n_rows u.n_cols 0 text).ret = EOF := by
  unfold main_read_board
  constructor
  · intro h
    by_contra hne
    rw [if_neg hne] at h
    split at h
    · rename_i e he
      simp only [Except.error.injEq] at h
      rw [h] at he
      exact create_board_ne_headerMissing _ _ _ he
    · split at h
      · rename_i e he
        simp only [Except.error.injEq] at h
        rw [h] at he
        exact read_cells_ne_headerMissing _ _ _ _ _ _ he
      · simp at h
  · intro h
    rw [if_pos h]

/-- C16 (invalid dimensions) fails on the code for the file path: `get_n_elements` returns
`n` exactly when `1 ≤ n ≤ 50` and the console path rejects every other dimension, but the
board decoder passes the header values to `create_board` unchecked, so that the files
`n_rows:60, n_cols:60, fixed_bounds:0` and `n_rows:0, n_cols:0, fixed_bounds:0` (each with
its newline) decode without error to a 60 x 60 board and to a board without rows. -/
theorem file_path_skips_dimension_check (u : Uninit) :
    (∀ n, get_n_elements n = Except.ok n ↔ (1 ≤ n ∧ n ≤ 50)) ∧
    (∀ heap a b, (a < 1 ∨ a > 50 ∨ b < 1 ∨ b > 50) →
      ∃ e, main_console_board heap a b = Except.error e) ∧
    main_read_board u "n_rows:60, n_cols:60, fixed_bounds:0\n".toList
      = Except.ok ⟨60, 60, 0, List.replicate 60 (List.replicate 60 ⟨DEAD, 0⟩)⟩ ∧
    main_read_board u "n_rows:0, n_cols:0, fixed_bounds:0\n".toList
      = Except.ok ⟨0, 0, 0, []⟩ := by
  have hget : ∀ n, get_n_elements n = Except.ok n ↔ (1 ≤ n ∧ n ≤ 50) := by
    intro n
    unfold get_n_elements NMAX
    by_cases h1 : n < 1
    · rw [if_pos h1]
      constructor
      · intro h
        cases h
      · intro h
        omega
    · rw [if_neg h1]
      by_cases h2 : n > 50
      · rw [if_pos h2]
        constructor
        · intro h
          cases h
        · intro h
          omega
      · rw [if_neg h2]
        exact ⟨fun _ => by omega, fun _ => rfl⟩
  refine ⟨hget, ?_, ?_, ?_⟩
  · intro heap a b hab
    unfold main_console_board
    cases ha : get_n_elements a with
    | error e => exact ⟨e, rfl⟩
    | ok n =>
      cases hb : get_n_elements b with
      | error e => exact ⟨e, rfl⟩
      | ok m =>
        exfalso
        unfold get_n_elements NMAX at ha hb
        split_ifs at ha hb
        omega
  · rw [main_read_board_of_scan u "n_rows:60, n_cols:60, fixed_bounds:0\n".toList
      ⟨3, 60, 60, 0, [NEWLINE_CHAR]⟩
      (List.replicate 60 (List.replicate 60 ⟨DEAD, 0⟩)) rfl (by decide)
      (create_board_replicate u.heap (by decide) (by decide))]
    simp only
    rw [read_cells_newline_only 60 60 _ (by decide) (by decide)]
  · rw [main_read_board_of_scan u "n_rows:0, n_cols:0, fixed_bounds:0\n".toList
      ⟨3, 0, 0, 0, [NEWLINE_CHAR]⟩ [] rfl (by decide)
      (create_board_replicate u.heap (by decide) (by decide))]
    simp only
    rw [read_cells_newline_only 0 0 _ (by decide) (by decide)]

/-- C15 (malformed header) fails on the code: the header `fscanf` is only compared with
`EOF`. A file without the `fixed_bounds` key, and one whose `fixed_bounds` is 7, decode
without error; and on a file whose keys are in another order the call returns 0, leaves
`n_rows` and `n_cols` unset, and decoding goes on to `create_board` instead of taking the
header-error exit. -/
theorem malformed_header_not_rejected (u : Uninit) :
    main_read_board u "n_rows:2, n_cols:2\n10\n01\n".toList
      = Except.ok ⟨2, 2, 0, boardOfAlive [[true, false], [false, true]]⟩ ∧
    main_read_board u "n_rows:1, n_cols:1, fixed_bounds:7\n1\n".toList
      = Except.ok ⟨1, 1, 7, boardOfAlive [[true]]⟩ ∧
    fscanf_header u.n_rows u.n_cols 0 "n_cols:3, n_rows:3, fixed_bounds:0\n000\n".toList
      = ⟨0, u.n_rows, u.n_cols, 0, "cols:3, n_rows:3, fixed_bounds:0\n000\n".toList⟩ ∧
    main_read_board u "n_cols:3, n_rows:3, fixed_bounds:0\n000\n".toList
      ≠ Except.error Fault.headerMissing := by
  refine ⟨?_, ?_, rfl, ?_⟩
  · rw [main_read_board_of_scan u "n_rows:2, n_cols:2\n10\n01\n".toList
      ⟨2, 2, 2, 0, "\n10\n01\n".toList⟩
      (List.replicate 2 (List.replicate 2 ⟨DEAD, 0⟩)) rfl (by decide)
      (create_board_replicate u.heap (by decide) (by decide))]
    rfl
  · rw [main_read_board_of_scan u "n_rows:1, n_cols:1, fixed_bounds:7\n1\n".toList
      ⟨3, 1, 1, 7, "\n1\n".toList⟩
      (List.replicate 1 (List.replicate 1 ⟨DEAD, 0⟩)) rfl (by decide)
      (create_board_replicate u.heap (by decide) (by decide))]
    rfl
  · intro h
    rw [main_read_board_headerMissing_iff] at h
    have hh : fscanf_header u.n_rows u.n_cols 0
        "n_cols:3, n_rows:3, fixed_bounds:0\n000\n".toList
        = ⟨0, u.n_rows, u.n_cols, 0, "cols:3, n_rows:3, fixed_bounds:0\n000\n".toList⟩ := rfl
    rw [hh] at h
    simp only [EOF] at h
    omega

/-- C13 (dimension mismatch) fails on the code: with the header `n_rows:1, n_cols:1`, a body
of two rows is written outside the 1 x 1 board; and the loop itself, run on a board large
enough to hold the writes, reaches the end of a body of two rows, and of a body whose row
has two cells, without taking the dimension-error branch. -/
theorem extra_row_or_cell_not_reported (u : Uninit) :
    main_read_board u "n_rows:1, n_cols:1, fixed_bounds:0\n1\n1\n".toList
      = Except.error Fault.outOfBounds ∧
    read_cells 1 1 "\n1\n1\n".toList (boardOfAlive [[false, false], [false, false]]) (-1) 0
      = Except.ok (boardOfAlive [[true, false], [true, false]]) ∧
    read_cells 1 1 "\n11".toList (boardOfAlive [[false, false], [false, false]]) (-1) 0
      = Except.ok (boardOfAlive [[true, true], [false, false]]) :=
  ⟨rfl, rfl, rfl⟩

theorem read_cells_cons (n_rows n_cols : Int) (c : Char) (cs : List Char) (board : Board)
    (row col : Int) :
    read_cells n_rows n_cols (c :: cs) board row col =
      if row > n_rows + 1 ∨ col > n_cols then Except.error Fault.dimensionMismatch
      else if c = NEWLINE_CHAR then read_cells n_rows n_cols cs board (row + 1) 0
      else if (c.toNat : Int) - ASCII_ADJUST ≠ 0 ∧ (c.toNat : Int) - ASCII_ADJUST ≠ 1 then
        Except.error Fault.anomalousValue
      else
        match readCell board row col with
        | none => Except.error Fault.outOfBounds
        | some cell =>
          match writeCell board row col
              { cell with alive := decide ((c.toNat : Int) - ASCII_ADJUST ≠ 0) } with
          | none => Except.error Fault.outOfBounds
          | some b => read_cells n_rows n_cols cs b row (col + 1) := by
  rw [read_cells]

theorem read_cells_append (n_rows n_cols : Int) (s : List Char) :
    ∀ (pre : List Char) (board b1 : Board) (row col : Int),
      read_cells n_rows n_cols pre board row col = Except.ok b1 →
      read_cells n_rows n_cols (pre ++ s) board row col
        = read_cells n_rows n_cols s b1 (read_position pre (row, col)).1
            (read_position pre (row, col)).2 := by
  intro pre
  induction pre with
  | nil =>
    intro board b1 row col h
    simp only [read_cells, Except.ok.injEq] at h
    subst h
    rfl
  | cons c cs ih =>
    intro board b1 row col h
    rw [List.cons_append, read_cells_cons]
    rw [read_cells_cons] at h
    simp only [read_position]
    split_ifs at h ⊢ with h1 h2 h3
    · exact ih _ _ _ _ h
    · cases hcell : readCell board row col with
      | none =>
        rw [hcell] at h
        cases h
      | some cell =>
        rw [hcell] at h
        simp only at h ⊢
        cases hb : writeCell board row col
            { cell with alive := decide ((c.toNat : Int) - ASCII_ADJUST ≠ 0) } with
        | none =>
          rw [hb] at h
          cases h
        | some b =>
          rw [hb] at h
          simp only at h ⊢
          exact ih _ _ _ _ h

theorem bad_char_code {c : Char} (h0 : c ≠ '0') (h1 : c ≠ '1') :
    (c.toNat : Int) - ASCII_ADJUST ≠ 0 ∧ (c.toNat : Int) - ASCII_ADJUST ≠ 1 := by
  unfold ASCII_ADJUST
  constructor
  · intro h
    apply h0
    have e : c.toNat = 48 := by omega
    rw [← Char.ofNat_toNat c, e]
  · intro h
    apply h1
    have e : c.toNat = 49 := by omega
    rw [← Char.ofNat_toNat c, e]

theorem read_cells_bad_char (n_rows n_cols : Int) {c : Char} (rest : List Char) (b : Board)
    (row col : Int) (h0 : c ≠ '0') (h1 : c ≠ '1') (h2 : c ≠ NEWLINE_CHAR) :
    read_cells n_rows n_cols (c :: rest) b row col =
      if row > n_rows + 1 ∨ col > n_cols then Except.error Fault.dimensionMismatch
      else Except.error Fault.anomalousValue := by
  rw [read_cells_cons, if_neg h2, if_pos (bad_char_code h0 h1)]

/-- C14 as stated fails on the code: after the header `n_rows:1, n_cols:1, fixed_bounds:0`
the body of four newlines followed by `2` contains a character other than `0`, `1` and
newline, and decoding stops with the dimension error, not with the invalid-character
error. -/
theorem invalid_character_after_extra_rows :
    main_read_board sampleUninit "n_rows:1, n_cols:1, fixed_bounds:0\n\n\n\n2".toList
      = Except.error Fault.dimensionMismatch :=
  rfl

/-- C14 (amended): let the header of a text be read in full, with `n_rows` and `n_cols` in
`[1, 50]` and `fixed_bounds` 0 or 1, and let `c` be a character of the body other than `0`,
`1` and newline, with a byte value below 255 (a value that `fgetc`'s result, stored in a
`char`, cannot confuse with `EOF`). If the characters before `c` are read without error on
the freshly created board and leave the loop inside the declared grid (`row < n_rows` and
`col < n_cols`), decoding stops with the invalid-character error. -/
theorem invalid_character_rejected (u : Uninit) (text pre rest : List Char) (c : Char)
    (n_rows n_cols t : Int) (b1 : Board)
    (hhead : fscanf_header u.n_rows u.n_cols 0 text = ⟨3, n_rows, n_cols, t, pre ++ c :: rest⟩)
    (hr0 : 1 ≤ n_rows) (_hr1 : n_rows ≤ 50) (hc0 : 1 ≤ n_cols) (_hc1 : n_cols ≤ 50)
    (_ht : t = 0 ∨ t = 1)
    (h0 : c ≠ '0') (h1 : c ≠ '1') (h2 : c ≠ NEWLINE_CHAR) (_hbyte : c.toNat < 255)
    (hpre : read_cells n_rows n_cols pre
      (List.replicate n_rows.toNat (List.replicate n_cols.toNat ⟨DEAD, 0⟩)) (-1) 0
        = Except.ok b1)
    (hrow : (read_position pre (-1, 0)).1 < n_rows)
    (hcol : (read_position pre (-1, 0)).2 < n_cols) :
    main_read_board u text = Except.error Fault.anomalousValue := by
  rw [main_read_board_of_scan u text _ _ hhead (by show (3 : Int) ≠ EOF; decide)
    (create_board_replicate u.heap (by omega : 0 ≤ n_rows) (by omega : 0 ≤ n_cols))]
  simp only
  rw [read_cells_append _ _ (c :: rest) pre _ b1 (-1) 0 hpre,
    read_cells_bad_char _ _ rest b1 _ _ h0 h1 h2, if_neg (by omega)]

/-- Witness of C14 (amended): the file `n_rows:2, n_cols:2, fixed_bounds:0` with the rows
`10` and `0x`; the `x` is reached at row 1, column 1. -/
theorem invalid_character_rejected_witness :
    fscanf_header sampleUninit.n_rows sampleUninit.n_cols 0
        "n_rows:2, n_cols:2, fixed_bounds:0\n10\n0x\n".toList
      = ⟨3, 2, 2, 0, "\n10\n0".toList ++ 'x' :: "\n".toList⟩ ∧
    (1 : Int) ≤ 2 ∧ (2 : Int) ≤ 50 ∧ (1 : Int) ≤ 2 ∧ (2 : Int) ≤ 50 ∧
    ((0 : Int) = 0 ∨ (0 : Int) = 1) ∧
    'x' ≠ '0' ∧ 'x' ≠ '1' ∧ 'x' ≠ NEWLINE_CHAR ∧ ('x' : Char).toNat < 255 ∧
    read_cells 2 2 "\n10\n0".toList
      (List.replicate (2 : Int).toNat (List.replicate (2 : Int).toNat ⟨DEAD, 0⟩)) (-1) 0
        = Except.ok [[⟨true, 0⟩, ⟨false, 0⟩], [⟨false, 0⟩, ⟨false, 0⟩]] ∧
    (read_position "\n10\n0".toList (-1, 0)).1 < 2 ∧
    (read_position "\n10\n0".toList (-1, 0)).2 < 2 ∧
    main_read_board sampleUninit "n_rows:2, n_cols:2, fixed_bounds:0\n10\n0x\n".toList
      = Except.error Fault.anomalousValue :=
  ⟨rfl, by decide, by decide, by decide, by decide, by decide, by decide, by decide,
    by decide, by decide, rfl, by decide, by decide,
    invalid_character_rejected sampleUninit
      "n_rows:2, n_cols:2, fixed_bounds:0\n10\n0x\n".toList "\n10\n0".toList "\n".toList 'x'
      2 2 0 [[⟨true, 0⟩, ⟨false, 0⟩], [⟨false, 0⟩, ⟨false, 0⟩]]
      rfl (by decide) (by decide) (by decide) (by decide) (by decide)
      (by decide) (by decide) (by decide) (by decide) rfl (by decide) (by decide)⟩

/-! ## Decoder: conforming texts -/

theorem WF_boardOfAlive (lines : List (List Bool)) (n_rows n_cols : Int)
    (hlen : (lines.length : Int) = n_rows) (hrow : ∀ l ∈ lines, (l.length : Int) = n_cols) :
    WF (boardOfAlive lines) n_rows n_cols := by
  unfold WF boardOfAlive
  refine ⟨by simpa using hlen, ?_⟩
  intro row hmem
  simp only [List.mem_map] at hmem
  obtain ⟨l, hl, rfl⟩ := hmem
  simpa using hrow l hl

theorem aliveInt_boardOfAlive (lines : List (List Bool)) (i j : Nat) (hi : i < lines.length)
    (hj : j < (lines[i]).length) :
    aliveInt (boardOfAlive lines) (i : Int) (j : Int) = b2i ((lines[i])[j]) := by
  have hi1 : i < (boardOfAlive lines).length := by simpa [boardOfAlive] using hi
  have hj1 : j < ((boardOfAlive lines)[i]).length := by simpa [boardOfAlive] using hj
  rw [aliveInt_of_readCell (readCell_natCast (boardOfAlive lines) i j hi1 hj1)]
  simp [boardOfAlive]

theorem cellsText_boardOfAlive (lines : List (List Bool)) (i : Nat) (hi : i < lines.length) :
    ∀ (n j : Nat), j + n = (lines[i]).length →
      cellsText (boardOfAlive lines) (i : Int) (j : Int) n = ((lines[i]).drop j).map bit_char := by
  intro n
  induction n with
  | zero =>
    intro j hj
    rw [List.drop_eq_nil_of_le (by omega)]
    rfl
  | succ n ih =>
    intro j hj
    have hjlt : j < (lines[i]).length := by omega
    rw [List.drop_eq_getElem_cons hjlt, List.map_cons]
    have e : ((j : Int) + 1) = ((j + 1 : Nat) : Int) := by push_cast; rfl
    simp only [cellsText]
    rw [e, ih (j + 1) (by omega), aliveInt_boardOfAlive lines i j hi hjlt, print_int_b2i]
    rfl

theorem rowsText_boardOfAlive (lines : List (List Bool)) (n_cols : Int)
    (hrow : ∀ l ∈ lines, (l.length : Int) = n_cols) :
    ∀ (n i : Nat), i + n = lines.length →
      rowsText (boardOfAlive lines) n_cols (i : Int) n = bodyText (lines.drop i) := by
  intro n
  induction n with
  | zero =>
    intro i hi
    rw [List.drop_eq_nil_of_le (by omega)]
    rfl
  | succ n ih =>
    intro i hi
    have hilt : i < lines.length := by omega
    have hlen := hrow _ (List.getElem_mem hilt)
    have e : ((i : Int) + 1) = ((i + 1 : Nat) : Int) := by push_cast; rfl
    have hcells := cellsText_boardOfAlive lines i hilt n_cols.toNat 0 (by omega)
    rw [List.drop_eq_getElem_cons hilt]
    simp only [rowsText, bodyText, List.map_cons, List.flatten_cons]
    rw [e, ih (i + 1) (by omega)]
    have hc0 : cellsText (boardOfAlive lines) (i : Int) 0 n_cols.toNat
        = (lines[i]).map bit_char := by
      simpa using hcells
    rw [hc0]
    simp only [bodyText, List.append_assoc, List.singleton_append]

/-- C12 (conforming files load): for `1 ≤ R, C ≤ 50` and `T` in `{0, 1}`, the text made of
the header `n_rows:R, n_cols:C, fixed_bounds:T`, a newline, and `R` lines of `C` characters
`0`/`1` each ended by a newline decodes without error to `R`, `C`, `T` and the board in
which cell `(i, j)` is alive exactly when character `j` of line `i` is `1` and every
neighbour count is 0. -/
theorem conforming_text_decodes (u : Uninit) (n_rows n_cols t : Int)
    (lines : List (List Bool)) (hr0 : 1 ≤ n_rows) (hr1 : n_rows ≤ 50)
    (hc0 : 1 ≤ n_cols) (hc1 : n_cols ≤ 50) (ht : t = 0 ∨ t = 1)
    (hlen : (lines.length : Int) = n_rows) (hrow : ∀ l ∈ lines, (l.length : Int) = n_cols) :
    main_read_board u (headerText n_rows n_cols t ++ NEWLINE_CHAR :: bodyText lines)
      = Except.ok ⟨n_rows, n_cols, t, boardOfAlive lines⟩ := by
  have hwf := WF_boardOfAlive lines n_rows n_cols hlen hrow
  have hbody : bodyText lines = rowsText (boardOfAlive lines) n_cols 0 n_rows.toNat := by
    have h := rowsText_boardOfAlive lines n_cols hrow lines.length 0 (by omega)
    have e : n_rows.toNat = lines.length := by omega
    rw [e]
    simpa using h.symm
  have htext : headerText n_rows n_cols t ++ NEWLINE_CHAR :: bodyText lines
      = "n_rows:".toList ++ print_int n_rows ++ ", n_cols:".toList ++ print_int n_cols
        ++ ", fixed_bounds:".toList ++ print_int t ++ [NEWLINE_CHAR]
        ++ rowsText (boardOfAlive lines) n_cols 0 n_rows.toNat := by
    rw [hbody]
    simp only [headerText, List.append_assoc, List.singleton_append]
  have hhead := fscanf_header_saved u.n_rows u.n_cols 0 n_rows n_cols t (by omega) hr1
    (by omega) hc1 (by omega) (by omega) (rowsText (boardOfAlive lines) n_cols 0 n_rows.toNat)
  obtain ⟨b0, hb0, hwf0, hdead⟩ := create_board_spec u.heap (by omega : 0 ≤ n_rows)
    (by omega : 0 ≤ n_cols)
  obtain ⟨b, hb, hinv⟩ := read_rows_spec hwf (by omega : 0 ≤ n_cols) n_rows.toNat 0 (-1) 0 b0
    (by norm_num) (le_refl _) (by omega) (by omega) (ReadInv_init hwf0 hwf hdead)
  have hbg : b = boardOfAlive lines := by
    apply board_ext hinv.1 hwf
    intro i j hi hi2 hj hj2
    obtain ⟨c, hc⟩ := readCell_of_bounds hwf hi hi2 hj hj2
    rw [(hinv.2 i j c hc).1 (by omega), hc]
    have hn : c.n_alive_neighbrs = 0 := by
      have hmem : ∃ l ∈ lines, ∃ a ∈ l, c = ⟨a, 0⟩ := by
        unfold readCell at hc
        rw [if_pos ⟨hi, hj⟩] at hc
        cases hrow1 : (boardOfAlive lines)[i.toNat]? with
        | none => simp [hrow1] at hc
        | some row =>
          simp only [hrow1] at hc
          have m1 := List.getElem?_mem hrow1
          have m2 := List.getElem?_mem hc
          unfold boardOfAlive at m1
          simp only [List.mem_map] at m1
          obtain ⟨l, hl, rfl⟩ := m1
          simp only [List.mem_map] at m2
          obtain ⟨a, ha, rfl⟩ := m2
          exact ⟨l, hl, a, ha, rfl⟩
      obtain ⟨_, _, _, _, rfl⟩ := hmem
      rfl
    cases c
    simp only at hn
    rw [hn]
  rw [htext, main_read_board_of_scan u _ _ b0 hhead (by show (3 : Int) ≠ EOF; decide) hb0]
  simp only
  rw [hb, hbg]

/-- Witness of C12: the 2 x 3 board file with the rows `101` and `010`. -/
theorem conforming_text_decodes_witness :
    (1 : Int) ≤ 2 ∧ (2 : Int) ≤ 50 ∧ (1 : Int) ≤ 3 ∧ (3 : Int) ≤ 50 ∧
    ((1 : Int) = 0 ∨ (1 : Int) = 1) ∧
    (([[true, false, true], [false, true, false]] : List (List Bool)).length : Int) = 2 ∧
    (∀ l ∈ ([[true, false, true], [false, true, false]] : List (List Bool)),
      (l.length : Int) = 3) ∧
    main_read_board sampleUninit
        (headerText 2 3 1 ++ NEWLINE_CHAR :: bodyText [[true, false, true], [false, true, false]])
      = Except.ok ⟨2, 3, 1, boardOfAlive [[true, false, true], [false, true, false]]⟩ :=
  ⟨by decide, by decide, by decide, by decide, by decide, by decide, by decide,
    conforming_text_decodes sampleUninit 2 3 1 [[true, false, true], [false, true, false]]
      (by decide) (by decide) (by decide) (by decide) (by decide) (by decide) (by decide)⟩

/-! ## Blinker -/

theorem srcCount_product {board : Board} {n_rows n_cols i j : Int} (A B : Int → Int)
    (hA : ∀ x y, 0 ≤ x → x < n_rows → 0 ≤ y → y < n_cols → aliveInt board x y = A x * B y)
    (hi : 0 ≤ i) (hi2 : i < n_rows) (hj : 0 ≤ j) (hj2 : j < n_cols) :
    srcCount board n_rows n_cols i j
      = (A (down_coord i n_rows) + A i + A (up_coord i n_rows))
          * (B (down_coord j n_cols) + B j + B (up_coord j n_cols)) - A i * B j := by
  obtain ⟨u0, u1⟩ := up_coord_range hi hi2
  obtain ⟨d0, d1⟩ := down_coord_range hi hi2
  obtain ⟨v0, v1⟩ := up_coord_range hj hj2
  obtain ⟨e0, e1⟩ := down_coord_range hj hj2
  unfold srcCount
  rw [hA _ _ d0 d1 e0 e1, hA _ _ hi hi2 e0 e1, hA _ _ u0 u1 e0 e1, hA _ _ d0 d1 hj hj2,
    hA _ _ u0 u1 hj hj2, hA _ _ d0 d1 v0 v1, hA _ _ hi hi2 v0 v1, hA _ _ u0 u1 v0 v1]
  ring

theorem pt_window {n i p : Int} (hi : 0 ≤ i) (hi2 : i < n) (hp : 1 ≤ p) (hp2 : p ≤ n - 2) :
    pt p (down_coord i n) + pt p i + pt p (up_coord i n) = win p i ∧
    ((pt p i = 1 ∧ win p i = 1) ∨ (pt p i = 0 ∧ win p i = 1) ∨ (pt p i = 0 ∧ win p i = 0)) := by
  unfold pt win up_coord down_coord
  split_ifs <;> omega

theorem win_window {n j p : Int} (hn : 5 ≤ n) (hj : 0 ≤ j) (hj2 : j < n)
    (hp : 1 ≤ p) (hp2 : p ≤ n - 2) :
    (pt p j = 1 ∧ win p j = 1 ∧
      win p (down_coord j n) + win p j + win p (up_coord j n) = 3) ∨
    (pt p j = 0 ∧ win p j = 1 ∧
      win p (down_coord j n) + win p j + win p (up_coord j n) = 2) ∨
    (pt p j = 0 ∧ win p j = 0 ∧
      0 ≤ win p (down_coord j n) + win p j + win p (up_coord j n) ∧
      win p (down_coord j n) + win p j + win p (up_coord j n) ≤ 1) := by
  unfold pt win up_coord down_coord
  split_ifs <;> omega

theorem line_rule {a : Bool} {N p1 w1 p2 w2 W2 : Int}
    (h1 : (p1 = 1 ∧ w1 = 1) ∨ (p1 = 0 ∧ w1 = 1) ∨ (p1 = 0 ∧ w1 = 0))
    (h2 : (p2 = 1 ∧ w2 = 1 ∧ W2 = 3) ∨ (p2 = 0 ∧ w2 = 1 ∧ W2 = 2) ∨
      (p2 = 0 ∧ w2 = 0 ∧ 0 ≤ W2 ∧ W2 ≤ 1))
    (hold : b2i a = p1 * w2) (hN : N = w1 * W2 - p1 * w2) :
    b2i (nextAlive 3 2 3 ⟨a, N⟩) = w1 * p2 := by
  unfold nextAlive
  simp only
  rcases h1 with ⟨rfl, rfl⟩ | ⟨rfl, rfl⟩ | ⟨rfl, rfl⟩ <;>
    rcases h2 with ⟨rfl, rfl, rfl⟩ | ⟨rfl, rfl, rfl⟩ | ⟨rfl, rfl, hW0, hW1⟩ <;>
    simp only [mul_one, one_mul, mul_zero, zero_mul, sub_zero] at hold hN <;>
    cases a <;> simp only [b2i] at hold <;>
    first
      | (exfalso; revert hold; decide)
      | (subst hN; simp [b2i, ALIVE, DEAD]; done)
      | (subst hN; simp [b2i, ALIVE, DEAD]; omega)

theorem sum_pt {n p : Int} (hp : 0 ≤ p) (hp2 : p < n) :
    ∑ a in Finset.Ico 0 n, pt p a = 1 := by
  unfold pt
  rw [Finset.sum_boole]
  have hset : Finset.filter (fun a => a = p) (Finset.Ico 0 n) = {p} := by
    ext x
    simp only [Finset.mem_filter, Finset.mem_Ico, Finset.mem_singleton]
    constructor
    · rintro ⟨_, h⟩
      exact h
    · intro h
      exact ⟨by omega, h⟩
  rw [hset, Finset.card_singleton]
  rfl

theorem sum_win {n p : Int} (hp : 1 ≤ p) (hp2 : p ≤ n - 2) :
    ∑ a in Finset.Ico 0 n, win p a = 3 := by
  unfold win
  rw [Finset.sum_boole]
  have hset : Finset.filter (fun a => a = p - 1 ∨ a = p ∨ a = p + 1) (Finset.Ico 0 n)
      = Finset.Icc (p - 1) (p + 1) := by
    ext x
    simp only [Finset.mem_filter, Finset.mem_Ico, Finset.mem_Icc]
    omega
  rw [hset, Int.card_Icc]
  have e : (p + 1 + 1 - (p - 1)).toNat = 3 := by omega
  rw [e]
  rfl

theorem aliveStates_boardOfAlive (flags : List (List Bool)) :
    aliveStates (boardOfAlive flags) = flags := by
  unfold aliveStates boardOfAlive
  simp [List.map_map, Function.comp_def]

theorem WF_boardOfAlive_gridOf (n_rows n_cols : Int) (f : Int → Int → Bool)
    (hr : 0 ≤ n_rows) (hc : 0 ≤ n_cols) :
    WF (boardOfAlive (gridOf n_rows n_cols f)) n_rows n_cols := by
  apply WF_boardOfAlive
  · unfold gridOf
    simp only [List.length_map, List.length_range]
    omega
  · intro l hl
    unfold gridOf at hl
    simp only [List.mem_map, List.mem_range] at hl
    obtain ⟨i, _, rfl⟩ := hl
    simp only [List.length_map, List.length_range]
    omega

theorem aliveStates_eq_gridOf {b : Board} {n_rows n_cols : Int} (f : Int → Int → Bool)
    (hwf : WF b n_rows n_cols) (hr : 0 ≤ n_rows) (hc : 0 ≤ n_cols)
    (h : ∀ i j, 0 ≤ i → i < n_rows → 0 ≤ j → j < n_cols → aliveInt b i j = b2i (f i j)) :
    aliveStates b = gridOf n_rows n_cols f := by
  have e := aliveStates_boardOfAlive (gridOf n_rows n_cols f)
  rw [← e]
  apply aliveStates_ext hwf (WF_boardOfAlive_gridOf n_rows n_cols f hr hc)
  intro i j hi hi2 hj hj2
  rw [h i j hi hi2 hj hj2, aliveInt_gridOf e hi hi2 hj hj2]

/-- One `update_board` with toroidal boundaries and rules (3, 2, 3) on a board whose cells
all have a known next state `G`. -/
theorem update_step_pattern {board : Board} {n_rows n_cols : Int} (G : Int → Int → Int)
    (hwf : WF board n_rows n_cols)
    (hnext : ∀ i j c, readCell board i j = some c →
      b2i (nextAlive 3 2 3 ⟨c.alive, srcCount board n_rows n_cols i j⟩) = G i j) :
    ∃ b, update_board board n_rows n_cols 0 3 2 3
        = some (b, ∑ a in Finset.Ico 0 n_rows, ∑ k in Finset.Ico 0 n_cols, G a k) ∧
      WF b n_rows n_cols ∧
      ∀ i j, 0 ≤ i → i < n_rows → 0 ≤ j → j < n_cols → aliveInt b i j = G i j := by
  obtain ⟨b, cnt, hupd, hwfb, hcells, hcnt⟩ := update_board_spec 3 2 3 hwf (le_refl (0 : Int))
  have hG : ∀ i j, 0 ≤ i → i < n_rows → 0 ≤ j → j < n_cols → aliveInt b i j = G i j := by
    intro i j hi hi2 hj hj2
    obtain ⟨c0, hc0⟩ := readCell_of_bounds hwf hi hi2 hj hj2
    have h1 := (hcells i j c0 hc0).1 ⟨hi, by omega, hj, by omega⟩
    rw [aliveInt_of_readCell h1]
    exact hnext i j c0 hc0
  have hc : cnt = ∑ a in Finset.Ico 0 n_rows, ∑ k in Finset.Ico 0 n_cols, G a k := by
    rw [hcnt]
    simp only [sub_zero]
    apply Finset.sum_congr rfl
    intro a ha
    apply Finset.sum_congr rfl
    intro k hk
    rw [Finset.mem_Ico] at ha hk
    exact hG a k ha.1 ha.2 hk.1 hk.2
  rw [hc] at hupd
  exact ⟨b, hupd, hwfb, hG⟩

theorem b2i_rowFlag (r c i j : Int) :
    b2i (decide (i = r ∧ (j = c - 1 ∨ j = c ∨ j = c + 1))) = pt r i * win c j := by
  unfold pt win b2i
  by_cases h1 : i = r <;> by_cases h2 : j = c - 1 ∨ j = c ∨ j = c + 1 <;> simp [h1, h2]

theorem b2i_colFlag (r c i j : Int) :
    b2i (decide ((i = r - 1 ∨ i = r ∨ i = r + 1) ∧ j = c)) = win r i * pt c j := by
  unfold pt win b2i
  by_cases h1 : i = r - 1 ∨ i = r ∨ i = r + 1 <;> by_cases h2 : j = c <;> simp [h1, h2]

/-- C11 (blinker): on a toroidal board of at least 5 x 5 cells whose only live cells are
`(r, c-1)`, `(r, c)`, `(r, c+1)` with `1 ≤ r ≤ n_rows-2` and `1 ≤ c ≤ n_cols-2`, one
`update_board` with rules (3, 2, 3) returns 3 and leaves exactly `(r-1, c)`, `(r, c)`,
`(r+1, c)` alive, and a second one returns 3 and gives back the alive states of the first
board. -/
theorem blinker_oscillates (board : Board) (n_rows n_cols r c : Int)
    (hwf : WF board n_rows n_cols) (hr : 5 ≤ n_rows) (hc : 5 ≤ n_cols)
    (hr0 : 1 ≤ r) (hr1 : r ≤ n_rows - 2) (hc0 : 1 ≤ c) (hc1 : c ≤ n_cols - 2)
    (hflags : aliveStates board = rowBlinker n_rows n_cols r c) :
    ∃ b1 b2, update_board board n_rows n_cols 0 3 2 3 = some (b1, 3) ∧
      aliveStates b1 = colBlinker n_rows n_cols r c ∧
      update_board b1 n_rows n_cols 0 3 2 3 = some (b2, 3) ∧
      aliveStates b2 = aliveStates board := by
  have hA : ∀ x y, 0 ≤ x → x < n_rows → 0 ≤ y → y < n_cols →
      aliveInt board x y = pt r x * win c y := by
    intro x y x0 x1 y0 y1
    rw [aliveInt_gridOf hflags x0 x1 y0 y1, b2i_rowFlag]
  -- first generation: the row becomes a column
  obtain ⟨b1, hupd1, hwf1, hG1⟩ := update_step_pattern (fun i j => win r i * pt c j) hwf
    (by
      intro i j cell hcell
      obtain ⟨hi, hi2, hj, hj2⟩ := readCell_bounds hwf hcell
      have hold := hA i j hi hi2 hj hj2
      rw [aliveInt_of_readCell hcell] at hold
      have hN := srcCount_product (pt r) (win c) hA hi hi2 hj hj2
      obtain ⟨hs, h1⟩ := pt_window hi hi2 hr0 hr1
      rw [hs] at hN
      exact line_rule h1 (win_window hc hj hj2 hc0 hc1) hold hN)
  have hsum1 : ∑ a in Finset.Ico 0 n_rows, ∑ k in Finset.Ico 0 n_cols, win r a * pt c k = 3 := by
    rw [← Finset.sum_mul_sum, sum_win hr0 hr1, sum_pt (by omega) (by omega)]
    rfl
  simp only [hsum1] at hupd1
  have hB : ∀ x y, 0 ≤ x → x < n_rows → 0 ≤ y → y < n_cols →
      aliveInt b1 x y = win r x * pt c y := hG1
  -- second generation: the column becomes the row again
  obtain ⟨b2, hupd2, hwf2, hG2⟩ := update_step_pattern (fun i j => pt r i * win c j) hwf1
    (by
      intro i j cell hcell
      obtain ⟨hi, hi2, hj, hj2⟩ := readCell_bounds hwf1 hcell
      have hold := hB i j hi hi2 hj hj2
      rw [aliveInt_of_readCell hcell, mul_comm] at hold
      have hN := srcCount_product (win r) (pt c) hB hi hi2 hj hj2
      obtain ⟨hs, h1⟩ := pt_window hj hj2 hc0 hc1
      rw [hs, mul_comm, mul_comm (win r i)] at hN
      show b2i _ = pt r i * win c j
      rw [mul_comm]
      exact line_rule h1 (win_window hr hi hi2 hr0 hr1) hold hN)
  have hsum2 : ∑ a in Finset.Ico 0 n_rows, ∑ k in Finset.Ico 0 n_cols, pt r a * win c k = 3 := by
    rw [← Finset.sum_mul_sum, sum_pt (by omega) (by omega), sum_win hc0 hc1]
    rfl
  simp only [hsum2] at hupd2
  refine ⟨b1, b2, hupd1, ?_, hupd2, ?_⟩
  · unfold colBlinker
    apply aliveStates_eq_gridOf _ hwf1 (by omega) (by omega)
    intro i j hi hi2 hj hj2
    rw [hG1 i j hi hi2 hj hj2, b2i_colFlag]
  · apply aliveStates_ext hwf2 hwf
    intro i j hi hi2 hj hj2
    rw [hG2 i j hi hi2 hj hj2, hA i j hi hi2 hj hj2]

/-- Witness of C11 on the 5 x 5 board with the row of three live cells centred at `(2, 2)`. -/
theorem blinker_oscillates_witness :
    WF blinkerBoard 5 5 ∧ (5 : Int) ≤ 5 ∧ (5 : Int) ≤ 5 ∧
    (1 : Int) ≤ 2 ∧ (2 : Int) ≤ 5 - 2 ∧ (1 : Int) ≤ 2 ∧ (2 : Int) ≤ 5 - 2 ∧
    aliveStates blinkerBoard = rowBlinker 5 5 2 2 ∧
    ∃ b1 b2, update_board blinkerBoard 5 5 0 3 2 3 = some (b1, 3) ∧
      aliveStates b1 = colBlinker 5 5 2 2 ∧
      update_board b1 5 5 0 3 2 3 = some (b2, 3) ∧
      aliveStates b2 = aliveStates blinkerBoard :=
  ⟨by decide, by decide, by decide, by decide, by decide, by decide, by decide, by decide,
    blinker_oscillates blinkerBoard 5 5 2 2 (by decide) (by decide) (by decide) (by decide)
      (by decide) (by decide) (by decide) (by decide)⟩

/-! ## Further properties of the indexer and of the update -/

/-- C27 (indexer inverses): for `bound ≥ 1` and `0 ≤ i < bound`, `down_coord` undoes
`up_coord` and `up_coord` undoes `down_coord`, with `up_coord i bound = (i + 1) mod bound`
and `down_coord i bound = (i + bound - 1) mod bound`. -/
theorem up_down_coord_inverse (bound i : Int) (_hb : 1 ≤ bound) (h0 : 0 ≤ i) (h1 : i < bound) :
    down_coord (up_coord i bound) bound = i ∧ up_coord (down_coord i bound) bound = i ∧
    up_coord i bound = (i + 1) % bound ∧ down_coord i bound = (i + bound - 1) % bound := by
  refine ⟨?_, ?_, up_coord_eq_mod h0 h1, ?_⟩
  · unfold up_coord down_coord
    split_ifs <;> omega
  · unfold up_coord down_coord
    split_ifs <;> omega
  · rw [down_coord_eq_mod h0 h1]
    have e : i + bound - 1 = (i + -1) + 1 * bound := by ring
    rw [e, Int.add_mul_emod_self]

/-- Witness of C27 at `bound = 5`, `i = 4`. -/
theorem up_down_coord_inverse_witness :
    (1 : Int) ≤ 5 ∧ (0 : Int) ≤ 4 ∧ (4 : Int) < 5 ∧
    (down_coord (up_coord 4 5) 5 = 4 ∧ up_coord (down_coord 4 5) 5 = 4 ∧
    up_coord 4 5 = (4 + 1) % 5 ∧ down_coord 4 5 = (4 + 5 - 1) % 5) :=
  ⟨by decide, by decide, by decide, up_down_coord_inverse 5 4 (by decide) (by decide) (by decide)⟩

/-- C26 (degenerate fixed-boundary boards): with `fixed_bounds = 1` on a board with
`n_rows ≤ 2` or `n_cols ≤ 2`, `update_board` returns 0 and changes no alive state, whatever
the rules and the live cells of the board. -/
theorem update_board_thin_fixed (board : Board)
    (n_rows n_cols death_overpop death_underpop birth_repro : Int)
    (hwf : WF board n_rows n_cols) (hthin : n_rows ≤ 2 ∨ n_cols ≤ 2) :
    ∃ b, update_board board n_rows n_cols 1 death_overpop death_underpop birth_repro
        = some (b, 0) ∧
      aliveStates b = aliveStates board := by
  obtain ⟨b, cnt, hupd, hwfb, hcells, hcnt⟩ :=
    update_board_spec death_overpop death_underpop birth_repro hwf (by decide : (0 : Int) ≤ 1)
  have h0 : cnt = 0 := by
    rw [hcnt]
    apply Finset.sum_eq_zero
    intro a ha
    apply Finset.sum_eq_zero
    intro k hk
    rw [Finset.mem_Ico] at ha hk
    omega
  rw [h0] at hupd
  refine ⟨b, hupd, aliveStates_ext hwfb hwf ?_⟩
  intro i j hi hi2 hj hj2
  obtain ⟨c0, hc0⟩ := readCell_of_bounds hwf hi hi2 hj hj2
  rw [aliveInt_of_readCell ((hcells i j c0 hc0).2 (by omega)), aliveInt_of_readCell hc0]

/-- Witness of C26 on the 2 x 4 board with rules (3, 2, 3). -/
theorem update_board_thin_fixed_witness :
    WF thinBoard 2 4 ∧ ((2 : Int) ≤ 2 ∨ (4 : Int) ≤ 2) ∧
    ∃ b, update_board thinBoard 2 4 1 3 2 3 = some (b, 0) ∧
      aliveStates b = aliveStates thinBoard :=
  ⟨by decide, by decide, update_board_thin_fixed thinBoard 2 4 3 2 3 (by decide) (by decide)⟩

theorem nextAlive_default (a : Bool) (n : Int) :
    nextAlive 3 2 3 ⟨a, n⟩ = textbook_rule a n := by
  unfold nextAlive textbook_rule
  simp only
  split_ifs with h1 h2 h3
  · simp only [DEAD]
    symm
    rw [decide_eq_false_iff_not]
    omega
  · simp only [DEAD]
    symm
    rw [decide_eq_false_iff_not]
    omega
  · simp only [ALIVE]
    symm
    rw [decide_eq_true_iff]
    exact Or.inl h3
  · cases a
    · symm
      rw [decide_eq_false_iff_not]
      simp [h3]
    · symm
      rw [decide_eq_true_iff]
      exact Or.inr ⟨rfl, by omega⟩

/-- C23 (default rules are B3/S23): with rules (3, 2, 3) and `fixed_bounds = 0`,
`update_board` returns, and every cell is alive afterwards if and only if its wrapped
neighbour count on the old board is 3, or it was alive and that count is 2. -/
theorem update_board_default_is_textbook (board : Board) (n_rows n_cols : Int)
    (hwf : WF board n_rows n_cols) :
    ∃ b cnt, update_board board n_rows n_cols 0 3 2 3 = some (b, cnt) ∧
      ∀ i j, 0 ≤ i → i < n_rows → 0 ≤ j → j < n_cols →
        ∃ c0 c1, readCell board i j = some c0 ∧ readCell b i j = some c1 ∧
          c1.alive = textbook_rule c0.alive (wrappedCount board n_rows n_cols i j) ∧
          (c1.alive = true ↔ (wrappedCount board n_rows n_cols i j = 3 ∨
            (c0.alive = true ∧ wrappedCount board n_rows n_cols i j = 2))) := by
  obtain ⟨b, cnt, hupd, _, hcells, _⟩ := update_board_spec 3 2 3 hwf (le_refl (0 : Int))
  refine ⟨b, cnt, hupd, ?_⟩
  intro i j hi hi2 hj hj2
  obtain ⟨c0, hc0⟩ := readCell_of_bounds hwf hi hi2 hj hj2
  have h1 := (hcells i j c0 hc0).1 ⟨hi, by omega, hj, by omega⟩
  rw [nextAlive_default, srcCount_eq_wrappedCount board hi hi2 hj hj2] at h1
  refine ⟨c0, _, hc0, h1, rfl, ?_⟩
  simp only [textbook_rule, decide_eq_true_iff]

/-- Witness of C23 on the 4 x 5 sample board. -/
theorem update_board_default_is_textbook_witness :
    WF sampleBoard 4 5 ∧
    ∃ b cnt, update_board sampleBoard 4 5 0 3 2 3 = some (b, cnt) ∧
      ∀ i j, 0 ≤ i → i < 4 → 0 ≤ j → j < 5 →
        ∃ c0 c1, readCell sampleBoard i j = some c0 ∧ readCell b i j = some c1 ∧
          c1.alive = textbook_rule c0.alive (wrappedCount sampleBoard 4 5 i j) ∧
          (c1.alive = true ↔ (wrappedCount sampleBoard 4 5 i j = 3 ∨
            (c0.alive = true ∧ wrappedCount sampleBoard 4 5 i j = 2))) :=
  ⟨by decide, update_board_default_is_textbook sampleBoard 4 5 (by decide)⟩

theorem srcCount_eq_positions_sum (board : Board) (n_rows n_cols i j : Int) :
    srcCount board n_rows n_cols i j
      = ((neighbour_positions n_rows n_cols i j).map (fun p => aliveInt board p.1 p.2)).sum := by
  unfold srcCount neighbour_positions
  simp only [List.map_cons, List.map_nil, List.sum_cons, List.sum_nil]
  ring

/-- C24 (no double counting): for `n_rows ≥ 3` and `n_cols ≥ 3`, the count that
`calc_n_neighbours` stores for a cell `(i, j)` is the sum of the alive states at eight
positions that are pairwise distinct and all different from `(i, j)`; on a 1 x 1 board the
eight positions are all `(0, 0)`, and a live cell gets the count 8. -/
theorem neighbour_positions_distinct (board : Board) (n_rows n_cols i j : Int)
    (hwf : WF board n_rows n_cols) (hr : 3 ≤ n_rows) (hc : 3 ≤ n_cols)
    (hi : 0 ≤ i) (hi2 : i < n_rows) (hj : 0 ≤ j) (hj2 : j < n_cols) :
    (∃ b c, calc_n_neighbours board n_rows n_cols = some b ∧ readCell b i j = some c ∧
      c.n_alive_neighbrs
        = ((neighbour_positions n_rows n_cols i j).map (fun p => aliveInt board p.1 p.2)).sum) ∧
    (neighbour_positions n_rows n_cols i j).Nodup ∧
    (i, j) ∉ neighbour_positions n_rows n_cols i j ∧
    neighbour_positions 1 1 0 0 = List.replicate 8 (0, 0) ∧
    ∀ k : Int, calc_n_neighbours [[⟨ALIVE, k⟩]] 1 1 = some [[⟨ALIVE, 8⟩]] := by
  have hu : up_coord i n_rows ≠ i ∧ down_coord i n_rows ≠ i ∧
      up_coord i n_rows ≠ down_coord i n_rows := by
    unfold up_coord down_coord
    split_ifs <;> omega
  have hv : up_coord j n_cols ≠ j ∧ down_coord j n_cols ≠ j ∧
      up_coord j n_cols ≠ down_coord j n_cols := by
    unfold up_coord down_coord
    split_ifs <;> omega
  obtain ⟨hu1, hu2, hu3⟩ := hu
  obtain ⟨hv1, hv2, hv3⟩ := hv
  refine ⟨?_, ?_, ?_, rfl, ?_⟩
  · obtain ⟨b, hb, _, _, hcells⟩ := calc_n_neighbours_spec hwf
    obtain ⟨c0, hc0⟩ := readCell_of_bounds hwf hi hi2 hj hj2
    exact ⟨b, _, hb, hcells i j c0 hc0, srcCount_eq_positions_sum board n_rows n_cols i j⟩
  · unfold neighbour_positions
    generalize up_coord i n_rows = ui at hu1 hu3
    generalize down_coord i n_rows = di at hu2 hu3
    generalize up_coord j n_cols = uj at hv1 hv3
    generalize down_coord j n_cols = dj at hv2 hv3
    simp only [List.nodup_cons, List.mem_cons, List.mem_singleton, Prod.mk.injEq,
      List.not_mem_nil, List.nodup_nil, not_false_eq_true, and_true, or_false]
    omega
  · unfold neighbour_positions
    generalize up_coord i n_rows = ui at hu1 hu3
    generalize down_coord i n_rows = di at hu2 hu3
    generalize up_coord j n_cols = uj at hv1 hv3
    generalize down_coord j n_cols = dj at hv2 hv3
    simp only [List.mem_cons, List.mem_singleton, Prod.mk.injEq, List.not_mem_nil, or_false]
    omega
  · intro k
    rfl

/-- Witness of C24 on the 4 x 5 sample board at cell `(0, 4)`. -/
theorem neighbour_positions_distinct_witness :
    WF sampleBoard 4 5 ∧ (3 : Int) ≤ 4 ∧ (3 : Int) ≤ 5 ∧
    (0 : Int) ≤ 0 ∧ (0 : Int) < 4 ∧ (0 : Int) ≤ 4 ∧ (4 : Int) < 5 ∧
    ((∃ b c, calc_n_neighbours sampleBoard 4 5 = some b ∧ readCell b 0 4 = some c ∧
      c.n_alive_neighbrs
        = ((neighbour_positions 4 5 0 4).map (fun p => aliveInt sampleBoard p.1 p.2)).sum) ∧
    (neighbour_positions 4 5 0 4).Nodup ∧
    ((0 : Int), (4 : Int)) ∉ neighbour_positions 4 5 0 4 ∧
    neighbour_positions 1 1 0 0 = List.replicate 8 (0, 0) ∧
    ∀ k : Int, calc_n_neighbours [[⟨ALIVE, k⟩]] 1 1 = some [[⟨ALIVE, 8⟩]]) :=
  ⟨by decide, by decide, by decide, by decide, by decide, by decide, by decide,
    neighbour_positions_distinct sampleBoard 4 5 0 4 (by decide) (by decide) (by decide)
      (by decide) (by decide) (by decide) (by decide)⟩

theorem aliveInt_congr {g1 g2 : Board} (h : aliveStates g1 = aliveStates g2) (i j : Int) :
    aliveInt g1 i j = aliveInt g2 i j := by
  have hrow : (aliveStates g1)[i.toNat]? = (aliveStates g2)[i.toNat]? := by rw [h]
  unfold aliveStates at hrow
  rw [List.getElem?_map, List.getElem?_map] at hrow
  unfold aliveInt readCell
  by_cases hij : 0 ≤ i ∧ 0 ≤ j
  · rw [if_pos hij, if_pos hij]
    cases h1 : g1[i.toNat]? with
    | none =>
      cases h2 : g2[i.toNat]? with
      | none => rfl
      | some r2 => simp [h1, h2] at hrow
    | some r1 =>
      cases h2 : g2[i.toNat]? with
      | none => simp [h1, h2] at hrow
      | some r2 =>
        simp only [h1, h2, Option.map_some', Option.some.injEq] at hrow
        have hcell := congrArg (fun l => l[j.toNat]?) hrow
        simp only [List.getElem?_map] at hcell
        cases k1 : r1[j.toNat]? with
        | none =>
          cases k2 : r2[j.toNat]? with
          | none => simp only [k1, k2]
          | some c2 => simp [k1, k2] at hcell
        | some c1 =>
          cases k2 : r2[j.toNat]? with
          | none => simp [k1, k2] at hcell
          | some c2 =>
            simp only [k1, k2, Option.map_some', Option.some.injEq] at hcell
            simp only [k1, k2, hcell]
  · rw [if_neg hij, if_neg hij]

theorem srcCount_congr {g1 g2 : Board} (h : aliveStates g1 = aliveStates g2)
    (n_rows n_cols i j : Int) :
    srcCount g1 n_rows n_cols i j = srcCount g2 n_rows n_cols i j := by
  simp only [srcCount, aliveInt_congr h]

/-- C22 (neighbour counts are transient): two boards of the same dimensions with the same
alive states, whatever their stored neighbour counts, give the same result of
`update_board` for the same `fixed_bounds ≥ 0` and rules: the same returned count and the
same board, alive states and neighbour counts alike. -/
theorem update_board_ignores_stored_counts (g1 g2 : Board)
    (n_rows n_cols fixed_bounds death_overpop death_underpop birth_repro : Int)
    (hwf1 : WF g1 n_rows n_cols) (hwf2 : WF g2 n_rows n_cols) (hfb : 0 ≤ fixed_bounds)
    (halive : aliveStates g1 = aliveStates g2) :
    ∃ b cnt,
      update_board g1 n_rows n_cols fixed_bounds death_overpop death_underpop birth_repro
        = some (b, cnt) ∧
      update_board g2 n_rows n_cols fixed_bounds death_overpop death_underpop birth_repro
        = some (b, cnt) := by
  obtain ⟨b1, cnt1, hupd1, hwfb1, hcells1, hcnt1⟩ :=
    update_board_spec death_overpop death_underpop birth_repro hwf1 hfb
  obtain ⟨b2, cnt2, hupd2, hwfb2, hcells2, hcnt2⟩ :=
    update_board_spec death_overpop death_underpop birth_repro hwf2 hfb
  have hb : b2 = b1 := by
    apply board_ext hwfb2 hwfb1
    intro i j hi hi2 hj hj2
    obtain ⟨c1, hc1⟩ := readCell_of_bounds hwf1 hi hi2 hj hj2
    obtain ⟨c2, hc2⟩ := readCell_of_bounds hwf2 hi hi2 hj hj2
    have hal : c1.alive = c2.alive := by
      have e := aliveInt_congr halive i j
      rw [aliveInt_of_readCell hc1, aliveInt_of_readCell hc2] at e
      exact b2i_injective e
    have hs := srcCount_congr halive n_rows n_cols i j
    by_cases hreg : fixed_bounds ≤ i ∧ i < n_rows - fixed_bounds ∧
        fixed_bounds ≤ j ∧ j < n_cols - fixed_bounds
    · rw [(hcells1 i j c1 hc1).1 hreg, (hcells2 i j c2 hc2).1 hreg, hal, hs]
    · rw [(hcells1 i j c1 hc1).2 hreg, (hcells2 i j c2 hc2).2 hreg, hal, hs]
  subst hb
  have hc : cnt2 = cnt1 := by rw [hcnt1, hcnt2]
  subst hc
  exact ⟨b2, cnt2, hupd1, hupd2⟩

/-- Witness of C22: the 4 x 5 sample board with stale counts and the same board with every
count 0, with fixed boundaries and rules (3, 2, 3). -/
theorem update_board_ignores_stored_counts_witness :
    WF sampleBoard 4 5 ∧ WF sampleBoardFresh 4 5 ∧ (0 : Int) ≤ 1 ∧
    aliveStates sampleBoard = aliveStates sampleBoardFresh ∧
    ∃ b cnt, update_board sampleBoard 4 5 1 3 2 3 = some (b, cnt) ∧
      update_board sampleBoardFresh 4 5 1 3 2 3 = some (b, cnt) :=
  ⟨by decide, by decide, by decide, by decide,
    update_board_ignores_stored_counts sampleBoard sampleBoardFresh 4 5 1 3 2 3
      (by decide) (by decide) (by decide) (by decide)⟩

/-- C21 (topology only restricts the writes): on the same board and rules, the update with
`fixed_bounds = 1` and the update with `fixed_bounds = 0` both return; every cell, border
included, holds the same neighbour count after both, namely its wrapped count on the input;
and every interior cell (`1 ≤ i ≤ n_rows-2`, `1 ≤ j ≤ n_cols-2`) has the same alive state
after both. -/
theorem topology_only_restricts_writes (board : Board)
    (n_rows n_cols death_overpop death_underpop birth_repro : Int)
    (hwf : WF board n_rows n_cols) :
    ∃ bt ct bf cf,
      update_board board n_rows n_cols 0 death_overpop death_underpop birth_repro
        = some (bt, ct) ∧
      update_board board n_rows n_cols 1 death_overpop death_underpop birth_repro
        = some (bf, cf) ∧
      ∀ i j, 0 ≤ i → i < n_rows → 0 ≤ j → j < n_cols →
        ∃ xt xf, readCell bt i j = some xt ∧ readCell bf i j = some xf ∧
          xf.n_alive_neighbrs = xt.n_alive_neighbrs ∧
          xf.n_alive_neighbrs = wrappedCount board n_rows n_cols i j ∧
          (1 ≤ i → i ≤ n_rows - 2 → 1 ≤ j → j ≤ n_cols - 2 → xf.alive = xt.alive) := by
  obtain ⟨bt, ct, hupdt, _, hcellst, _⟩ :=
    update_board_spec death_overpop death_underpop birth_repro hwf (le_refl (0 : Int))
  obtain ⟨bf, cf, hupdf, _, hcellsf, _⟩ :=
    update_board_spec death_overpop death_underpop birth_repro hwf (by decide : (0 : Int) ≤ 1)
  refine ⟨bt, ct, bf, cf, hupdt, hupdf, ?_⟩
  intro i j hi hi2 hj hj2
  obtain ⟨c0, hc0⟩ := readCell_of_bounds hwf hi hi2 hj hj2
  have ht := (hcellst i j c0 hc0).1 ⟨hi, by omega, hj, by omega⟩
  have hw := srcCount_eq_wrappedCount board hi hi2 hj hj2
  by_cases hreg : (1 : Int) ≤ i ∧ i < n_rows - 1 ∧ (1 : Int) ≤ j ∧ j < n_cols - 1
  · exact ⟨_, _, ht, (hcellsf i j c0 hc0).1 hreg, rfl, hw, fun _ _ _ _ => rfl⟩
  · exact ⟨_, _, ht, (hcellsf i j c0 hc0).2 hreg, rfl, hw,
      fun a1 a2 a3 a4 => absurd ⟨a1, by omega, a3, by omega⟩ hreg⟩

/-- Witness of C21 on the 4 x 5 sample board with rules (3, 2, 3). -/
theorem topology_only_restricts_writes_witness :
    WF sampleBoard 4 5 ∧
    ∃ bt ct bf cf,
      update_board sampleBoard 4 5 0 3 2 3 = some (bt, ct) ∧
      update_board sampleBoard 4 5 1 3 2 3 = some (bf, cf) ∧
      ∀ i j, 0 ≤ i → i < 4 → 0 ≤ j → j < 5 →
        ∃ xt xf, readCell bt i j = some xt ∧ readCell bf i j = some xf ∧
          xf.n_alive_neighbrs = xt.n_alive_neighbrs ∧
          xf.n_alive_neighbrs = wrappedCount sampleBoard 4 5 i j ∧
          (1 ≤ i → i ≤ 4 - 2 → 1 ≤ j → j ≤ 5 - 2 → xf.alive = xt.alive) :=
  ⟨by decide, topology_only_restricts_writes sampleBoard 4 5 3 2 3 (by decide)⟩

theorem srcCount_all_dead {board : Board} {n_rows n_cols i j : Int}
    (hdead : aliveStates board = gridOf n_rows n_cols (fun _ _ => false))
    (hi : 0 ≤ i) (hi2 : i < n_rows) (hj : 0 ≤ j) (hj2 : j < n_cols) :
    srcCount board n_rows n_cols i j = 0 := by
  have hA : ∀ x y, 0 ≤ x → x < n_rows → 0 ≤ y → y < n_cols →
      aliveInt board x y = (fun _ => (0 : Int)) x * (fun _ => (0 : Int)) y := by
    intro x y x0 x1 y0 y1
    rw [aliveInt_gridOf hdead x0 x1 y0 y1]
    simp [b2i]
  rw [srcCount_product (fun _ => (0 : Int)) (fun _ => (0 : Int)) hA hi hi2 hj hj2]
  simp

theorem WF_cols_nonneg {board : Board} {n_rows n_cols : Int} (hwf : WF board n_rows n_cols)
    (hr : 0 < n_rows) : 0 ≤ n_cols := by
  have h1 := hwf.1
  rcases board with _ | ⟨row, rest⟩
  · simp at h1
    omega
  · have := hwf.2 row (List.mem_cons_self _ _)
    omega

theorem sum_ones_grid {board : Board} {n_rows n_cols : Int} (hwf : WF board n_rows n_cols) :
    ∑ _a in Finset.Ico 0 n_rows, ∑ _k in Finset.Ico 0 n_cols, (1 : Int) = n_rows * n_cols := by
  have hr : 0 ≤ n_rows := by
    have := hwf.1
    omega
  simp only [Finset.sum_const, Int.card_Ico, sub_zero, nsmul_eq_mul, mul_one]
  by_cases h0 : n_rows = 0
  · simp [h0]
  · have hc := WF_cols_nonneg hwf (by omega)
    rw [Int.toNat_of_nonneg hr, Int.toNat_of_nonneg hc]

/-- C25 (empty board): on a board whose cells are all dead, with `fixed_bounds` 0 or 1 and
any rules with `birth_repro ≠ 0`, `update_board` returns 0 and leaves every cell dead; but
with the rules `death_overpop = 3`, `death_underpop = 0`, `birth_repro = 0` and toroidal
boundaries the same board comes out with every cell alive, the call returning the number
of cells. -/
theorem empty_board_stays_empty (board : Board)
    (n_rows n_cols fixed_bounds death_overpop death_underpop birth_repro : Int)
    (hwf : WF board n_rows n_cols) (hb : fixed_bounds = 0 ∨ fixed_bounds = 1)
    (hrepro : birth_repro ≠ 0)
    (hdead : aliveStates board = gridOf n_rows n_cols (fun _ _ => false)) :
    (∃ b, update_board board n_rows n_cols fixed_bounds death_overpop death_underpop birth_repro
        = some (b, 0) ∧
      aliveStates b = aliveStates board) ∧
    (∃ b, update_board board n_rows n_cols 0 3 0 0 = some (b, n_rows * n_cols) ∧
      ∀ i j, 0 ≤ i → i < n_rows → 0 ≤ j → j < n_cols →
        ∃ c, readCell b i j = some c ∧ c.alive = ALIVE) := by
  have hfalse : ∀ i j c, readCell board i j = some c → c.alive = false := by
    intro i j c hc
    obtain ⟨hi, hi2, hj, hj2⟩ := readCell_bounds hwf hc
    have e := aliveInt_gridOf hdead hi hi2 hj hj2
    rw [aliveInt_of_readCell hc] at e
    exact b2i_injective e
  constructor
  · obtain ⟨b, cnt, hupd, hwfb, hcells, hcnt⟩ :=
      update_board_spec death_overpop death_underpop birth_repro hwf
        (by omega : 0 ≤ fixed_bounds)
    have hsame : ∀ i j, 0 ≤ i → i < n_rows → 0 ≤ j → j < n_cols → aliveInt b i j = 0 := by
      intro i j hi hi2 hj hj2
      obtain ⟨c0, hc0⟩ := readCell_of_bounds hwf hi hi2 hj hj2
      have hal := hfalse i j c0 hc0
      by_cases hreg : fixed_bounds ≤ i ∧ i < n_rows - fixed_bounds ∧
          fixed_bounds ≤ j ∧ j < n_cols - fixed_bounds
      · rw [aliveInt_of_readCell ((hcells i j c0 hc0).1 hreg),
          srcCount_all_dead hdead hi hi2 hj hj2, hal]
        unfold nextAlive
        simp only
        split_ifs with h1 h2 h3
        · rfl
        · rfl
        · exact absurd h3.symm hrepro
        · rfl
      · rw [aliveInt_of_readCell ((hcells i j c0 hc0).2 hreg), hal]
        rfl
    have h0 : cnt = 0 := by
      rw [hcnt]
      apply Finset.sum_eq_zero
      intro a ha
      apply Finset.sum_eq_zero
      intro k hk
      rw [Finset.mem_Ico] at ha hk
      exact hsame a k (by omega) (by omega) (by omega) (by omega)
    rw [h0] at hupd
    refine ⟨b, hupd, aliveStates_ext hwfb hwf ?_⟩
    intro i j hi hi2 hj hj2
    obtain ⟨c0, hc0⟩ := readCell_of_bounds hwf hi hi2 hj hj2
    rw [hsame i j hi hi2 hj hj2, aliveInt_of_readCell hc0, hfalse i j c0 hc0]
    rfl
  · obtain ⟨b, cnt, hupd, hwfb, hcells, hcnt⟩ :=
      update_board_spec 3 0 0 hwf (le_refl (0 : Int))
    have hall : ∀ i j, 0 ≤ i → i < n_rows → 0 ≤ j → j < n_cols →
        readCell b i j = some ⟨ALIVE, 0⟩ := by
      intro i j hi hi2 hj hj2
      obtain ⟨c0, hc0⟩ := readCell_of_bounds hwf hi hi2 hj hj2
      rw [(hcells i j c0 hc0).1 ⟨hi, by omega, hj, by omega⟩,
        srcCount_all_dead hdead hi hi2 hj hj2]
      rfl
    have hc : cnt = n_rows * n_cols := by
      rw [hcnt, ← sum_ones_grid hwf]
      simp only [sub_zero]
      apply Finset.sum_congr rfl
      intro a ha
      apply Finset.sum_congr rfl
      intro k hk
      rw [Finset.mem_Ico] at ha hk
      rw [aliveInt_of_readCell (hall a k ha.1 ha.2 hk.1 hk.2)]
      rfl
    rw [hc] at hupd
    exact ⟨b, hupd, fun i j hi hi2 hj hj2 => ⟨_, hall i j hi hi2 hj hj2, rfl⟩⟩

/-- Witness of C25 on the 2 x 3 board of dead cells with toroidal boundaries and rules
(3, 2, 3). -/
theorem empty_board_stays_empty_witness :
    WF deadBoard 2 3 ∧ ((0 : Int) = 0 ∨ (0 : Int) = 1) ∧ (3 : Int) ≠ 0 ∧
    aliveStates deadBoard = gridOf 2 3 (fun _ _ => false) ∧
    ((∃ b, update_board deadBoard 2 3 0 3 2 3 = some (b, 0) ∧
      aliveStates b = aliveStates deadBoard) ∧
    (∃ b, update_board deadBoard 2 3 0 3 0 0 = some (b, 2 * 3) ∧
      ∀ i j, 0 ≤ i → i < 2 → 0 ≤ j → j < 3 →
        ∃ c, readCell b i j = some c ∧ c.alive = ALIVE)) :=
  ⟨by decide, by decide, by decide, by decide,
    empty_board_stays_empty deadBoard 2 3 0 3 2 3 (by decide) (by decide) (by decide)
      (by decide)⟩

end GameOfLife
